import Mathlib

/-!
# ashell: command pipeline and raw-mode line editor

A shallow embedding of `src/ashell.cpp`.

* A C++ `char` is the `Char` with the same code; a `std::string` is a
  `List Char`; `string::npos` is `none`.
* A file descriptor is an `Int` (`-1` is the failure / "no save" value).
* The descriptor table of one process is a list of slots indexed by descriptor;
  a slot holds the open stream the descriptor refers to.  The table is
  unbounded: allocating the lowest free descriptor always succeeds, so `dup`
  fails only on a closed source, `dup2` only on a closed source, `open` only
  when the file system refuses the path, and `pipe` never.
* `fork` is modelled from the calling process's side: the child works on its
  own copy of the table, so the caller's table is untouched; the command a
  child re-enters `process_command` with is recorded.
* The outside world (which paths `open` accepts, whether `execvp` finds the
  program, whether `ff` meets a `stat` failure) is an `Env` of oracles.
-/

namespace Ashell

/-! ## `std::string` members used by the program -/

namespace Str

/-- Index of the first character satisfying `p`, if any. -/
def findIdx (p : Char → Bool) : List Char → Option Nat
  | [] => none
  | c :: cs => if p c then some 0 else (findIdx p cs).map (· + 1)

/-- Index of the first character at position `pos` or later satisfying `p`. -/
def findFrom (p : Char → Bool) (s : List Char) (pos : Nat) : Option Nat :=
  (findIdx p (s.drop pos)).map (· + pos)

/-- The member `s.find(c, pos)`. -/
def find (s : List Char) (c : Char) (pos : Nat) : Option Nat :=
  findFrom (fun x => x == c) s pos

/-- The member `s.find_first_not_of(c, pos)`. -/
def find_first_not_of (s : List Char) (c : Char) (pos : Nat) : Option Nat :=
  findFrom (fun x => x != c) s pos

/-- The member `s.find_first_of(set, pos)`. -/
def find_first_of (s : List Char) (set : List Char) (pos : Nat) : Option Nat :=
  findFrom (fun x => set.contains x) s pos

/-- The member `s.find_last_of(c)`: index of the last occurrence of `c`. -/
def find_last_of (c : Char) : List Char → Option Nat
  | [] => none
  | x :: xs =>
    match find_last_of c xs with
    | some i => some (i + 1)
    | none => if x == c then some 0 else none

/-- The member `s.substr(pos, n)` for `pos ≤ s.length` (every call site
satisfies this, so the `out_of_range` exception is never raised). -/
def substr (s : List Char) (pos n : Nat) : List Char :=
  (s.drop pos).take n

/-- The member `s.erase(pos, n)` for `pos ≤ s.length`. -/
def erase (s : List Char) (pos n : Nat) : List Char :=
  s.take pos ++ s.drop (pos + n)

end Str

/-! ## Descriptor table and system calls -/

/-- An open stream (open file description). -/
inductive Stream where
  | inherited (n : Nat)
  | pipeRead (k : Nat)
  | pipeWrite (k : Nat)
  | file (name : List Char) (k : Nat)
  deriving DecidableEq, Repr

/-- What a process does that is visible from outside, in order. -/
inductive Event where
  /-- `runBg` forked a child that runs `process_command(cmd, true)`. -/
  | bg (cmd : List Char)
  /-- `setupPipe` forked a child that runs `process_command(cmd, true)`. -/
  | pipeStage (cmd : List Char)
  /-- A built-in (`pwd`, `cd`, `ls`, `ff`) was called on `cmd`.  The built-ins
  leave the descriptor table as they found it (`opendir` is paired with
  `closedir`, forked helpers work on their own copy). -/
  | builtin (name : List Char) (cmd : List Char)
  /-- A child was forked to run `execvp(parse(cmd))`; `failed` tells that
  `execvp` returned and the child wrote `Failed to execute cmd` to descriptor 2. -/
  | exec (cmd : List Char) (failed : Bool)
  /-- The process itself wrote `msg` to descriptor 2. -/
  | err (msg : List Char)
  deriving DecidableEq, Repr

/-- The state of one process. -/
structure Proc where
  /-- Descriptor table: slot `i` is the stream descriptor `i` refers to. -/
  fdt : List (Option Stream)
  /-- Number of streams created so far (names fresh streams, indexes `open` calls). -/
  nobj : Nat
  /-- Events so far, oldest first. -/
  trace : List Event
  deriving DecidableEq, Repr

/-- The outside world. -/
structure Env where
  /-- Whether the `open` call number `k` of the process, on `path`, succeeds. -/
  openOk : Nat → List Char → Bool
  /-- Whether `execvp` fails for this command text. -/
  execFails : List Char → Bool
  /-- Whether `ff_recur`, run in the calling process for this command text,
  meets a `stat` failure (it then calls `exit(EXIT_FAILURE)`). -/
  ffStatFails : List Char → Bool

/-- Slot `i` of a table; slots beyond the list are closed. -/
def slot : List (Option Stream) → Nat → Option Stream
  | [], _ => none
  | x :: _, 0 => x
  | _ :: xs, i + 1 => slot xs i

/-- Table with slot `i` set to `v`. -/
def setSlot : List (Option Stream) → Nat → Option Stream → List (Option Stream)
  | [], 0, v => [v]
  | [], i + 1, v => none :: setSlot [] i v
  | _ :: xs, 0, v => v :: xs
  | x :: xs, i + 1, v => x :: setSlot xs i v

/-- Lowest descriptor that is not open. -/
def lowestFree : List (Option Stream) → Nat
  | [] => 0
  | none :: _ => 0
  | some _ :: xs => lowestFree xs + 1

/-- The stream descriptor `fd` refers to (`none`: not an open descriptor). -/
def Proc.stream (p : Proc) (fd : Int) : Option Stream :=
  if fd < 0 then none else slot p.fdt fd.toNat

/-- System call `dup(fd)`: the lowest free descriptor now refers to the stream
of `fd`; `-1` when `fd` is not open. -/
def sys_dup (p : Proc) (fd : Int) : Int × Proc :=
  match p.stream fd with
  | none => (-1, p)
  | some s =>
    let n := lowestFree p.fdt
    ((n : Int), { p with fdt := setSlot p.fdt n (some s) })

/-- System call `dup2(oldfd, newfd)` with `newfd` one of the standard
descriptors: fails without effect when `oldfd` is not open, does nothing when
both are equal, else `newfd` is silently closed and made to refer to the
stream of `oldfd`. -/
def sys_dup2 (p : Proc) (oldfd : Int) (newfd : Nat) : Proc :=
  match p.stream oldfd with
  | none => p
  | some s => if oldfd = (newfd : Int) then p else { p with fdt := setSlot p.fdt newfd (some s) }

/-- System call `close(fd)`. -/
def sys_close (p : Proc) (fd : Int) : Proc :=
  if fd < 0 then p else { p with fdt := setSlot p.fdt fd.toNat none }

/-- System call `pipe(f)`: two fresh streams on the two lowest free
descriptors; returns `(f[0], f[1])`. -/
def sys_pipe (p : Proc) : Option (Int × Int × Proc) :=
  let r := lowestFree p.fdt
  let t := setSlot p.fdt r (some (Stream.pipeRead p.nobj))
  let w := lowestFree t
  some ((r : Int), (w : Int),
    { p with fdt := setSlot t w (some (Stream.pipeWrite p.nobj)), nobj := p.nobj + 1 })

/-- System call `open(path, ...)`: on success the lowest free descriptor
refers to a fresh stream on `path`; `-1` when the environment refuses. -/
def sys_open (env : Env) (p : Proc) (path : List Char) : Int × Proc :=
  if env.openOk p.nobj path then
    let n := lowestFree p.fdt
    ((n : Int), { p with fdt := setSlot p.fdt n (some (Stream.file path p.nobj)), nobj := p.nobj + 1 })
  else
    (-1, { p with nobj := p.nobj + 1 })

/-- Append an event to the trace. -/
def Proc.log (p : Proc) (e : Event) : Proc :=
  { p with trace := p.trace ++ [e] }

/-! ## `redirectIO` -/

/-- Lines 288-289 and 310-311: duplicate the standard descriptor `std` into the
empty save slot; the new value of the slot and the process state. -/
def saveStd (p : Proc) (saved : Int) (std : Nat) : Int × Proc :=
  if saved = -1 then sys_dup p (std : Int) else (saved, p)

/-- Lines 298-299 and 322-323: the end `pos3` of the file name starting at `pos2`. -/
def nameEnd (command : List Char) (pos2 : Nat) : Nat :=
  (Str.find_first_of command [' ', '<', '>'] pos2).getD command.length

/-- Lines 303-305 and 328-331: open the file, duplicate it onto `std`, close it. -/
def redirectTo (env : Env) (p : Proc) (fname : List Char) (std : Nat) : Proc :=
  let o := sys_open env p fname
  sys_close (sys_dup2 o.2 o.1 std) o.1

/-- One of the two `while` loops of `redirectIO` (lines 287-307 for `op = '<'`,
`std = 0`; lines 309-333 for `op = '>'`, `std = 1`; the loops differ in nothing
else that the table sees).  `saved` is `fds[std]`.  Each turn of the loop
spends one unit of `fuel`; `none` means the fuel ran out with an operator
still in the text. -/
def redirectLoop (env : Env) (op : Char) (std : Nat) :
    Nat → Proc → Int → List Char → Option (Proc × Int × List Char)
  | fuel, p, saved, command =>
    match Str.find command op 0 with
    | none => some (p, saved, command)
    | some pos1 =>
      match fuel with
      | 0 => none
      | fuel + 1 =>
        let d := saveStd p saved std
        match Str.find_first_not_of command ' ' (pos1 + 1) with
        | none =>
          some (sys_dup2 d.2 d.1 std, -1, Str.erase command pos1 1)
        | some pos2 =>
          let pos3 := nameEnd command pos2
          let fname := Str.substr command pos2 (pos3 - pos2)
          redirectLoop env op std fuel (redirectTo env d.2 fname std) d.1
            (Str.erase command pos1 (pos3 - pos1))

/-- The save set `fds[2]`. -/
structure Fds where
  fd0 : Int
  fd1 : Int
  deriving DecidableEq, Repr

/-- What `redirectIO` leaves: process state, save set, command text. -/
structure Redirected where
  proc : Proc
  fds : Fds
  command : List Char
  deriving DecidableEq, Repr

/-- The function `redirectIO(command, fds)`: the `<` loop, then the `>` loop
on the text the first left.  Each loop gets as much fuel as its text is long. -/
def redirectIO (env : Env) (p : Proc) (fds : Fds) (command : List Char) : Option Redirected :=
  match redirectLoop env '<' 0 command.length p fds.fd0 command with
  | none => none
  | some (p1, s0, c1) =>
    match redirectLoop env '>' 1 c1.length p1 fds.fd1 c1 with
    | none => none
    | some (p2, s1, c2) => some ⟨p2, ⟨s0, s1⟩, c2⟩

/-! ## `preprocess_command`, `runBg`, `setupPipe`, `process_command` -/

/-- The function `preprocess_command(command, cmd, fds)`: the return code
(first component; `none` when `redirectIO` does not terminate) and what it
leaves of the state. -/
def preprocess_command (env : Env) (p : Proc) (fds : Fds) (command cmd : List Char) :
    Option (Int × Redirected) :=
  if Str.substr command 0 cmd.length = cmd then
    if command.length > cmd.length ∧ Str.substr command 0 (cmd.length + 1) ≠ cmd ++ [' '] then
      some (0, ⟨p, fds, command⟩)
    else
      ( redirectIO env p fds command).map (fun r => (1, r))
  else
    some (2, ⟨p, fds, command⟩)

/-- The test and the text edit of `runBg(command)`: `none` when it returns
false (text untouched), `some c` when it returns true, `c` being the text it
hands to the forked child. -/
def runBg (command : List Char) : Option (List Char) :=
  match Str.find command '&' 0 with
  | none => none
  | some pos1 =>
    match Str.find_first_not_of command ' ' (pos1 + 1) with
    | some _ => none
    | none => some (Str.erase command pos1 1)

/-- What `setupPipe` does in the calling process. -/
structure Piped where
  /-- State of the calling process afterwards. -/
  proc : Proc
  /-- The return value (saved standard input, or `-1`). -/
  saved : Int
  /-- The text left in `command`. -/
  command : List Char
  /-- The forked child, if any: its initial state and its `subcommand`. -/
  child : Option (Proc × List Char)

/-- The function `setupPipe(command, f)`; `none` is the `exit(EXIT_FAILURE)`
after a failed `pipe`. -/
def setupPipe (p : Proc) (command : List Char) : Option Piped :=
  match Str.find_last_of '|' command with
  | none => some ⟨p, -1, command, none⟩
  | some pos =>
    match sys_pipe p with
    | none => none
    | some (f0, f1, p1) =>
      let subcommand := if pos ≠ 0 then Str.substr command 0 pos else []
      let childProc := sys_close (sys_dup2 (sys_close { p1 with trace := [] } f0) f1 1) f1
      let command1 :=
        if pos + 1 < command.length then Str.substr command (pos + 1) command.length else []
      let p2 := sys_close (p1.log (Event.pipeStage subcommand)) f1
      let d := sys_dup p2 0
      let p3 := sys_close (sys_dup2 d.2 f0 0) f0
      some ⟨p3, d.1, command1, some (childProc, subcommand)⟩

/-- How a call of `process_command` ends. -/
inductive Outcome where
  /-- It returned `rtn` to its caller. -/
  | returned (rtn : Int)
  /-- The process called `exit(code)`. -/
  | exited (code : Nat)
  /-- It never came back (`redirectIO` did not terminate). -/
  | hang
  deriving DecidableEq, Repr

/-- Result of one call of `process_command`. -/
structure Result where
  /-- State of the calling process at the end. -/
  proc : Proc
  outcome : Outcome
  /-- The child forked to re-enter `process_command(cmd, true)`, if any. -/
  child : Option (Proc × List Char)
  /-- The stage text this call executes itself (`command` after `setupPipe`);
  `none` when the line was handed to a background child. -/
  stage : Option (List Char)

/-- The text edits of `ls(command)` on its by-reference argument (lines 479-492). -/
def ls_text (command : List Char) : List Char :=
  let command := Str.substr command 2 (command.length - 2)
  match Str.find_first_not_of command ' ' 0 with
  | none => command
  | some i =>
    let command := Str.substr command i (command.length - i)
    match Str.find_first_of command [' '] 0 with
    | some j => Str.substr command 0 j
    | none => command

/-- What the dispatch chain of `process_command` (lines 163-189) leaves. -/
structure Dispatched where
  proc : Proc
  fds : Fds
  command : List Char
  /-- The value of `rtn`; `none` when the process exited inside `ff`. -/
  rtn : Option Int

/-- The built-in names. -/
def PWD : List Char := ['p', 'w', 'd']
def CD : List Char := ['c', 'd']
def LS : List Char := ['l', 's']
def FF : List Char := ['f', 'f']
def EXIT : List Char := ['e', 'x', 'i', 't']

/-- The text `Failed to execute ` of the diagnostics. -/
def failedToExecute (command : List Char) : List Char :=
  "Failed to execute ".toList ++ command ++ ['\n']

/-- The built-in `ff(command)` seen from the calling process: the validation
message, or the directory walk, which ends the process on a `stat` failure. -/
def ff (env : Env) (p : Proc) (command : List Char) : Proc × Bool :=
  match Str.find_first_not_of command ' ' 3 with
  | none => (p.log (Event.err "ff command requires a filename!\n".toList), false)
  | some _ => ((p.log (Event.builtin FF command)), env.ffStatFails command)

/-- The `if`/`else if` chain of `process_command` on the stage text with its
leading spaces removed (lines 163-189); `none` when `redirectIO` does not
terminate. -/
def dispatch (env : Env) (p : Proc) (fds : Fds) (command : List Char) : Option Dispatched :=
  match preprocess_command env p fds command PWD with
  | none => none
  | some (1, r) => some ⟨r.proc.log (Event.builtin PWD r.command), r.fds, r.command, some 1⟩
  | some _ =>
  match preprocess_command env p fds command CD with
  | none => none
  | some (1, r) => some ⟨r.proc.log (Event.builtin CD r.command), r.fds, r.command, some 1⟩
  | some _ =>
  match preprocess_command env p fds command LS with
  | none => none
  | some (1, r) =>
    some ⟨r.proc.log (Event.builtin LS r.command), r.fds, ls_text r.command, some 1⟩
  | some _ =>
  match preprocess_command env p fds command FF with
  | none => none
  | some (1, r) =>
    let f := ff env r.proc r.command
    some ⟨f.1, r.fds, r.command, if f.2 then none else some 1⟩
  | some _ =>
  match preprocess_command env p fds command EXIT with
  | none => none
  | some (1, r) => some ⟨r.proc, r.fds, r.command, some (-1)⟩
  | some _ =>
  match redirectIO env p fds command with
  | none => none
  | some r =>
    match Str.find_first_not_of r.command ' ' 0 with
    | some _ =>
      some ⟨r.proc.log (Event.exec r.command (env.execFails r.command)), r.fds, r.command, some 1⟩
    | none => some ⟨r.proc, r.fds, r.command, some 1⟩

/-- Lines 194-206 of `process_command`: leave when a child, else put the saved
standard streams back and return `rtn`. -/
def finish (p : Proc) (fds : Fds) (rtn : Int) (isChild : Bool) : Proc × Outcome :=
  if isChild then (p, Outcome.exited 0)
  else
    let p1 := if fds.fd0 ≠ -1 then sys_dup2 (sys_close p 0) fds.fd0 0 else p
    let p2 := if fds.fd1 ≠ -1 then sys_dup2 (sys_close p1 1) fds.fd1 1 else p1
    (p2, Outcome.returned rtn)

/-- The function `process_command(command, isChild)`, in the calling process. -/
def process_command (env : Env) (p : Proc) (command : List Char) (isChild : Bool) : Result :=
  match runBg command with
  | some c => ⟨p.log (Event.bg c), Outcome.returned 0, some ({ p with trace := [] }, c), none⟩
  | none =>
    match setupPipe p command with
    | none => ⟨p, Outcome.exited 1, none, none⟩
    | some s =>
      match Str.find_first_not_of s.command ' ' 0 with
      | none =>
        let e := finish s.proc ⟨s.saved, -1⟩ 0 isChild
        ⟨e.1, e.2, s.child, some s.command⟩
      | some pos =>
        match dispatch env s.proc ⟨s.saved, -1⟩ (Str.substr s.command pos (s.command.length - pos)) with
        | none => ⟨s.proc, Outcome.hang, s.child, some s.command⟩
        | some d =>
          match d.rtn with
          | none => ⟨d.proc, Outcome.exited 1, s.child, some s.command⟩
          | some rtn =>
            let p1 :=
              if rtn = 2 ∨ rtn = 0 then d.proc.log (Event.err (failedToExecute d.command))
              else d.proc
            let e := finish p1 d.fds rtn isChild
            ⟨e.1, e.2, s.child, some s.command⟩

/-- The stage texts run by a call of `process_command` and by the children
that re-enter it, in pipeline order, each with the `isChild` flag of the call
that runs it (true exactly in a forked child).  One unit of `fuel` per level
of re-entry. -/
def stageRuns (env : Env) : Nat → Proc → List Char → Bool → List (List Char × Bool)
  | 0, _, _, _ => []
  | fuel + 1, p, command, isChild =>
    let r := process_command env p command isChild
    (match r.child with
      | some (cp, sub) => stageRuns env fuel cp sub true
      | none => []) ++
    (match r.stage with
      | some s => [(s, isChild)]
      | none => [])

/-- The stage list of a line typed at the prompt: `process_command(line)` in
the shell process; every re-entry works on a strictly shorter text, so
`line.length + 1` levels are enough. -/
def stageList (env : Env) (p : Proc) (line : List Char) : List (List Char × Bool) :=
  stageRuns env (line.length + 1) p line false

/-! ## The read loop of `main` -/

/-- The input bytes the loop tests for. -/
def CTRL_D : Char := Char.ofNat 0x04
def ENTER : Char := Char.ofNat 0x0A
def BACKSPACE : Char := Char.ofNat 0x7F
def DELETE : Char := Char.ofNat 0x7E
def UP : Char := Char.ofNat 0x41
def DOWN : Char := Char.ofNat 0x42
def ESC : Char := Char.ofNat 0x1B

/-- The bell string of the loop. -/
def BELL : List Char := [Char.ofNat 0x07]

/-- The erase string of the loop: caret back, blank, caret back. -/
def ERASE : List Char := [Char.ofNat 0x08, ' ', Char.ofNat 0x08]

/-- The constant `HISTORY_SIZE_MAX`. -/
def HISTORY_SIZE_MAX : Nat := 11

/-- One write of the loop to descriptor 1. -/
inductive Out where
  /-- A call of `print` with this text. -/
  | chars (s : List Char)
  /-- A call of `print_prompt`. -/
  | prompt
  deriving DecidableEq, Repr

/-- Where the program is. -/
inductive Status where
  /-- In the read loop, waiting for the next byte. -/
  | running
  /-- The loop was left on the end-of-transmission byte. -/
  | endOfInput
  /-- The loop was left because `process_command` returned `-1`. -/
  | exitCommand
  /-- The process called `exit` inside `process_command`. -/
  | processExited
  /-- A call of `process_command` never came back. -/
  | hung
  /-- The loop indexed or inserted into `history` out of range. -/
  | undefinedBehaviour
  deriving DecidableEq, Repr

/-- The variables of `main`, with what the loop has written and submitted. -/
structure Editor where
  command : List Char
  history : List (List Char)
  history_position : Int
  escape_char_timer : Int
  /-- Writes to descriptor 1 by the loop, oldest first. -/
  out : List Out
  /-- Every text handed to `process_command`, oldest first. -/
  submitted : List (List Char)
  /-- The shell process. -/
  proc : Proc
  status : Status

/-- The variables when the loop is entered (lines 40-53). -/
def Editor.init (p : Proc) : Editor :=
  { command := [], history := [[]], history_position := 0, escape_char_timer := 0,
    out := [Out.prompt], submitted := [], proc := p, status := Status.running }

/-- Conversion of an `int` to `size_t` (64 bits). -/
def toSizeT (i : Int) : Nat := (i % 18446744073709551616).toNat

/-- The element `history[i]`, `none` when `i` is out of range. -/
def historyAt (history : List (List Char)) (i : Int) : Option (List Char) :=
  if i < 0 then none else history.get? i.toNat

/-- The statement `history.insert(history.begin()+1, command)`; `none` when
`history` is empty. -/
def historyInsert (history : List (List Char)) (command : List Char) :
    Option (List (List Char)) :=
  match history with
  | [] => none
  | h :: t => some (h :: command :: t)

/-- Lines 60-72: the newline byte.  The buffer is handed to `process_command`;
unless that returns `-1` (or never returns) the buffer is inserted in the
history after the sentinel, the oldest line is dropped when the size exceeds
`HISTORY_SIZE_MAX`, the prompt is printed and the buffer emptied. -/
def onEnter (env : Env) (s : Editor) (c : Char) : Editor :=
  let s1 := { s with out := s.out ++ [Out.chars [c]], submitted := s.submitted ++ [s.command] }
  let r := process_command env s.proc s.command false
  match r.outcome with
  | Outcome.hang => { s1 with proc := r.proc, status := Status.hung }
  | Outcome.exited _ => { s1 with proc := r.proc, status := Status.processExited }
  | Outcome.returned rtn =>
    if rtn = -1 then { s1 with proc := r.proc, status := Status.exitCommand }
    else
      match historyInsert s.history s.command with
      | none => { s1 with proc := r.proc, status := Status.undefinedBehaviour }
      | some h =>
        { s1 with
          proc := r.proc
          history := if h.length > HISTORY_SIZE_MAX then h.dropLast else h
          out := s1.out ++ [Out.prompt]
          command := [] }

/-- Lines 73-80: backspace or delete. -/
def onBackspace (s : Editor) : Editor :=
  if s.command.length > 0 then
    { s with command := Str.substr s.command 0 (s.command.length - 1),
             out := s.out ++ [Out.chars ERASE] }
  else
    { s with out := s.out ++ [Out.chars BELL] }

/-- Lines 82-94: the new cursor and whether the bell sounds.  The comparison
`history_position > history.size() - 1` is made in `size_t`, to which the `int`
cursor is converted; the cast `(int)history.size()` and the increment are taken
exact (the history never holds more than 11 lines). -/
def moveCursor (s : Editor) (c : Char) : Int × Bool :=
  if c = UP then
    let hp := s.history_position + 1
    if toSizeT hp > toSizeT ((s.history.length : Int) - 1) then
      ((s.history.length : Int) - 1, true)
    else (hp, false)
  else
    let hp := s.history_position - 1
    if hp < 0 then (0, true) else (hp, false)

/-- Lines 81-103: an up or down byte: move the cursor, erase the displayed
buffer character by character, load `history[history_position]` into the
buffer and print it.  The suppression counter is not touched. -/
def onArrow (s : Editor) (c : Char) : Editor :=
  let m := moveCursor s c
  let out1 := if m.2 then s.out ++ [Out.chars BELL] else s.out
  let out2 := out1 ++ List.replicate s.command.length (Out.chars ERASE)
  match historyAt s.history m.1 with
  | none => { s with history_position := m.1, out := out2, status := Status.undefinedBehaviour }
  | some h => { s with history_position := m.1, command := h, out := out2 ++ [Out.chars h] }

/-- Lines 104-116: any other byte: the escape byte sets the counter to 3; a
positive counter is decremented and the byte dropped, else the byte is echoed
and appended. -/
def onOther (s : Editor) (c : Char) : Editor :=
  let t := if c = ESC then 3 else s.escape_char_timer
  if t > 0 then { s with escape_char_timer := t - 1 }
  else { s with escape_char_timer := t, out := s.out ++ [Out.chars [c]], command := s.command ++ [c] }

/-- One turn of the `while (1)` loop of `main` on the byte read.  A state that
has left the loop ignores further bytes.  On the end-of-transmission byte the
call `print(&RXChar, 1)` writes the byte (the text that starts at `RXChar`). -/
def step (env : Env) (s : Editor) (c : Char) : Editor :=
  if s.status ≠ Status.running then s
  else if c = CTRL_D then { s with out := s.out ++ [Out.chars [c]], status := Status.endOfInput }
  else if c = ENTER then onEnter env s c
  else if c = BACKSPACE ∨ c = DELETE then onBackspace s
  else if c = UP ∨ c = DOWN then onArrow s c
  else onOther s c

/-- The loop on a sequence of input bytes. -/
def run (env : Env) (s : Editor) (bytes : List Char) : Editor :=
  bytes.foldl (step env) s

/-! ## `parse` and `print_prompt` -/

/-- The NUL character, which ends a C string. -/
def NUL : Char := Char.ofNat 0

/-- What `strcpy(args[i], temp.c_str())` copies of the string `temp`: its
characters before the first NUL. -/
def cString (temp : List Char) : List Char :=
  temp.takeWhile (fun x => x != NUL)

/-- Line 605 of `parse`: the `for` loop that counts the spaces found from index
`pos1 + 1` on; `i` is the count so far.  One unit of `fuel` per space found;
`none` means the fuel ran out. -/
def countSpaces (command : List Char) : Nat → Nat → Nat → Option Nat
  | fuel, pos1, i =>
    match Str.find command ' ' (pos1 + 1) with
    | none => some i
    | some q =>
      match fuel with
      | 0 => none
      | fuel + 1 => countSpaces command fuel q (i + 1)

/-- Lines 610-623 of `parse`: the `while (flag)` loop from `pos1`; the strings
copied into `args[i]`, `args[i+1]`, ... in order.  One unit of `fuel` per turn
that sets `pos1` for a further turn; `none` means the fuel ran out. -/
def parseTokens (command : List Char) : Nat → Nat → Option (List (List Char))
  | fuel, pos1 =>
    match Str.find_first_of command [' '] pos1 with
    | none => some [cString (Str.substr command pos1 (command.length - pos1))]
    | some pos2 =>
      let temp := Str.substr command pos1 (pos2 - pos1)
      match Str.find_first_not_of command ' ' pos2 with
      | none => some [cString temp]
      | some q =>
        match fuel with
        | 0 => none
        | fuel + 1 => (parseTokens command fuel q).map (fun rest => cString temp :: rest)

/-- The array `args` as `parse` leaves it. -/
structure Args where
  /-- Number of slots asked of `malloc` (line 606). -/
  allocated : Nat
  /-- The values written to `args[0]`, `args[1]`, ... in order; `none` is `NULL`. -/
  written : List (Option (List Char))
  deriving DecidableEq, Repr

/-- The function `parse(command)`: `i + 2` slots are allocated, `i` the number
of spaces counted from index 1 on; then one slot is written per token and one
for the final `NULL`.  Each loop gets as much fuel as the text is long. -/
def parse (command : List Char) : Option Args :=
  match countSpaces command command.length 0 0 with
  | none => none
  | some i =>
    match parseTokens command command.length 0 with
    | none => none
    | some tokens => some ⟨i + 2, tokens.map some ++ [none]⟩

/-- The text `print_prompt` writes when `getcwd` gives `d` (lines 384-393);
`none` is the `out_of_range` exception of `substr` when `d` is longer than 16
and holds no `/`. -/
def print_prompt (d : List Char) : Option (List Char) :=
  if d.length > 16 then
    match Str.find_last_of '/' d with
    | none => none
    | some cutoff =>
      some (['/', '.', '.', '.'] ++ (Str.substr d cutoff (d.length - cutoff) ++ ['%', ' ']))
  else some (d ++ ['%', ' '])

/-! ## Notions used in the proofs about the descriptor table -/

/-- Standard input and standard output are open. -/
def StdOpen (p : Proc) : Prop :=
  (slot p.fdt 0).isSome = true ∧ (slot p.fdt 1).isSome = true

/-- The save slot `saved` of the standard descriptor `std` is sound for the
stream `o`: either the slot is empty and `std` still refers to `o`, or it holds
a descriptor, at least 2, that refers to `o`. -/
def SaveSound (p : Proc) (std : Nat) (saved : Int) (o : Stream) : Prop :=
  (saved = -1 ∧ slot p.fdt std = some o) ∨
    (∃ n : Nat, saved = (n : Int) ∧ 2 ≤ n ∧ slot p.fdt n = some o)

/-- Every descriptor other than `std` that was open in `p` refers to the same
stream in `q`. -/
def FrameExcept (std : Nat) (p q : Proc) : Prop :=
  ∀ (e : Nat) (x : Stream), e ≠ std → slot p.fdt e = some x → slot q.fdt e = some x

/-- The invariant of the read loop: the history starts with the empty sentinel
and holds at most `HISTORY_SIZE_MAX` lines, the cursor indexes one of them, and
no out-of-range access has happened. -/
def EditorInv (s : Editor) : Prop :=
  s.history.head? = some [] ∧ s.history.length ≤ HISTORY_SIZE_MAX ∧
    0 ≤ s.history_position ∧ s.history_position < (s.history.length : Int) ∧
    s.status ≠ Status.undefinedBehaviour

/-! ## Sample inputs -/

/-- A file system that accepts every path, programs that all exist, no `stat` failure. -/
def Env.plain : Env :=
  { openOk := fun _ _ => true, execFails := fun _ => false, ffStatFails := fun _ => false }

/-- A file system that refuses every path, no program found, no `stat` failure. -/
def Env.bare : Env :=
  { openOk := fun _ _ => false, execFails := fun _ => true, ffStatFails := fun _ => false }

/-- The shell process as started from a terminal: descriptors 0, 1, 2 open. -/
def Proc.shell : Proc :=
  { fdt := [some (Stream.inherited 0), some (Stream.inherited 1), some (Stream.inherited 2)],
    nobj := 0, trace := [] }

/-- The editor at its first prompt with the letter `a` typed: the history
holds the sentinel only, the cursor is 0. -/
def Editor.typedA : Editor :=
  { Editor.init Proc.shell with command := ['a'] }

/-! ## Reference definitions, written from the specification -/

/-- Specification of the line editor on ordinary and backspace bytes: the
buffer is a stack; an ordinary byte is pushed and echoed, a backspace pops the
last character and erases it on screen when there is one, else rings the bell. -/
def typeByte (acc : List Char × List Out) (b : Char) : List Char × List Out :=
  if b = BACKSPACE then
    if acc.1 = [] then (acc.1, acc.2 ++ [Out.chars BELL])
    else (acc.1.dropLast, acc.2 ++ [Out.chars ERASE])
  else (acc.1 ++ [b], acc.2 ++ [Out.chars [b]])

/-- Specification: the last character of the line that is not a space. -/
def lastNonSpace (line : List Char) : Option Char :=
  line.reverse.find? (fun x => x != ' ')

/-- Specification: the text right of the last `|` of the line, the whole line
when it has none (the longest suffix without `|`). -/
def rightOfLastPipe (line : List Char) : List Char :=
  (line.reverse.takeWhile (fun x => x != '|')).reverse

/-- Specification: the text with its leading spaces removed. -/
def stripLeadingSpaces (text : List Char) : List Char :=
  text.dropWhile (fun x => x == ' ')

/-- Specification: the text is `exit` or begins with `exit` and a space. -/
def isExitText (text : List Char) : Prop :=
  text = EXIT ∨ EXIT ++ [' '] <+: text

/-- Specification: the text calls the built-in `name`: it is the name, or
begins with the name followed by a space. -/
def invokes (name text : List Char) : Prop :=
  text = name ∨ name ++ [' '] <+: text

instance (name text : List Char) : Decidable (invokes name text) := by
  unfold invokes; infer_instance

/-- Specification: the maximal space-free runs of the text, in order. -/
def spaceFreeRuns (text : List Char) : List (List Char) :=
  (text.splitOn ' ').filter (fun run => !run.isEmpty)

/-- Specification: the suffix of `d` that starts at its last `/` (the final
path component with its leading slash). -/
def fromLastSlash (d : List Char) : List Char :=
  '/' :: (d.reverse.takeWhile (fun x => x != '/')).reverse

/-- Specification of the prompt text for the working directory `d`. -/
def promptSpec (d : List Char) : List Char :=
  if d.length ≤ 16 then d ++ ['%', ' '] else ['/', '.', '.', '.'] ++ fromLastSlash d ++ ['%', ' ']

/-- Specification: the characters that end a filename token. -/
def endsName (x : Char) : Bool :=
  x == ' ' || x == '<' || x == '>'

/-- Specification: what is left of the text `b` that follows an operator once
the spaces after the operator and the filename token (the characters up to the
next space or operator) are erased. -/
def afterOperand (b : List Char) : List Char :=
  (b.dropWhile (fun x => x == ' ')).dropWhile (fun x => !endsName x)

/-- Specification of the erasure for one operator `op`: as long as the text
holds `op`, its first occurrence is erased together with the spaces and the
filename token that follow it; an operator that only spaces follow is erased
alone and ends the work.  `n` bounds the number of operators handled. -/
def eraseOperator (op : Char) : Nat → List Char → List Char
  | 0, text => text
  | n + 1, text =>
    match text.dropWhile (fun x => x != op) with
    | [] => text
    | _ :: b =>
      if b.all (fun x => x == ' ') then text.takeWhile (fun x => x != op) ++ b
      else eraseOperator op n (text.takeWhile (fun x => x != op) ++ afterOperand b)

/-- Specification: the residual text of a stage: every `<` with its filename
erased, then every `>` with its filename. -/
def erasedText (command : List Char) : List Char :=
  let c1 := eraseOperator '<' command.length command
  eraseOperator '>' c1.length c1

/-- Specification: the bytes the claim on typing calls ordinary. -/
def ordinary (b : Char) : Prop :=
  b ≠ CTRL_D ∧ b ≠ ENTER ∧ b ≠ ESC ∧ b ≠ UP ∧ b ≠ DOWN ∧ b ≠ DELETE ∧ b ≠ BACKSPACE

instance (b : Char) : Decidable (ordinary b) := by
  unfold ordinary; infer_instance

/-! ## Facts about the string members -/

theorem Str.findIdx_eq_none {p : Char → Bool} {s : List Char} :
    Str.findIdx p s = none ↔ ∀ x ∈ s, p x = false := by
  induction s with
  | nil => simp [Str.findIdx]
  | cons c cs ih =>
    by_cases h : p c = true
    · simp [Str.findIdx, h]
    · simp [Str.findIdx, h, ih]

theorem Str.findIdx_eq_some {p : Char → Bool} {s : List Char} {i : Nat}
    (h : Str.findIdx p s = some i) :
    ∃ a x b, s = a ++ x :: b ∧ a.length = i ∧ p x = true ∧ ∀ y ∈ a, p y = false := by
  induction s generalizing i with
  | nil => simp [Str.findIdx] at h
  | cons c cs ih =>
    by_cases hc : p c = true
    · simp [Str.findIdx, hc] at h
      exact ⟨[], c, cs, by simp, by simp [h], hc, by simp⟩
    · simp [Str.findIdx, hc] at h
      obtain ⟨j, hj, rfl⟩ := h
      obtain ⟨a, x, b, rfl, ha, hx, hall⟩ := ih hj
      refine ⟨c :: a, x, b, by simp, by simp [ha], hx, ?_⟩
      intro y hy
      rcases List.mem_cons.1 hy with rfl | hy
      · simpa using hc
      · exact hall y hy

theorem Str.findFrom_zero (p : Char → Bool) (s : List Char) :
    Str.findFrom p s 0 = Str.findIdx p s := by
  simp [Str.findFrom]

theorem Str.findFrom_eq_none {p : Char → Bool} {s : List Char} {pos : Nat} :
    Str.findFrom p s pos = none ↔ ∀ x ∈ s.drop pos, p x = false := by
  simp [Str.findFrom, Str.findIdx_eq_none]

theorem Str.findFrom_eq_some {p : Char → Bool} {s : List Char} {pos i : Nat}
    (h : Str.findFrom p s pos = some i) :
    pos ≤ i ∧ i < s.length ∧ (∃ x, s[i]? = some x ∧ p x = true) ∧
      ∀ j, pos ≤ j → j < i → ∀ y, s[j]? = some y → p y = false := by
  simp only [Str.findFrom, Option.map_eq_some'] at h
  obtain ⟨j, hj, rfl⟩ := h
  obtain ⟨a, x, b, hs, ha, hx, hall⟩ := Str.findIdx_eq_some hj
  have hlen : (s.drop pos).length = a.length + (b.length + 1) := by simp [hs]
  have hlen2 : (s.drop pos).length = s.length - pos := by simp
  have hget : ∀ k, (s.drop pos)[k]? = s[pos + k]? := fun k => List.getElem?_drop _ _ _
  refine ⟨by omega, by omega, ⟨x, ?_, hx⟩, ?_⟩
  · rw [Nat.add_comm, ← hget, hs, ← ha, List.getElem?_append_right (le_refl _)]; simp
  · intro k hk1 hk2 y hy
    have : (s.drop pos)[k - pos]? = some y := by
      rw [hget]; rw [← hy]; congr 1; omega
    rw [hs, List.getElem?_append_left (by omega)] at this
    exact hall y (List.getElem?_mem this)

theorem Str.erase_sublist (s : List Char) (pos n : Nat) : (Str.erase s pos n).Sublist s := by
  unfold Str.erase
  have h1 : (s.take pos ++ s.drop (pos + n)).Sublist (s.take pos ++ s.drop pos) := by
    apply List.Sublist.append (List.Sublist.refl _)
    rw [← List.drop_drop]
    exact List.drop_sublist _ _
  simpa using h1

theorem Str.erase_length (s : List Char) (pos n : Nat) (h : pos + n ≤ s.length) :
    (Str.erase s pos n).length = s.length - n := by
  simp [Str.erase]; omega

theorem Str.find_eq_none {s : List Char} {c : Char} :
    Str.find s c 0 = none ↔ c ∉ s := by
  unfold Str.find
  rw [Str.findFrom_eq_none]
  simp only [List.drop_zero, beq_eq_false_iff_ne, ne_eq]
  constructor
  · intro h hc; exact h c hc rfl
  · intro h x hx hxc; exact h (hxc ▸ hx)

/-- After erasing the operator at `pos1` and whatever follows it up to `pos3`,
the text is shorter. -/
theorem Str.erase_length_lt (s : List Char) (pos1 pos3 : Nat) (h1 : pos1 < s.length)
    (h3 : pos1 < pos3) : (Str.erase s pos1 (pos3 - pos1)).length < s.length := by
  simp [Str.erase]; omega

/-- A bare trailing operator: once it is erased the operator character is gone. -/
theorem Str.not_mem_erase_bare {s : List Char} {op : Char} {pos1 : Nat} (hop : op ≠ ' ')
    (h1 : Str.find s op 0 = some pos1)
    (h2 : Str.find_first_not_of s ' ' (pos1 + 1) = none) :
    op ∉ Str.erase s pos1 1 := by
  unfold Str.find at h1
  unfold Str.find_first_not_of at h2
  obtain ⟨-, hlt, -, hbefore⟩ := Str.findFrom_eq_some h1
  rw [Str.findFrom_eq_none] at h2
  unfold Str.erase
  intro hmem
  rcases List.mem_append.1 hmem with hm | hm
  · obtain ⟨n, hn⟩ := List.mem_iff_getElem?.1 hm
    rw [List.getElem?_take] at hn
    split at hn
    · next hn' =>
      have := hbefore n (Nat.zero_le _) hn' op hn
      simp at this
    · exact Option.noConfusion hn
  · have := h2 op hm
    simp at this
    exact hop this

theorem redirectLoop_done {env : Env} {op : Char} {std fuel : Nat} {p : Proc} {saved : Int}
    {command : List Char} (h : Str.find command op 0 = none) :
    redirectLoop env op std fuel p saved command = some (p, saved, command) := by
  unfold redirectLoop; rw [h]

theorem redirectLoop_bare {env : Env} {op : Char} {std fuel : Nat} {p : Proc} {saved : Int}
    {command : List Char} {pos1 : Nat} (h1 : Str.find command op 0 = some pos1)
    (h2 : Str.find_first_not_of command ' ' (pos1 + 1) = none) :
    redirectLoop env op std (fuel + 1) p saved command =
      some (sys_dup2 (saveStd p saved std).2 (saveStd p saved std).1 std, -1,
        Str.erase command pos1 1) := by
  unfold redirectLoop; simp only [h1, h2]

theorem redirectLoop_file {env : Env} {op : Char} {std fuel : Nat} {p : Proc} {saved : Int}
    {command : List Char} {pos1 pos2 : Nat} (h1 : Str.find command op 0 = some pos1)
    (h2 : Str.find_first_not_of command ' ' (pos1 + 1) = some pos2) :
    redirectLoop env op std (fuel + 1) p saved command =
      redirectLoop env op std fuel
        (redirectTo env (saveStd p saved std).2
          (Str.substr command pos2 (nameEnd command pos2 - pos2)) std)
        (saveStd p saved std).1
        (Str.erase command pos1 (nameEnd command pos2 - pos1)) := by
  conv_lhs => unfold redirectLoop
  simp only [h1, h2]

/-- The file name ends after the operator. -/
theorem nameEnd_gt {command : List Char} {op : Char} {pos1 pos2 : Nat}
    (h1 : Str.find command op 0 = some pos1)
    (h2 : Str.find_first_not_of command ' ' (pos1 + 1) = some pos2) :
    pos1 < command.length ∧ pos1 < nameEnd command pos2 := by
  have hf1 := Str.findFrom_eq_some (show Str.findFrom _ command 0 = some pos1 from h1)
  have hf2 := Str.findFrom_eq_some (show Str.findFrom _ command (pos1 + 1) = some pos2 from h2)
  refine ⟨hf1.2.1, ?_⟩
  unfold nameEnd
  cases h3 : Str.find_first_of command [' ', '<', '>'] pos2 with
  | none => simpa using hf1.2.1
  | some pos3 =>
    have := Str.findFrom_eq_some (show Str.findFrom _ command pos2 = some pos3 from h3)
    simp only [Option.getD_some]
    omega

theorem redirectLoop_spec (env : Env) (op : Char) (std : Nat) (hop : op ≠ ' ') :
    ∀ (fuel : Nat) (p : Proc) (saved : Int) (command : List Char), command.length ≤ fuel →
      ∃ p1 s1 c1, redirectLoop env op std fuel p saved command = some (p1, s1, c1) ∧
        op ∉ c1 ∧ c1.Sublist command := by
  intro fuel
  induction fuel with
  | zero =>
    intro p saved command hlen
    have hnil : command = [] := List.length_eq_zero.1 (Nat.le_zero.1 hlen)
    subst hnil
    exact ⟨p, saved, [], redirectLoop_done (Str.find_eq_none.2 (by simp)), by simp,
      List.Sublist.refl _⟩
  | succ n ih =>
    intro p saved command hlen
    cases h1 : Str.find command op 0 with
    | none =>
      exact ⟨p, saved, command, redirectLoop_done h1, Str.find_eq_none.1 h1, List.Sublist.refl _⟩
    | some pos1 =>
      cases h2 : Str.find_first_not_of command ' ' (pos1 + 1) with
      | none =>
        exact ⟨_, _, _, redirectLoop_bare h1 h2, Str.not_mem_erase_bare hop h1 h2,
          Str.erase_sublist _ _ _⟩
      | some pos2 =>
        have hgt := nameEnd_gt h1 h2
        have hshort := Str.erase_length_lt command pos1 _ hgt.1 hgt.2
        obtain ⟨p1, s1, c1, hrun, hno, hsub⟩ := ih
          (redirectTo env (saveStd p saved std).2
            (Str.substr command pos2 (nameEnd command pos2 - pos2)) std)
          (saveStd p saved std).1
          (Str.erase command pos1 (nameEnd command pos2 - pos1)) (by omega)
        exact ⟨p1, s1, c1, (redirectLoop_file h1 h2).trans hrun, hno,
          hsub.trans (Str.erase_sublist _ _ _)⟩

/-- The function `redirectIO` always terminates; what it leaves has no
redirection operator and is a subsequence of the text it was given. -/
theorem redirectIO_result (env : Env) (p : Proc) (fds : Fds) (command : List Char) :
    ∃ r, redirectIO env p fds command = some r ∧
      '<' ∉ r.command ∧ '>' ∉ r.command ∧ r.command.Sublist command := by
  obtain ⟨p1, s0, c1, h1, hno1, hsub1⟩ :=
    redirectLoop_spec env '<' 0 (by decide) command.length p fds.fd0 command (le_refl _)
  obtain ⟨p2, s1, c2, h2, hno2, hsub2⟩ :=
    redirectLoop_spec env '>' 1 (by decide) c1.length p1 fds.fd1 c1 (le_refl _)
  refine ⟨⟨p2, ⟨s0, s1⟩, c2⟩, ?_, ?_, hno2, hsub2.trans hsub1⟩
  · simp [ redirectIO, h1, h2]
  · exact fun h => hno1 (hsub2.subset h)

/-- The three return codes of `preprocess_command`, by the shape of the text. -/
theorem preprocess_command_cases (env : Env) (p : Proc) (fds : Fds) (text name : List Char) :
    ∃ r, preprocess_command env p fds text name = some r ∧
      (r.1 = 1 ↔ (text = name ∨ name ++ [' '] <+: text)) ∧
      (r.1 = 0 ↔ (name <+: text ∧ name.length < text.length ∧ text[name.length]? ≠ some ' ')) ∧
      (r.1 = 2 ↔ ¬ name <+: text) := by
  obtain ⟨rio, hrio, -⟩ := redirectIO_result env p fds text
  by_cases hpre : name <+: text
  · obtain ⟨t, rfl⟩ := hpre
    have htake : Str.substr (name ++ t) 0 name.length = name := by simp [Str.substr]
    cases t with
    | nil =>
      refine ⟨(1, rio), ?_, ?_⟩
      · simp only [List.append_nil] at hrio htake ⊢
        simp [preprocess_command, htake, hrio]
      · simp
    | cons x t =>
      have htake1 : Str.substr (name ++ x :: t) 0 (name.length + 1) = name ++ [x] := by
        simp [Str.substr, List.take_append_eq_append_take, List.take_of_length_le]
      have hget : (name ++ x :: t)[name.length]? = some x := by
        rw [List.getElem?_append_right (le_refl _)]; simp
      by_cases hx : x = ' '
      · subst hx
        refine ⟨(1, rio), ?_, ?_⟩
        · simp [preprocess_command, htake, htake1, hrio]
        · rw [hget]
          refine ⟨by simp, by simp, by simp⟩
      · refine ⟨(0, ⟨p, fds, name ++ x :: t⟩), ?_, ?_⟩
        · simp [preprocess_command, htake, htake1, hx]
        · rw [hget]
          refine ⟨?_, ?_, by simp⟩
          · simp only [Int.reduceNeg, zero_ne_one, false_iff, not_or]
            refine ⟨by simp, ?_⟩
            rintro ⟨u, hu⟩
            simp at hu
            exact hx hu.1.symm
          · simp [hx]
  · refine ⟨(2, ⟨p, fds, text⟩), ?_, ?_⟩
    · have : Str.substr text 0 name.length ≠ name := by
        intro h
        apply hpre
        rw [List.prefix_iff_eq_take]
        simpa [Str.substr] using h.symm
      simp [preprocess_command, this]
    · refine ⟨?_, ?_, by simp [hpre]⟩
      · simp only [OfNat.ofNat_ne_one, false_iff, not_or]
        constructor
        · rintro rfl
          exact hpre (List.prefix_refl _)
        · intro h
          exact hpre ((List.prefix_append _ _).trans h)
      · simp [hpre]

/-- Where `find` stops: the text splits around the first occurrence. -/
theorem Str.find_eq_some {s : List Char} {ch : Char} {i : Nat} (h : Str.find s ch 0 = some i) :
    ∃ a b, s = a ++ ch :: b ∧ a.length = i ∧ ch ∉ a := by
  unfold Str.find at h
  rw [Str.findFrom_zero] at h
  obtain ⟨a, x, b, hs, ha, hx, hall⟩ := Str.findIdx_eq_some h
  have hxc : x = ch := by simpa using hx
  subst hxc
  refine ⟨a, b, hs, ha, ?_⟩
  intro hmem
  have := hall x hmem
  simp at this

/-- The split of a text around the first occurrence of a character is unique. -/
theorem Str.first_split_unique {ch : Char} :
    ∀ {a a1 b b1 : List Char}, a ++ ch :: b = a1 ++ ch :: b1 → ch ∉ a → ch ∉ a1 →
      a = a1 ∧ b = b1
  | [], [], _, _, h, _, _ => by simpa using h
  | [], y :: a1, _, _, h, _, h1 => by
    simp only [List.nil_append, List.cons_append, List.cons.injEq] at h
    exact absurd (by simp [h.1]) h1
  | x :: a, [], _, _, h, h0, _ => by
    simp only [List.nil_append, List.cons_append, List.cons.injEq] at h
    exact absurd (by simp [h.1]) h0
  | x :: a, y :: a1, b, b1, h, h0, h1 => by
    simp only [List.cons_append, List.cons.injEq] at h
    have := @Str.first_split_unique _ a a1 b b1 h.2
      (fun hm => h0 (List.mem_cons_of_mem _ hm)) (fun hm => h1 (List.mem_cons_of_mem _ hm))
    simp [h.1, this.1, this.2]

/-- Nothing but spaces from `pos` on. -/
theorem Str.find_first_not_of_eq_none {s : List Char} {pos : Nat} :
    Str.find_first_not_of s ' ' pos = none ↔ ∀ x ∈ s.drop pos, x = ' ' := by
  unfold Str.find_first_not_of
  rw [Str.findFrom_eq_none]
  simp

theorem lastNonSpace_append_spaces (a b : List Char) (x : Char) (hx : x ≠ ' ')
    (hb : ∀ y ∈ b, y = ' ') : lastNonSpace (a ++ x :: b) = some x := by
  unfold lastNonSpace
  rw [List.reverse_append, List.reverse_cons, List.append_assoc, List.find?_append]
  have h1 : List.find? (fun x => x != ' ') b.reverse = none := by
    rw [List.find?_eq_none]
    intro y hy
    simp [hb y (List.mem_reverse.1 hy)]
  rw [h1]
  simp [hx]

/-- The test of `runBg`: true exactly when the first `&` of the line is
followed by spaces only. -/
theorem runBg_isSome_iff (line : List Char) :
    (runBg line).isSome ↔
      ∃ a b, line = a ++ '&' :: b ∧ '&' ∉ a ∧ ∀ y ∈ b, y = ' ' := by
  unfold runBg
  cases h1 : Str.find line '&' 0 with
  | none =>
    simp only [Option.isSome_none, Bool.false_eq_true, false_iff]
    rintro ⟨a, b, rfl, -, -⟩
    exact (Str.find_eq_none.1 h1) (by simp)
  | some pos1 =>
    obtain ⟨a, b, rfl, ha, hnot⟩ := Str.find_eq_some h1
    have hdrop : List.drop (pos1 + 1) (a ++ '&' :: b) = b := by
      rw [← ha]; simp
    cases h2 : Str.find_first_not_of (a ++ '&' :: b) ' ' (pos1 + 1) with
    | none =>
      simp only [h2, Option.isSome_some, true_iff]
      rw [Str.find_first_not_of_eq_none, hdrop] at h2
      exact ⟨a, b, rfl, hnot, h2⟩
    | some pos2 =>
      simp only [h2, Option.isSome_none, Bool.false_eq_true, false_iff]
      rintro ⟨a', b', heq, hnot', hsp⟩
      have hab : a = a' ∧ b = b' := Str.first_split_unique heq hnot hnot'
      obtain ⟨rfl, rfl⟩ := hab
      have : Str.find_first_not_of (a ++ '&' :: b) ' ' (pos1 + 1) = none := by
        rw [Str.find_first_not_of_eq_none, hdrop]; exact hsp
      rw [this] at h2
      exact Option.noConfusion h2

theorem Str.find_last_of_eq_none {ch : Char} {s : List Char} :
    Str.find_last_of ch s = none ↔ ch ∉ s := by
  induction s with
  | nil => simp [Str.find_last_of]
  | cons x xs ih =>
    unfold Str.find_last_of
    cases h : Str.find_last_of ch xs with
    | some i =>
      have : ¬ ch ∉ xs := fun hn => by rw [ih.2 hn] at h; exact Option.noConfusion h
      simp only [List.mem_cons, not_or, false_iff, reduceCtorEq]
      exact fun hh => this hh.2
    | none =>
      have hxs := ih.1 h
      by_cases hx : x = ch
      · simp [hx]
      · simp [hx, hxs, Ne.symm hx]

/-- Where `find_last_of` stops: the text splits around the last occurrence. -/
theorem Str.find_last_of_eq_some {ch : Char} {s : List Char} {i : Nat}
    (h : Str.find_last_of ch s = some i) :
    ∃ a b, s = a ++ ch :: b ∧ a.length = i ∧ ch ∉ b := by
  induction s generalizing i with
  | nil => simp [Str.find_last_of] at h
  | cons x xs ih =>
    unfold Str.find_last_of at h
    cases hxs : Str.find_last_of ch xs with
    | some j =>
      rw [hxs] at h
      simp only [Option.some.injEq] at h
      obtain ⟨a, b, rfl, ha, hb⟩ := ih hxs
      exact ⟨x :: a, b, by simp, by simp [ha, h], hb⟩
    | none =>
      rw [hxs] at h
      by_cases hx : x = ch
      · simp [hx] at h
        exact ⟨[], xs, by simp [hx], by simp [h], Str.find_last_of_eq_none.1 hxs⟩
      · simp [hx] at h

theorem List.takeWhile_append_stop {p : Char → Bool} :
    ∀ (l r : List Char) (x : Char), (∀ y ∈ l, p y = true) → p x = false →
      (l ++ x :: r).takeWhile p = l
  | [], r, x, _, hx => by simp [List.takeWhile, hx]
  | y :: l, r, x, hl, hx => by
    have hy : p y = true := hl y (by simp)
    simp only [List.cons_append, List.takeWhile_cons, hy, if_true]
    rw [List.takeWhile_append_stop l r x (fun z hz => hl z (List.mem_cons_of_mem _ hz)) hx]

theorem rightOfLastPipe_split (a b : List Char) (hb : '|' ∉ b) :
    rightOfLastPipe (a ++ '|' :: b) = b := by
  unfold rightOfLastPipe
  rw [List.reverse_append, List.reverse_cons, List.append_assoc, List.singleton_append,
    List.takeWhile_append_stop _ _ _ _ (by simp), List.reverse_reverse]
  intro y hy
  have : y ≠ '|' := fun h => hb (h ▸ List.mem_reverse.1 hy)
  simpa using this

theorem rightOfLastPipe_none (s : List Char) (hs : '|' ∉ s) : rightOfLastPipe s = s := by
  unfold rightOfLastPipe
  rw [List.takeWhile_eq_self_iff.2, List.reverse_reverse]
  intro y hy
  have : y ≠ '|' := fun h => hs (h ▸ List.mem_reverse.1 hy)
  simpa using this

/-- The text side of `setupPipe`: it always returns; with no `|` the text is
untouched and no child is forked, else the text is split at the last `|`: the
child gets what is left of it, the caller keeps what is right of it. -/
theorem setupPipe_text (p : Proc) (command : List Char) :
    ∃ s, setupPipe p command = some s ∧ s.command = rightOfLastPipe command ∧
      (('|' ∉ command ∧ s.child = none ∧ s.command = command ∧ s.proc = p ∧ s.saved = -1) ∨
       (∃ a b cp, command = a ++ '|' :: b ∧ '|' ∉ b ∧ s.child = some (cp, a) ∧ s.command = b)) := by
  unfold setupPipe
  cases h : Str.find_last_of '|' command with
  | none =>
    have hn := Str.find_last_of_eq_none.1 h
    exact ⟨_, rfl, (rightOfLastPipe_none _ hn).symm, Or.inl ⟨hn, rfl, rfl, rfl, rfl⟩⟩
  | some pos =>
    obtain ⟨a, b, rfl, ha, hb⟩ := Str.find_last_of_eq_some h
    have hsub : (if pos ≠ 0 then Str.substr (a ++ '|' :: b) 0 pos else []) = a := by
      subst ha
      cases a with
      | nil => simp
      | cons x a => simp [Str.substr]
    have hcmd : (if pos + 1 < (a ++ '|' :: b).length
        then Str.substr (a ++ '|' :: b) (pos + 1) (a ++ '|' :: b).length else []) = b := by
      subst ha
      have hd : List.drop (a.length + 1) (a ++ '|' :: b) = b := by simp
      cases b with
      | nil => simp
      | cons y b =>
        simp only [Str.substr, hd]
        simp
        omega
    simp only [sys_pipe, hsub, hcmd]
    exact ⟨_, rfl, (rightOfLastPipe_split a b hb).symm, Or.inr ⟨a, b, _, rfl, hb, rfl, rfl⟩⟩

theorem process_command_fg (env : Env) {p : Proc} {line : List Char} (isChild : Bool)
    {s : Piped} (h : runBg line = none) (hs : setupPipe p line = some s) :
    (process_command env p line isChild).child = s.child ∧
      (process_command env p line isChild).stage = some s.command := by
  unfold process_command
  simp only [h, hs]
  repeat' split
  all_goals exact ⟨rfl, rfl⟩

/-- Splitting at every separator, seen from the last separator. -/
theorem splitOn_append_last (sep : Char) (b : List Char) (hb : sep ∉ b) :
    ∀ a : List Char, (a ++ sep :: b).splitOn sep = a.splitOn sep ++ [b]
  | [] => by
    have hb1 : b.splitOn sep = [b] := by
      unfold List.splitOn
      exact List.splitOnP_eq_single _ _ (fun x hx => by
        have : x ≠ sep := fun h => hb (h ▸ hx)
        simpa using this)
    simp [List.splitOn, List.splitOnP_cons] at hb1 ⊢
    exact hb1
  | x :: a => by
    have ih := splitOn_append_last sep b hb a
    unfold List.splitOn at ih ⊢
    rw [List.cons_append, List.splitOnP_cons, List.splitOnP_cons, ih]
    by_cases hx : (x == sep) = true
    · simp [hx]
    · simp only [hx, Bool.false_eq_true, if_false]
      cases hsp : List.splitOnP (fun x => x == sep) a with
      | nil => exact absurd hsp (List.splitOnP_ne_nil _ _)
      | cons u us => simp [List.modifyHead]

theorem stageRuns_no_amp (env : Env) :
    ∀ (fuel : Nat) (p : Proc) (line : List Char) (isChild : Bool), '&' ∉ line →
      line.length < fuel →
      (stageRuns env fuel p line isChild).map Prod.fst = line.splitOn '|' ∧
      (stageRuns env fuel p line isChild).map Prod.snd =
        List.replicate (line.count '|') true ++ [isChild] := by
  intro fuel
  induction fuel with
  | zero => intro p line isChild _ h; exact absurd h (Nat.not_lt_zero _)
  | succ n ih =>
    intro p line isChild hamp hlen
    have hbg : runBg line = none := by
      unfold runBg; rw [Str.find_eq_none.2 hamp]
    obtain ⟨s, hs, -, hcase⟩ := setupPipe_text p line
    obtain ⟨hchild, hstage⟩ := process_command_fg env isChild hbg hs
    unfold stageRuns
    simp only [hchild, hstage]
    rcases hcase with ⟨hno, hc, hcmd, -, -⟩ | ⟨a, b, cp, rfl, hb, hc, hcmd⟩
    · rw [hc, hcmd]
      have hsplit : line.splitOn '|' = [line] := by
        unfold List.splitOn
        exact List.splitOnP_eq_single _ _ (fun x hx => by
          have : x ≠ '|' := fun h => hno (h ▸ hx)
          simpa using this)
      simp [hsplit, List.count_eq_zero.2 hno]
    · rw [hc, hcmd]
      have hlen' : a.length < n := by
        simp at hlen; omega
      obtain ⟨h1, h2⟩ := ih cp a true (fun h => hamp (by simp [h])) hlen'
      simp only [List.map_append, List.map_cons, List.map_nil, h1, h2]
      refine ⟨(splitOn_append_last '|' b hb a).symm, ?_⟩
      simp [List.count_append, List.count_eq_zero.2 hb, List.replicate_succ']

theorem isExitText_head {t : List Char} (h : isExitText t) : t.head? = some 'e' := by
  rcases h with rfl | ⟨u, rfl⟩
  · rfl
  · rfl

theorem builtin_head {t name : List Char} (x : Char) (rest : List Char) (hn : name = x :: rest)
    (h : t = name ∨ name ++ [' '] <+: t) : t.head? = some x := by
  subst hn
  rcases h with rfl | ⟨u, rfl⟩
  · rfl
  · rfl

/-- When `preprocess_command` returns 1, the state it leaves is the one
`redirectIO` leaves. -/
theorem preprocess_command_eq_one {env : Env} {p : Proc} {fds : Fds} {text name : List Char}
    {r : Redirected} (h : preprocess_command env p fds text name = some (1, r)) :
    redirectIO env p fds text = some r := by
  unfold preprocess_command at h
  split at h
  · split at h
    · simp at h
    · cases hr : redirectIO env p fds text with
      | none => rw [hr] at h; simp at h
      | some r' => rw [hr] at h; simpa using h
  · simp at h

/-- A return code of `preprocess_command`, with what the code says about the text. -/
theorem preprocess_command_one (env : Env) (p : Proc) (fds : Fds) (text name : List Char) :
    (∃ r, preprocess_command env p fds text name = some (1, r) ∧
        redirectIO env p fds text = some r ∧
        (text = name ∨ name ++ [' '] <+: text)) ∨
    (∃ k r, preprocess_command env p fds text name = some (k, r) ∧ k ≠ 1 ∧
        ¬ (text = name ∨ name ++ [' '] <+: text)) := by
  obtain ⟨⟨k, r⟩, h, h1, -, -⟩ := preprocess_command_cases env p fds text name
  by_cases hk : k = 1
  · subst hk
    exact Or.inl ⟨r, h, preprocess_command_eq_one h, h1.1 rfl⟩
  · exact Or.inr ⟨k, r, h, hk, fun hh => hk (h1.2 hh)⟩

theorem ff_fdt (env : Env) (p : Proc) (command : List Char) :
    (ff env p command).1.fdt = p.fdt := by
  unfold ff
  split <;> rfl

/-- The dispatch chain always ends.  Whatever branch is taken, `redirectIO` ran
exactly once on the text, and the table and save set are as it left them;
`rtn` is `-1` exactly on an `exit` text, and the process exits only on a
`stat` failure inside `ff`. -/
theorem dispatch_shape (env : Env) (p : Proc) (fds : Fds) (t : List Char) :
    ∃ d r, dispatch env p fds t = some d ∧ redirectIO env p fds t = some r ∧
      d.proc.fdt = r.proc.fdt ∧ d.fds = r.fds ∧ (d.rtn = some (-1) ↔ isExitText t) ∧
      (d.rtn = none → ∃ c, env.ffStatFails c = true) := by
  have hne : ∀ x rest name, x ≠ 'e' → name = x :: rest →
      (t = name ∨ name ++ [' '] <+: t) → ¬ isExitText t := by
    intro x rest name hx hn h he
    have h1 := builtin_head x rest hn h
    rw [isExitText_head he] at h1
    exact hx (by simpa using h1.symm)
  unfold dispatch
  rcases preprocess_command_one env p fds t PWD with ⟨r0, h0, hr0, ht0⟩ | ⟨k0, r0, h0, hk0, -⟩
  · rw [h0]
    exact ⟨_, r0, rfl, hr0, rfl, rfl, by simpa using hne 'p' _ PWD (by decide) rfl ht0, by simp⟩
  rw [h0]
  split
  · rename_i heq; exact Option.noConfusion heq
  · rename_i r' heq
    simp only [Option.some.injEq, Prod.mk.injEq] at heq
    exact absurd heq.1 hk0
  rcases preprocess_command_one env p fds t CD with ⟨r1, h1, hr1, ht1⟩ | ⟨k1, r1, h1, hk1, -⟩
  · rw [h1]
    exact ⟨_, r1, rfl, hr1, rfl, rfl, by simpa using hne 'c' _ CD (by decide) rfl ht1, by simp⟩
  rw [h1]
  split
  · rename_i heq; exact Option.noConfusion heq
  · rename_i r' heq
    simp only [Option.some.injEq, Prod.mk.injEq] at heq
    exact absurd heq.1 hk1
  rcases preprocess_command_one env p fds t LS with ⟨r2, h2, hr2, ht2⟩ | ⟨k2, r2, h2, hk2, -⟩
  · rw [h2]
    exact ⟨_, r2, rfl, hr2, rfl, rfl, by simpa using hne 'l' _ LS (by decide) rfl ht2, by simp⟩
  rw [h2]
  split
  · rename_i heq; exact Option.noConfusion heq
  · rename_i r' heq
    simp only [Option.some.injEq, Prod.mk.injEq] at heq
    exact absurd heq.1 hk2
  rcases preprocess_command_one env p fds t FF with ⟨r3, h3, hr3, ht3⟩ | ⟨k3, r3, h3, hk3, -⟩
  · rw [h3]
    refine ⟨_, r3, rfl, hr3, ff_fdt _ _ _, rfl, ?_, ?_⟩
    · have := hne 'f' _ FF (by decide) rfl ht3
      simp only [this, iff_false]
      split <;> simp
    · simp only
      intro hnone
      by_cases hf : (ff env r3.proc r3.command).2 = true
      · unfold ff at hf
        split at hf
        · simp at hf
        · exact ⟨_, hf⟩
      · simp [hf] at hnone
  rw [h3]
  split
  · rename_i heq; exact Option.noConfusion heq
  · rename_i r' heq
    simp only [Option.some.injEq, Prod.mk.injEq] at heq
    exact absurd heq.1 hk3
  rcases preprocess_command_one env p fds t EXIT with ⟨r4, h4, hr4, ht4⟩ | ⟨k4, r4, h4, hk4, ht4⟩
  · rw [h4]
    exact ⟨_, r4, rfl, hr4, rfl, rfl, by simpa using ht4, by simp⟩
  rw [h4]
  split
  · rename_i heq; exact Option.noConfusion heq
  · rename_i r' heq
    simp only [Option.some.injEq, Prod.mk.injEq] at heq
    exact absurd heq.1 hk4
  obtain ⟨rio, hrio, -⟩ := redirectIO_result env p fds t
  rw [hrio]
  have hnot : ¬ isExitText t := ht4
  simp only
  split <;> exact ⟨_, rio, rfl, rfl, rfl, rfl, by simpa using hnot, by simp⟩

theorem stripLeadingSpaces_of_none {s : List Char}
    (h : Str.find_first_not_of s ' ' 0 = none) : stripLeadingSpaces s = [] := by
  rw [Str.find_first_not_of_eq_none] at h
  unfold stripLeadingSpaces
  rw [List.dropWhile_eq_nil_iff]
  intro x hx
  simpa using h x (by simpa using hx)

theorem stripLeadingSpaces_of_some {s : List Char} {pos : Nat}
    (h : Str.find_first_not_of s ' ' 0 = some pos) :
    Str.substr s pos (s.length - pos) = stripLeadingSpaces s ∧ stripLeadingSpaces s ≠ [] := by
  unfold Str.find_first_not_of at h
  rw [Str.findFrom_zero] at h
  obtain ⟨a, x, b, rfl, ha, hx, hall⟩ := Str.findIdx_eq_some h
  have hdw : stripLeadingSpaces (a ++ x :: b) = x :: b := by
    unfold stripLeadingSpaces
    rw [List.dropWhile_append_of_pos]
    · have : (x == ' ') = false := by simpa using hx
      simp [List.dropWhile_cons, this]
    · intro y hy
      simpa using hall y hy
  rw [hdw]
  subst ha
  simp [Str.substr]

theorem finish_outcome (p : Proc) (fds : Fds) (rtn : Int) :
    (finish p fds rtn false).2 = Outcome.returned rtn := by
  unfold finish; simp

/-- The shape of a call of `process_command` that is not backgrounded: either
the stage is blank and only `finish` runs, or the dispatch chain runs on the
stage without its leading spaces, then `finish`. -/
theorem process_command_fg_run (env : Env) {p : Proc} {line : List Char} (isChild : Bool)
    {s : Piped} (h : runBg line = none) (hs : setupPipe p line = some s) :
    (stripLeadingSpaces s.command = [] ∧
      (process_command env p line isChild).proc = (finish s.proc ⟨s.saved, -1⟩ 0 isChild).1 ∧
      (process_command env p line isChild).outcome = (finish s.proc ⟨s.saved, -1⟩ 0 isChild).2) ∨
    (stripLeadingSpaces s.command ≠ [] ∧
      ∃ d r, dispatch env s.proc ⟨s.saved, -1⟩ (stripLeadingSpaces s.command) = some d ∧
        redirectIO env s.proc ⟨s.saved, -1⟩ (stripLeadingSpaces s.command) = some r ∧
        d.proc.fdt = r.proc.fdt ∧ d.fds = r.fds ∧
        (d.rtn = some (-1) ↔ isExitText (stripLeadingSpaces s.command)) ∧
        (d.rtn = none → ∃ c, env.ffStatFails c = true) ∧
        ((d.rtn = none ∧ (process_command env p line isChild).outcome = Outcome.exited 1) ∨
         (∃ rtn p1, d.rtn = some rtn ∧ p1.fdt = d.proc.fdt ∧
            (process_command env p line isChild).proc = (finish p1 d.fds rtn isChild).1 ∧
            (process_command env p line isChild).outcome = (finish p1 d.fds rtn isChild).2))) := by
  unfold process_command
  simp only [h, hs]
  cases hpos : Str.find_first_not_of s.command ' ' 0 with
  | none =>
    exact Or.inl ⟨stripLeadingSpaces_of_none hpos, rfl, rfl⟩
  | some pos =>
    obtain ⟨hsub, hne⟩ := stripLeadingSpaces_of_some hpos
    obtain ⟨d, r, hd, hr, hfdt, hfds, hrtn, hff⟩ :=
      dispatch_shape env s.proc ⟨s.saved, -1⟩ (stripLeadingSpaces s.command)
    refine Or.inr ⟨hne, d, r, hd, hr, hfdt, hfds, hrtn, hff, ?_⟩
    simp only [hsub, hd]
    cases hdr : d.rtn with
    | none => exact Or.inl ⟨rfl, rfl⟩
    | some rtn =>
      refine Or.inr ⟨rtn, _, rfl, ?_, rfl, rfl⟩
      split <;> rfl

/-! ## Facts about the descriptor table -/

theorem slot_nil (i : Nat) : slot [] i = none := by
  cases i <;> rfl

theorem slot_setSlot (t : List (Option Stream)) (i j : Nat) (v : Option Stream) :
    slot (setSlot t i v) j = if j = i then v else slot t j := by
  induction t generalizing i j with
  | nil =>
    induction i generalizing j with
    | zero =>
      cases j with
      | zero => simp [setSlot, slot]
      | succ j => simp [setSlot, slot, slot_nil]
    | succ i ih =>
      cases j with
      | zero => simp [setSlot, slot]
      | succ j => simp [setSlot, slot, ih, slot_nil]
  | cons x xs ih =>
    cases i with
    | zero =>
      cases j with
      | zero => simp [setSlot, slot]
      | succ j => simp [setSlot, slot]
    | succ i =>
      cases j with
      | zero => simp [setSlot, slot]
      | succ j => simp [setSlot, slot, ih]

theorem slot_lowestFree (t : List (Option Stream)) : slot t (lowestFree t) = none := by
  induction t with
  | nil => rfl
  | cons x xs ih =>
    cases x with
    | none => rfl
    | some s => simpa [lowestFree, slot] using ih

/-- An open descriptor is never the one `lowestFree` hands out. -/
theorem lowestFree_ne {t : List (Option Stream)} {d : Nat} {x : Stream}
    (h : slot t d = some x) : lowestFree t ≠ d := by
  intro he
  rw [← he, slot_lowestFree] at h
  exact Option.noConfusion h

/-- With descriptors 0 and 1 open, a new descriptor is at least 2. -/
theorem two_le_lowestFree {t : List (Option Stream)} (h0 : (slot t 0).isSome)
    (h1 : (slot t 1).isSome) : 2 ≤ lowestFree t := by
  have a0 : lowestFree t ≠ 0 := by
    intro he
    have := slot_lowestFree t
    rw [he] at this
    rw [this] at h0
    exact Bool.noConfusion h0
  have a1 : lowestFree t ≠ 1 := by
    intro he
    have := slot_lowestFree t
    rw [he] at this
    rw [this] at h1
    exact Bool.noConfusion h1
  omega

@[simp] theorem Proc.stream_natCast (p : Proc) (n : Nat) : p.stream (n : Int) = slot p.fdt n := by
  unfold Proc.stream
  simp

@[simp] theorem Proc.stream_neg_one (p : Proc) : p.stream (-1) = none := by
  unfold Proc.stream
  simp

theorem Proc.stream_zero (p : Proc) : p.stream 0 = slot p.fdt 0 := Proc.stream_natCast p 0

theorem Proc.stream_one (p : Proc) : p.stream 1 = slot p.fdt 1 := Proc.stream_natCast p 1

theorem FrameExcept.refl (std : Nat) (p : Proc) : FrameExcept std p p :=
  fun _ _ _ h => h

theorem FrameExcept.trans {std : Nat} {p q r : Proc} (h1 : FrameExcept std p q)
    (h2 : FrameExcept std q r) : FrameExcept std p r :=
  fun e x he h => h2 e x he (h1 e x he h)

/-- Filling the save slot: afterwards it holds a descriptor for `o`, and every
descriptor that was open still refers to its stream. -/
theorem saveStd_sound {p : Proc} {std : Nat} {saved : Int} {o : Stream}
    (hopen : StdOpen p) (hs : SaveSound p std saved o) :
    (∃ n : Nat, (saveStd p saved std).1 = (n : Int) ∧ 2 ≤ n ∧
        slot (saveStd p saved std).2.fdt n = some o) ∧
      (∀ (e : Nat) (x : Stream), slot p.fdt e = some x →
        slot (saveStd p saved std).2.fdt e = some x) := by
  unfold saveStd
  rcases hs with ⟨hm, hstd⟩ | ⟨n, hn, hn2, hslot⟩
  · subst hm
    simp only [if_true]
    unfold sys_dup
    rw [Proc.stream_natCast, hstd]
    refine ⟨⟨lowestFree p.fdt, rfl, two_le_lowestFree hopen.1 hopen.2, ?_⟩, ?_⟩
    · simp [slot_setSlot]
    · intro e x he
      have := lowestFree_ne he
      simp [slot_setSlot, Ne.symm this, he]
  · have hne : saved ≠ -1 := by rw [hn]; omega
    simp only [hne, if_false]
    exact ⟨⟨n, hn, hn2, hslot⟩, fun _ _ h => h⟩

/-- Duplicating an open descriptor `n` onto another descriptor `std`. -/
theorem sys_dup2_slot {p : Proc} {n std : Nat} {o : Stream} (h : slot p.fdt n = some o)
    (hne : n ≠ std) (e : Nat) :
    slot (sys_dup2 p (n : Int) std).fdt e = if e = std then some o else slot p.fdt e := by
  unfold sys_dup2
  rw [Proc.stream_natCast, h]
  have : ¬ ((n : Int) = (std : Int)) := by omega
  simp only [this, if_false]
  rw [slot_setSlot]

theorem sys_close_slot (p : Proc) (n e : Nat) :
    slot (sys_close p (n : Int)).fdt e = if e = n then none else slot p.fdt e := by
  unfold sys_close
  have : ¬ ((n : Int) < 0) := by omega
  simp only [this, if_false, Int.toNat_ofNat]
  rw [slot_setSlot]

/-- The call `open` either fails and leaves the table alone, or fills the
lowest free descriptor. -/
theorem sys_open_cases (env : Env) (p : Proc) (fname : List Char) :
    ((sys_open env p fname).1 = -1 ∧ (sys_open env p fname).2.fdt = p.fdt) ∨
    (∃ x, (sys_open env p fname).1 = ((lowestFree p.fdt : Nat) : Int) ∧
      (sys_open env p fname).2.fdt = setSlot p.fdt (lowestFree p.fdt) (some x)) := by
  unfold sys_open
  by_cases hok : env.openOk p.nobj fname = true
  · rw [if_pos hok]
    exact Or.inr ⟨_, rfl, rfl⟩
  · rw [if_neg hok]
    exact Or.inl ⟨rfl, rfl⟩

theorem sys_dup2_neg_one (p : Proc) (std : Nat) : sys_dup2 p (-1) std = p := by
  unfold sys_dup2; rw [Proc.stream_neg_one]

theorem sys_close_neg_one (p : Proc) : sys_close p (-1) = p := by
  unfold sys_close; simp

/-- Lines 303-305 and 328-331 on the table: `std` stays open, every other open
descriptor keeps its stream. -/
theorem redirectTo_frame (env : Env) {p : Proc} (fname : List Char) {std : Nat}
    (hopen : StdOpen p) (hstd : std < 2) :
    FrameExcept std p (redirectTo env p fname std) ∧
      (slot (redirectTo env p fname std).fdt std).isSome = true := by
  have hstdopen : (slot p.fdt std).isSome = true := by
    interval_cases std
    · exact hopen.1
    · exact hopen.2
  unfold redirectTo
  simp only
  rcases sys_open_cases env p fname with ⟨hfd, hfdt⟩ | ⟨x, hfd, hfdt⟩
  · rw [hfd, sys_dup2_neg_one, sys_close_neg_one]
    constructor
    · intro e y _ hy
      rw [hfdt]; exact hy
    · rw [hfdt]; exact hstdopen
  · have h2 := two_le_lowestFree hopen.1 hopen.2
    have hnew : slot (sys_open env p fname).2.fdt (lowestFree p.fdt) = some x := by
      rw [hfdt]; simp [slot_setSlot]
    rw [hfd]
    constructor
    · intro e y he hy
      have hne := lowestFree_ne hy
      rw [sys_close_slot, sys_dup2_slot hnew (by omega), hfdt]
      simp [Ne.symm hne, he, slot_setSlot, hy]
    · rw [sys_close_slot, sys_dup2_slot hnew (by omega)]
      have : std ≠ lowestFree p.fdt := by omega
      simp [this]

theorem stdOpen_of_frame {std : Nat} {p q : Proc} (hopen : StdOpen p) (hf : FrameExcept std p q)
    (hstd : (slot q.fdt std).isSome = true) : StdOpen q := by
  have key : ∀ k, (slot p.fdt k).isSome = true → (slot q.fdt k).isSome = true := by
    intro k hk
    by_cases hks : k = std
    · rw [hks]; exact hstd
    · obtain ⟨x, hx⟩ := Option.isSome_iff_exists.1 hk
      rw [hf k x hks hx]; rfl
  exact ⟨key 0 hopen.1, key 1 hopen.2⟩

/-- One loop of `redirectIO` on the table: the standard descriptors stay open,
the save slot stays sound, and every other open descriptor keeps its stream. -/
theorem redirectLoop_table (env : Env) (op : Char) (std : Nat) (hstd : std < 2) (o : Stream) :
    ∀ (fuel : Nat) (p : Proc) (saved : Int) (command : List Char) (q : Proc) (s1 : Int)
      (c1 : List Char), redirectLoop env op std fuel p saved command = some (q, s1, c1) →
      StdOpen p → SaveSound p std saved o →
      StdOpen q ∧ SaveSound q std s1 o ∧ FrameExcept std p q := by
  intro fuel
  induction fuel with
  | zero =>
    intro p saved command q s1 c1 hrun hopen hs
    cases h1 : Str.find command op 0 with
    | none =>
      rw [redirectLoop_done h1] at hrun
      simp only [Option.some.injEq, Prod.mk.injEq] at hrun
      obtain ⟨rfl, rfl, rfl⟩ := hrun
      exact ⟨hopen, hs, FrameExcept.refl _ _⟩
    | some pos1 =>
      unfold redirectLoop at hrun
      simp [h1] at hrun
  | succ n ih =>
    intro p saved command q s1 c1 hrun hopen hs
    cases h1 : Str.find command op 0 with
    | none =>
      rw [redirectLoop_done h1] at hrun
      simp only [Option.some.injEq, Prod.mk.injEq] at hrun
      obtain ⟨rfl, rfl, rfl⟩ := hrun
      exact ⟨hopen, hs, FrameExcept.refl _ _⟩
    | some pos1 =>
      obtain ⟨⟨m, hm, hm2, hmslot⟩, hkeep⟩ := saveStd_sound hopen hs
      have hopen1 : StdOpen (saveStd p saved std).2 := by
        obtain ⟨x0, hx0⟩ := Option.isSome_iff_exists.1 hopen.1
        obtain ⟨x1, hx1⟩ := Option.isSome_iff_exists.1 hopen.2
        exact ⟨by rw [hkeep 0 x0 hx0]; rfl, by rw [hkeep 1 x1 hx1]; rfl⟩
      have hframe1 : FrameExcept std p (saveStd p saved std).2 := fun e x _ h => hkeep e x h
      cases h2 : Str.find_first_not_of command ' ' (pos1 + 1) with
      | none =>
        rw [redirectLoop_bare h1 h2] at hrun
        simp only [Option.some.injEq, Prod.mk.injEq] at hrun
        obtain ⟨rfl, rfl, rfl⟩ := hrun
        rw [hm]
        have hslot := sys_dup2_slot (p := (saveStd p saved std).2) hmslot (show m ≠ std by omega)
        have hfr : FrameExcept std (saveStd p saved std).2
            (sys_dup2 (saveStd p saved std).2 (m : Int) std) := by
          intro e x he hx
          rw [hslot e]; simp [he, hx]
        have hstdo : slot (sys_dup2 (saveStd p saved std).2 (m : Int) std).fdt std = some o := by
          rw [hslot std]; simp
        refine ⟨stdOpen_of_frame hopen1 hfr (by rw [hstdo]; rfl), Or.inl ⟨rfl, hstdo⟩,
          hframe1.trans hfr⟩
      | some pos2 =>
        rw [redirectLoop_file h1 h2] at hrun
        obtain ⟨hfr, hstdo⟩ := redirectTo_frame env
          (Str.substr command pos2 (nameEnd command pos2 - pos2)) hopen1 hstd
        have hopen2 := stdOpen_of_frame hopen1 hfr hstdo
        have hs2 : SaveSound (redirectTo env (saveStd p saved std).2
            (Str.substr command pos2 (nameEnd command pos2 - pos2)) std) std
            (saveStd p saved std).1 o :=
          Or.inr ⟨m, hm, hm2, hfr m o (by omega) hmslot⟩
        obtain ⟨r1, r2, r3⟩ := ih _ _ _ _ _ _ hrun hopen2 hs2
        exact ⟨r1, r2, (hframe1.trans hfr).trans r3⟩

theorem saveSound_of_frame {p q : Proc} {j k : Nat} {saved : Int} {o : Stream}
    (hs : SaveSound p j saved o) (hf : FrameExcept k p q) (hjk : j ≠ k) (hk : k < 2) :
    SaveSound q j saved o := by
  rcases hs with ⟨h1, h2⟩ | ⟨n, hn, hn2, hslot⟩
  · exact Or.inl ⟨h1, hf j o hjk h2⟩
  · exact Or.inr ⟨n, hn, hn2, hf n o (by omega) hslot⟩

/-- The function `redirectIO` on the table: the standard descriptors stay open
and both save slots stay sound. -/
theorem redirectIO_table {env : Env} {p : Proc} {fds : Fds} {command : List Char}
    {r : Redirected} {o0 o1 : Stream} (hrun : redirectIO env p fds command = some r)
    (hopen : StdOpen p) (h0 : SaveSound p 0 fds.fd0 o0) (h1 : SaveSound p 1 fds.fd1 o1) :
    StdOpen r.proc ∧ SaveSound r.proc 0 r.fds.fd0 o0 ∧ SaveSound r.proc 1 r.fds.fd1 o1 := by
  unfold redirectIO at hrun
  cases hl : redirectLoop env '<' 0 command.length p fds.fd0 command with
  | none => rw [hl] at hrun; exact Option.noConfusion hrun
  | some x =>
    obtain ⟨p1, s0, c1⟩ := x
    rw [hl] at hrun
    simp only at hrun
    cases hg : redirectLoop env '>' 1 c1.length p1 fds.fd1 c1 with
    | none => rw [hg] at hrun; exact Option.noConfusion hrun
    | some y =>
      obtain ⟨p2, s1, c2⟩ := y
      rw [hg] at hrun
      simp only [Option.some.injEq] at hrun
      subst hrun
      obtain ⟨a1, a2, a3⟩ := redirectLoop_table env '<' 0 (by omega) o0 _ _ _ _ _ _ _ hl hopen h0
      have h1' : SaveSound p1 1 fds.fd1 o1 := saveSound_of_frame h1 a3 (by omega) (by omega)
      obtain ⟨b1, b2, b3⟩ := redirectLoop_table env '>' 1 (by omega) o1 _ _ _ _ _ _ _ hg a1 h1'
      exact ⟨b1, saveSound_of_frame a2 b3 (by omega) (by omega), b2⟩

/-- Lines 195-203 on the table: with sound save slots, both standard
descriptors refer to their original streams afterwards. -/
theorem finish_table {p : Proc} {fds : Fds} {o0 o1 : Stream} (rtn : Int)
    (h0 : SaveSound p 0 fds.fd0 o0) (h1 : SaveSound p 1 fds.fd1 o1) :
    slot (finish p fds rtn false).1.fdt 0 = some o0 ∧
      slot (finish p fds rtn false).1.fdt 1 = some o1 := by
  have c0 : (0 : Int) = ((0 : Nat) : Int) := rfl
  have c1 : (1 : Int) = ((1 : Nat) : Int) := rfl
  -- standard input
  have step0 : ∃ q, (if fds.fd0 ≠ -1 then sys_dup2 (sys_close p 0) fds.fd0 0 else p) = q ∧
      slot q.fdt 0 = some o0 ∧ SaveSound q 1 fds.fd1 o1 := by
    rcases h0 with ⟨hm, hslot⟩ | ⟨n, hn, hn2, hslot⟩
    · refine ⟨p, by simp [hm], hslot, h1⟩
    · have hne : fds.fd0 ≠ -1 := by rw [hn]; omega
      refine ⟨_, by rw [if_pos hne], ?_, ?_⟩
      · rw [hn, c0]
        have hcl : slot (sys_close p ((0 : Nat) : Int)).fdt n = some o0 := by
          rw [sys_close_slot]; simp [show n ≠ 0 by omega, hslot]
        rw [sys_dup2_slot hcl (by omega)]; simp
      · refine saveSound_of_frame (k := 0) h1 ?_ (by omega) (by omega)
        intro e x he hx
        rw [hn, c0]
        have hcl : slot (sys_close p ((0 : Nat) : Int)).fdt n = some o0 := by
          rw [sys_close_slot]; simp [show n ≠ 0 by omega, hslot]
        rw [sys_dup2_slot hcl (by omega), sys_close_slot]
        simp [he, hx]
  obtain ⟨q, hq, hq0, hq1⟩ := step0
  unfold finish
  simp only [Bool.false_eq_true, if_false, hq]
  rcases hq1 with ⟨hm, hslot⟩ | ⟨n, hn, hn2, hslot⟩
  · simp [hm, hq0, hslot]
  · have hne : fds.fd1 ≠ -1 := by rw [hn]; omega
    rw [if_pos hne, hn, c1]
    have hcl : slot (sys_close q ((1 : Nat) : Int)).fdt n = some o1 := by
      rw [sys_close_slot]; simp [show n ≠ 1 by omega, hslot]
    rw [sys_dup2_slot hcl (by omega), sys_dup2_slot hcl (by omega), sys_close_slot]
    simp [hq0]

theorem sys_dup_open {p : Proc} {k : Nat} {o : Stream} (h : slot p.fdt k = some o) :
    (sys_dup p (k : Int)).1 = ((lowestFree p.fdt : Nat) : Int) ∧
      (sys_dup p (k : Int)).2.fdt = setSlot p.fdt (lowestFree p.fdt) (some o) := by
  unfold sys_dup
  rw [Proc.stream_natCast, h]
  exact ⟨rfl, rfl⟩

/-- The table side of `setupPipe`: standard output is untouched, and the value
returned is a sound save slot for standard input. -/
theorem setupPipe_table {p : Proc} {command : List Char} {s : Piped} {o0 o1 : Stream}
    (hrun : setupPipe p command = some s) (h0 : slot p.fdt 0 = some o0)
    (h1 : slot p.fdt 1 = some o1) :
    StdOpen s.proc ∧ SaveSound s.proc 0 s.saved o0 ∧ SaveSound s.proc 1 (-1) o1 := by
  unfold setupPipe at hrun
  cases hp : Str.find_last_of '|' command with
  | none =>
    rw [hp] at hrun
    simp only [Option.some.injEq] at hrun
    subst hrun
    exact ⟨⟨by rw [h0]; rfl, by rw [h1]; rfl⟩, Or.inl ⟨rfl, h0⟩, Or.inl ⟨rfl, h1⟩⟩
  | some pos =>
    rw [hp] at hrun
    simp only [sys_pipe, Option.some.injEq] at hrun
    subst hrun
    simp only
    -- the two ends of the pipe
    have hr2 : 2 ≤ lowestFree p.fdt := two_le_lowestFree (by rw [h0]; rfl) (by rw [h1]; rfl)
    generalize hr : lowestFree p.fdt = r at hr2 ⊢
    have ht0 : slot (setSlot p.fdt r (some (Stream.pipeRead p.nobj))) 0 = some o0 := by
      rw [slot_setSlot]; simp [show (0 : Nat) ≠ r by omega, h0]
    have ht1 : slot (setSlot p.fdt r (some (Stream.pipeRead p.nobj))) 1 = some o1 := by
      rw [slot_setSlot]; simp [show (1 : Nat) ≠ r by omega, h1]
    have htr : slot (setSlot p.fdt r (some (Stream.pipeRead p.nobj))) r
        = some (Stream.pipeRead p.nobj) := by
      rw [slot_setSlot]; simp
    have hw2 : 2 ≤ lowestFree (setSlot p.fdt r (some (Stream.pipeRead p.nobj))) :=
      two_le_lowestFree (by rw [ht0]; rfl) (by rw [ht1]; rfl)
    have hwr : lowestFree (setSlot p.fdt r (some (Stream.pipeRead p.nobj))) ≠ r :=
      lowestFree_ne htr
    generalize hw : lowestFree (setSlot p.fdt r (some (Stream.pipeRead p.nobj))) = w at hw2 hwr ⊢
    -- the caller closes the write end
    generalize hq2 : sys_close (Proc.log
      { fdt := setSlot (setSlot p.fdt r (some (Stream.pipeRead p.nobj))) w
          (some (Stream.pipeWrite p.nobj)),
        nobj := p.nobj + 1, trace := p.trace }
      (Event.pipeStage (if pos ≠ 0 then Str.substr command 0 pos else []))) (w : Int) = q2
    have hq2slot : ∀ e, slot q2.fdt e = if e = w then none
        else if e = r then some (Stream.pipeRead p.nobj) else slot p.fdt e := by
      intro e
      rw [← hq2, sys_close_slot]
      simp only [Proc.log]
      rw [slot_setSlot, slot_setSlot]
      by_cases hew : e = w
      · simp [hew]
      · simp [hew]
    have hq20 : slot q2.fdt 0 = some o0 := by
      rw [hq2slot]; simp [show (0 : Nat) ≠ w by omega, show (0 : Nat) ≠ r by omega, h0]
    have hq21 : slot q2.fdt 1 = some o1 := by
      rw [hq2slot]; simp [show (1 : Nat) ≠ w by omega, show (1 : Nat) ≠ r by omega, h1]
    have hq2r : slot q2.fdt r = some (Stream.pipeRead p.nobj) := by
      rw [hq2slot]; simp [Ne.symm hwr]
    -- standard input is saved
    have c0 : (0 : Int) = ((0 : Nat) : Int) := rfl
    obtain ⟨hd1, hd2⟩ := sys_dup_open hq20
    rw [← c0] at hd1 hd2
    have hn2 : 2 ≤ lowestFree q2.fdt := two_le_lowestFree (by rw [hq20]; rfl) (by rw [hq21]; rfl)
    have hnr : lowestFree q2.fdt ≠ r := lowestFree_ne hq2r
    generalize hn : lowestFree q2.fdt = n at hd1 hd2 hn2 hnr
    generalize hq3 : sys_dup q2 0 = d at hd1 hd2 ⊢
    have hdr : slot d.2.fdt r = some (Stream.pipeRead p.nobj) := by
      rw [hd2, slot_setSlot]; simp [Ne.symm hnr, hq2r]
    have hfinal : ∀ e, slot (sys_close (sys_dup2 d.2 (r : Int) 0) (r : Int)).fdt e =
        if e = r then none else if e = 0 then some (Stream.pipeRead p.nobj)
        else if e = n then some o0 else slot q2.fdt e := by
      intro e
      rw [sys_close_slot, sys_dup2_slot hdr (by omega), hd2, slot_setSlot]
    refine ⟨⟨?_, ?_⟩, Or.inr ⟨n, hd1, hn2, ?_⟩, Or.inl ⟨rfl, ?_⟩⟩
    · rw [hfinal]; simp [show (0 : Nat) ≠ r by omega]
    · rw [hfinal]
      simp [show (1 : Nat) ≠ r by omega, show (1 : Nat) ≠ n by omega, hq21]
    · rw [hfinal]; simp [hnr, show n ≠ 0 by omega]
    · rw [hfinal]
      simp [show (1 : Nat) ≠ r by omega, show (1 : Nat) ≠ n by omega, hq21]

/-! ## Facts about the read loop -/

theorem run_nil (env : Env) (s : Editor) : run env s [] = s := rfl

theorem run_cons (env : Env) (s : Editor) (b : Char) (bs : List Char) :
    run env s (b :: bs) = run env (step env s b) bs := rfl

theorem run_append (env : Env) (s : Editor) (bs cs : List Char) :
    run env s (bs ++ cs) = run env (run env s bs) cs := by
  unfold run; rw [List.foldl_append]

theorem step_stopped (env : Env) (s : Editor) (b : Char) (h : s.status ≠ Status.running) :
    step env s b = s := by
  unfold step; simp [h]

/-- An ordinary byte outside an escape sequence is echoed and appended. -/
theorem step_ordinary (env : Env) (s : Editor) (b : Char) (hrun : s.status = Status.running)
    (ht : s.escape_char_timer = 0) (hb : ordinary b) :
    step env s b = { s with escape_char_timer := 0, out := s.out ++ [Out.chars [b]],
                            command := s.command ++ [b] } := by
  obtain ⟨h1, h2, h3, h4, h5, h6, h7⟩ := hb
  unfold step onOther
  simp [hrun, h1, h2, h3, h4, h5, h6, h7, ht]

theorem step_backspace (env : Env) (s : Editor) (hrun : s.status = Status.running) :
    step env s BACKSPACE = onBackspace s := by
  have h1 : BACKSPACE ≠ CTRL_D := by decide
  have h2 : BACKSPACE ≠ ENTER := by decide
  unfold step
  simp [hrun, h1, h2]

theorem step_enter (env : Env) (s : Editor) (hrun : s.status = Status.running) :
    step env s ENTER = onEnter env s ENTER := by
  have h1 : ENTER ≠ CTRL_D := by decide
  unfold step
  simp [hrun, h1]

theorem onEnter_submitted (env : Env) (s : Editor) (b : Char) :
    (onEnter env s b).submitted = s.submitted ++ [s.command] := by
  unfold onEnter
  simp only
  split
  · rfl
  · rfl
  · split
    · rfl
    · split <;> rfl

/-- The loop on ordinary and backspace bytes follows the stack specification. -/
theorem run_typing (env : Env) :
    ∀ (bytes : List Char) (s : Editor), s.status = Status.running → s.escape_char_timer = 0 →
      (∀ b ∈ bytes, ordinary b ∨ b = BACKSPACE) →
      (run env s bytes).status = Status.running ∧
      (run env s bytes).escape_char_timer = 0 ∧
      (run env s bytes).submitted = s.submitted ∧
      (run env s bytes).history = s.history ∧
      (run env s bytes).history_position = s.history_position ∧
      ((run env s bytes).command, (run env s bytes).out)
        = bytes.foldl typeByte (s.command, s.out) := by
  intro bytes
  induction bytes with
  | nil => intro s hrun ht _; exact ⟨hrun, ht, rfl, rfl, rfl, rfl⟩
  | cons b bs ih =>
    intro s hrun ht hall
    have hbs : ∀ x ∈ bs, ordinary x ∨ x = BACKSPACE := fun x hx => hall x (List.mem_cons_of_mem _ hx)
    rw [run_cons, List.foldl_cons]
    rcases hall b (List.mem_cons_self _ _) with hb | hb
    · have hstep := step_ordinary env s b hrun ht hb
      have hty : typeByte (s.command, s.out) b = (s.command ++ [b], s.out ++ [Out.chars [b]]) := by
        unfold typeByte; simp [hb.2.2.2.2.2.2]
      rw [hstep, hty]
      exact ih _ hrun rfl hbs
    · subst hb
      have hstep := step_backspace env s hrun
      have hfields : (onBackspace s).status = s.status ∧
          (onBackspace s).escape_char_timer = s.escape_char_timer ∧
          (onBackspace s).submitted = s.submitted ∧ (onBackspace s).history = s.history ∧
          (onBackspace s).history_position = s.history_position ∧
          ((onBackspace s).command, (onBackspace s).out)
            = typeByte (s.command, s.out) BACKSPACE := by
        unfold onBackspace typeByte
        by_cases hlen : s.command.length > 0
        · have hne : s.command ≠ [] := List.ne_nil_of_length_pos hlen
          simp [hlen, hne, Str.substr, List.dropLast_eq_take]
        · have hnil : s.command = [] := by
            cases hc : s.command with
            | nil => rfl
            | cons x xs => rw [hc] at hlen; simp at hlen
          simp [hnil]
      obtain ⟨f1, f2, f3, f4, f5, f6⟩ := hfields
      rw [hstep]
      obtain ⟨a1, a2, a3, a4, a5, a6⟩ := ih (onBackspace s)
        (by rw [f1]; exact hrun) (by rw [f2]; exact ht) hbs
      exact ⟨a1, a2, a3.trans f3, a4.trans f4, a5.trans f5, by rw [a6, f6]⟩

theorem step_running (env : Env) (s : Editor) (b : Char) (hrun : s.status = Status.running) :
    step env s b =
      if b = CTRL_D then { s with out := s.out ++ [Out.chars [b]], status := Status.endOfInput }
      else if b = ENTER then onEnter env s b
      else if b = BACKSPACE ∨ b = DELETE then onBackspace s
      else if b = UP ∨ b = DOWN then onArrow s b
      else onOther s b := by
  unfold step
  simp [hrun]

theorem onBackspace_frame (s : Editor) :
    (onBackspace s).history = s.history ∧ (onBackspace s).submitted = s.submitted ∧
      (onBackspace s).status = s.status ∧ (onBackspace s).history_position = s.history_position ∧
      (onBackspace s).escape_char_timer = s.escape_char_timer := by
  unfold onBackspace
  split <;> exact ⟨rfl, rfl, rfl, rfl, rfl⟩

theorem onArrow_frame (s : Editor) (b : Char) :
    (onArrow s b).history = s.history ∧ (onArrow s b).submitted = s.submitted ∧
      ((onArrow s b).status = s.status ∨ (onArrow s b).status = Status.undefinedBehaviour) ∧
      (onArrow s b).escape_char_timer = s.escape_char_timer := by
  unfold onArrow
  simp only
  split
  · exact ⟨rfl, rfl, Or.inr rfl, rfl⟩
  · exact ⟨rfl, rfl, Or.inl rfl, rfl⟩

theorem onOther_frame (s : Editor) (b : Char) :
    (onOther s b).history = s.history ∧ (onOther s b).submitted = s.submitted ∧
      (onOther s b).status = s.status ∧ (onOther s b).history_position = s.history_position := by
  unfold onOther
  simp only
  split_ifs <;> exact ⟨rfl, rfl, rfl, rfl⟩

/-- Only the newline byte touches the history and the list of submitted lines. -/
theorem step_keeps_history (env : Env) (s : Editor) (b : Char) (hb : b ≠ ENTER) :
    (step env s b).history = s.history ∧ (step env s b).submitted = s.submitted := by
  by_cases hrun : s.status = Status.running
  · rw [step_running env s b hrun]
    by_cases h1 : b = CTRL_D
    · rw [if_pos h1]; exact ⟨rfl, rfl⟩
    rw [if_neg h1, if_neg hb]
    by_cases h2 : b = BACKSPACE ∨ b = DELETE
    · rw [if_pos h2]; exact ⟨(onBackspace_frame s).1, (onBackspace_frame s).2.1⟩
    rw [if_neg h2]
    by_cases h3 : b = UP ∨ b = DOWN
    · rw [if_pos h3]; exact ⟨(onArrow_frame s b).1, (onArrow_frame s b).2.1⟩
    rw [if_neg h3]
    exact ⟨(onOther_frame s b).1, (onOther_frame s b).2.1⟩
  · rw [step_stopped env s b hrun]; exact ⟨rfl, rfl⟩

/-- The two ways the newline byte can leave the loop running: never when the
call returns `-1` or does not return; else the line is inserted after the
sentinel and the oldest line is evicted on overflow. -/
theorem onEnter_cases (env : Env) (s : Editor) (b : Char) :
    ((onEnter env s b).status ≠ Status.running ∧ (onEnter env s b).status ≠ Status.endOfInput ∧
      (onEnter env s b).history = s.history) ∨
    (∃ h, historyInsert s.history s.command = some h ∧
      (process_command env s.proc s.command false).outcome ≠ Outcome.returned (-1) ∧
      (onEnter env s b).status = s.status ∧
      (onEnter env s b).history = (if h.length > HISTORY_SIZE_MAX then h.dropLast else h) ∧
      (onEnter env s b).command = [] ∧
      (onEnter env s b).history_position = s.history_position ∧
      (onEnter env s b).escape_char_timer = s.escape_char_timer ∧
      (onEnter env s b).out = s.out ++ [Out.chars [b]] ++ [Out.prompt]) := by
  unfold onEnter
  simp only
  cases hout : (process_command env s.proc s.command false).outcome with
  | hang => exact Or.inl ⟨by simp, by simp, rfl⟩
  | exited c => exact Or.inl ⟨by simp, by simp, rfl⟩
  | returned rtn =>
    simp only
    by_cases hr : rtn = -1
    · rw [if_pos hr]; exact Or.inl ⟨by simp, by simp, rfl⟩
    · rw [if_neg hr]
      cases hins : historyInsert s.history s.command with
      | none => exact Or.inl ⟨by simp, by simp, rfl⟩
      | some h =>
        refine Or.inr ⟨h, rfl, ?_, rfl, rfl, rfl, rfl, rfl, rfl⟩
        intro heq
        exact hr (Outcome.returned.inj heq)

/-- Inserting a line after the sentinel and evicting the oldest on overflow
keeps the ten most recent lines. -/
theorem ring_insert (line : List Char) (l : List (List Char)) :
    (if ([] :: line :: l.take 10).length > HISTORY_SIZE_MAX
        then ([] :: line :: l.take 10).dropLast else ([] :: line :: l.take 10))
      = [] :: (line :: l).take 10 := by
  unfold HISTORY_SIZE_MAX
  by_cases hlen : 10 ≤ l.length
  · have h1 : ([] :: line :: l.take 10).length > 11 := by
      simp only [List.length_cons, List.length_take]; omega
    rw [if_pos h1]
    have h2 : (List.take 10 l) ≠ [] := by
      intro h
      have := congrArg List.length h
      simp only [List.length_take, List.length_nil] at this
      omega
    have h3 : (List.take 10 l).dropLast = List.take 9 l := by
      rw [List.dropLast_eq_take, List.take_take, List.length_take]
      congr 1
      omega
    cases htk : List.take 10 l with
    | nil => exact absurd htk h2
    | cons x xs =>
      rw [htk] at h3
      simp only [List.dropLast_cons₂, List.take_succ_cons]
      rw [h3]
  · have h1 : ¬ ([] :: line :: l.take 10).length > 11 := by
      simp only [List.length_cons, List.length_take]; omega
    rw [if_neg h1]
    rw [List.take_of_length_le (by omega)]
    simp only [List.take_succ_cons]
    rw [List.take_of_length_le (by omega)]

/-- The history invariant is kept by every turn of the loop. -/
theorem step_history (env : Env) (s : Editor) (b : Char)
    (hinv : s.status = Status.running ∨ s.status = Status.endOfInput →
      s.history = [] :: s.submitted.reverse.take 10) :
    (step env s b).status = Status.running ∨ (step env s b).status = Status.endOfInput →
      (step env s b).history = [] :: (step env s b).submitted.reverse.take 10 := by
  by_cases hrun : s.status = Status.running
  · by_cases hb : b = ENTER
    · subst hb
      rw [step_enter env s hrun, onEnter_submitted]
      intro hst
      have hh := hinv (Or.inl hrun)
      rcases onEnter_cases env s ENTER with ⟨h1, h2, -⟩ | ⟨h, hins, -, -, hhist, -⟩
      · rcases hst with hst | hst
        · exact absurd hst h1
        · exact absurd hst h2
      · rw [hhist]
        rw [hh] at hins
        simp only [historyInsert, Option.some.injEq] at hins
        subst hins
        simp only [List.reverse_append, List.reverse_cons, List.reverse_nil,
          List.nil_append, List.singleton_append]
        exact ring_insert s.command s.submitted.reverse
    · obtain ⟨h1, h2⟩ := step_keeps_history env s b hb
      intro _
      rw [h1, h2]
      exact hinv (Or.inl hrun)
  · rw [step_stopped env s b hrun]
    exact hinv

theorem run_history (env : Env) :
    ∀ (bytes : List Char) (s : Editor),
      (s.status = Status.running ∨ s.status = Status.endOfInput →
        s.history = [] :: s.submitted.reverse.take 10) →
      ((run env s bytes).status = Status.running ∨
          (run env s bytes).status = Status.endOfInput →
        (run env s bytes).history = [] :: (run env s bytes).submitted.reverse.take 10)
  | [], _, h => h
  | b :: bs, s, h => by
    rw [run_cons]
    exact run_history env bs (step env s b) (step_history env s b h)

theorem step_up (env : Env) (s : Editor) (hrun : s.status = Status.running) :
    step env s UP = onArrow s UP := by
  rw [step_running env s UP hrun]
  have h1 : UP ≠ CTRL_D := by decide
  have h2 : UP ≠ ENTER := by decide
  have h3 : ¬ (UP = BACKSPACE ∨ UP = DELETE) := by decide
  rw [if_neg h1, if_neg h2, if_neg h3, if_pos (Or.inl rfl)]

theorem step_down (env : Env) (s : Editor) (hrun : s.status = Status.running) :
    step env s DOWN = onArrow s DOWN := by
  rw [step_running env s DOWN hrun]
  have h1 : DOWN ≠ CTRL_D := by decide
  have h2 : DOWN ≠ ENTER := by decide
  have h3 : ¬ (DOWN = BACKSPACE ∨ DOWN = DELETE) := by decide
  rw [if_neg h1, if_neg h2, if_neg h3, if_pos (Or.inr rfl)]

/-- An up byte with the cursor on the oldest entry: the cursor is clamped and
the bell sounds. -/
theorem moveCursor_up_clamped (s : Editor) (hnonneg : 0 ≤ s.history_position)
    (hpos : s.history_position + 1 = s.history.length)
    (hlen : s.history.length < 2 ^ 31) : moveCursor s UP = (s.history_position, true) := by
  have hlen1 : s.history.length < 2147483648 := Nat.lt_of_lt_of_eq hlen (by norm_num)
  unfold moveCursor
  simp only [if_true]
  generalize s.history.length = n at hpos hlen1
  have h : toSizeT (s.history_position + 1) > toSizeT ((n : Int) - 1) := by
    unfold toSizeT
    rw [hpos]
    omega
  rw [if_pos h]
  congr 1
  omega

/-- A down byte with the cursor on the sentinel: the cursor is clamped and the
bell sounds. -/
theorem moveCursor_down_clamped (s : Editor) (hpos : s.history_position = 0) :
    moveCursor s DOWN = (0, true) := by
  unfold moveCursor
  have h : DOWN ≠ UP := by decide
  rw [if_neg h]
  simp [hpos]

theorem onArrow_of (s : Editor) (b : Char) (pos : Int) (bell : Bool) (entry : List Char)
    (hm : moveCursor s b = (pos, bell)) (hat : historyAt s.history pos = some entry) :
    onArrow s b = { s with
      history_position := pos, command := entry,
      out := (if bell then s.out ++ [Out.chars BELL] else s.out)
        ++ List.replicate s.command.length (Out.chars ERASE) ++ [Out.chars entry] } := by
  unfold onArrow
  simp only [hm, hat]

/-! ## The claims -/

theorem eq_of_map_fst_snd {α β : Type} :
    ∀ (l1 l2 : List (α × β)), l1.map Prod.fst = l2.map Prod.fst →
      l1.map Prod.snd = l2.map Prod.snd → l1 = l2
  | [], [], _, _ => rfl
  | [], _ :: _, h, _ => by simp at h
  | _ :: _, [], h, _ => by simp at h
  | x :: l1, y :: l2, h1, h2 => by
    simp only [List.map_cons, List.cons.injEq] at h1 h2
    rw [eq_of_map_fst_snd l1 l2 h1.2 h2.2, Prod.ext h1.1 h2.1]

/-- C1. Pipeline stage decomposition: for every command line without `&`, the
stage texts run by `process_command(line)` and the children that re-enter it
are, in order, the pieces of the line split at every `|` (so the list obeys the
recursion "stages left of the rightmost pipe, then the text right of it"); a
line with N pipe characters gives N + 1 stages, the first N run with
`isChild = true` (in forked children) and the last one in the calling
process; any fuel above the length of the line gives the same list. -/
theorem stage_decomposition (env : Env) (p : Proc) (line : List Char) (hamp : '&' ∉ line) :
    (stageList env p line).map Prod.fst = line.splitOn '|' ∧
    (stageList env p line).map Prod.snd = List.replicate (line.count '|') true ++ [false] ∧
    (stageList env p line).length = line.count '|' + 1 ∧
    ('|' ∉ line → stageList env p line = [(line, false)]) ∧
    (∀ (a b : List Char) (q : Proc), line = a ++ '|' :: b → '|' ∉ b →
      (stageList env p line).map Prod.fst = (stageList env q a).map Prod.fst ++ [b]) ∧
    (∀ fuel, line.length < fuel → stageRuns env fuel p line false = stageList env p line) := by
  obtain ⟨h1, h2⟩ := stageRuns_no_amp env (line.length + 1) p line false hamp (Nat.lt_succ_self _)
  have hlen : (stageList env p line).length = line.count '|' + 1 := by
    have := congrArg List.length h2
    simpa using this
  refine ⟨h1, h2, hlen, ?_, ?_, ?_⟩
  · intro hno
    have hsplit : line.splitOn '|' = [line] := by
      unfold List.splitOn
      exact List.splitOnP_eq_single _ _ (fun x hx => by
        have : x ≠ '|' := fun h => hno (h ▸ hx)
        simpa using this)
    apply eq_of_map_fst_snd
    · rw [show List.map Prod.fst (stageList env p line) = line.splitOn '|' from h1, hsplit]; rfl
    · rw [show List.map Prod.snd (stageList env p line) = _ from h2, List.count_eq_zero.2 hno]; rfl
  · intro a b q hline hb
    have ha : '&' ∉ a := fun h => hamp (by rw [hline]; simp [h])
    obtain ⟨g1, -⟩ := stageRuns_no_amp env (a.length + 1) q a false ha (Nat.lt_succ_self _)
    rw [show List.map Prod.fst (stageList env p line) = line.splitOn '|' from h1,
      show List.map Prod.fst (stageList env q a) = a.splitOn '|' from g1, hline]
    exact splitOn_append_last '|' b hb a
  · intro fuel hfuel
    obtain ⟨g1, g2⟩ := stageRuns_no_amp env fuel p line false hamp hfuel
    exact eq_of_map_fst_snd _ _ (g1.trans h1.symm) (g2.trans h2.symm)

/-- C1 (witness). The line `a|b|c` gives the three stages `a`, `b`, `c`. -/
theorem stage_decomposition_witness :
    '&' ∉ ['a', '|', 'b', '|', 'c'] ∧
    (stageList Env.plain Proc.shell ['a', '|', 'b', '|', 'c']).map Prod.fst
      = [['a'], ['b'], ['c']] ∧
    (stageList Env.plain Proc.shell ['a', '|', 'b', '|', 'c']).map Prod.snd
      = [true, true, false] :=
  ⟨by decide,
    (stage_decomposition Env.plain Proc.shell ['a', '|', 'b', '|', 'c'] (by decide)).1.trans
      (by decide),
    (stage_decomposition Env.plain Proc.shell ['a', '|', 'b', '|', 'c'] (by decide)).2.1.trans
      (by decide)⟩

/-- C2. Built-in prefix rule: for every stage text and built-in name (and any
process state and file system), `preprocess_command` returns; it returns 1
exactly when the text equals the name or begins with the name followed by a
space, 0 exactly when the text begins with the name, is longer, and the
character after the name is not a space, and 2 exactly when the name is not a
prefix of the text. -/
theorem preprocess_command_prefix_rule (env : Env) (p : Proc) (fds : Fds)
    (text name : List Char) :
    ∃ r, preprocess_command env p fds text name = some r ∧
      (r.1 = 1 ↔ (text = name ∨ name ++ [' '] <+: text)) ∧
      (r.1 = 0 ↔ (name <+: text ∧ name.length < text.length ∧ text[name.length]? ≠ some ' ')) ∧
      (r.1 = 2 ↔ ¬ name <+: text) :=
  preprocess_command_cases env p fds text name

/-- C3 (as stated, refuted). The line `a&&` ends in `&`, yet `runBg` returns
false on it: the test looks at the first `&` of the line, which here is
followed by another character. -/
theorem runBg_last_amp_counterexample :
    ¬ ((runBg ['a', '&', '&']).isSome = true ↔ lastNonSpace ['a', '&', '&'] = some '&') := by
  decide

/-- C3 (amended). For every command line, `runBg` backgrounds the line
(returns true) if and only if the last non-space character of the line is `&`
and the line holds no other `&`; a line with no `&` is never backgrounded. -/
theorem runBg_iff_single_trailing_amp (line : List Char) :
    ((runBg line).isSome = true ↔ (lastNonSpace line = some '&' ∧ line.count '&' = 1)) ∧
    ('&' ∉ line → runBg line = none) := by
  constructor
  · rw [runBg_isSome_iff]
    constructor
    · rintro ⟨a, b, rfl, ha, hb⟩
      refine ⟨lastNonSpace_append_spaces a b '&' (by decide) hb, ?_⟩
      have hcb : List.count '&' b = 0 := by
        rw [List.count_eq_zero]
        intro hm
        exact absurd (hb _ hm) (by decide)
      simp [List.count_append, List.count_eq_zero.2 ha, hcb]
    · rintro ⟨hlast, hcount⟩
      have hmem : '&' ∈ line := by
        rw [← List.count_pos_iff]; omega
      cases h1 : Str.find line '&' 0 with
      | none => exact absurd hmem (Str.find_eq_none.1 h1)
      | some pos1 =>
        obtain ⟨a, b, rfl, -, ha⟩ := Str.find_eq_some h1
        have hcb : '&' ∉ b := by
          rw [← List.count_eq_zero]
          simp [List.count_append, List.count_eq_zero.2 ha] at hcount
          exact hcount
        refine ⟨a, b, rfl, ha, ?_⟩
        unfold lastNonSpace at hlast
        rw [List.reverse_append, List.reverse_cons, List.append_assoc, List.find?_append] at hlast
        cases hf : List.find? (fun x => x != ' ') b.reverse with
        | none =>
          rw [List.find?_eq_none] at hf
          intro y hy
          simpa using hf y (List.mem_reverse.2 hy)
        | some y =>
          rw [hf] at hlast
          simp at hlast
          have := List.mem_of_find?_eq_some hf
          rw [hlast, List.mem_reverse] at this
          exact absurd this hcb
  · intro h
    unfold runBg
    rw [Str.find_eq_none.2 h]

/-- C3 (witness). The line `ls & ` is backgrounded, the line `ls` is not. -/
theorem runBg_iff_single_trailing_amp_witness :
    (lastNonSpace ['l', 's', ' ', '&', ' '] = some '&' ∧
      List.count '&' ['l', 's', ' ', '&', ' '] = 1) ∧
    (runBg ['l', 's', ' ', '&', ' ']).isSome = true ∧
    '&' ∉ ['l', 's'] ∧ runBg ['l', 's'] = none :=
  ⟨⟨by decide, by decide⟩,
    (runBg_iff_single_trailing_amp ['l', 's', ' ', '&', ' ']).1.2 ⟨by decide, by decide⟩,
    by decide, (runBg_iff_single_trailing_amp ['l', 's']).2 (by decide)⟩

/-- C5. Stream restoration: over the descriptor table, for every command line
and every file system, when standard input and standard output are open on
entry, `process_command(line, false)` never hangs, returns unless `ff` meets a
`stat` failure, and on return descriptors 0 and 1 refer to the same streams as
on entry. -/
theorem streams_restored (env : Env) (p : Proc) (line : List Char) (o0 o1 : Stream)
    (h0 : p.stream 0 = some o0) (h1 : p.stream 1 = some o1) :
    (process_command env p line false).outcome ≠ Outcome.hang ∧
    ((∀ c, env.ffStatFails c = false) →
      ∃ rtn, (process_command env p line false).outcome = Outcome.returned rtn) ∧
    (∀ rtn, (process_command env p line false).outcome = Outcome.returned rtn →
      (process_command env p line false).proc.stream 0 = some o0 ∧
      (process_command env p line false).proc.stream 1 = some o1) := by
  rw [Proc.stream_zero] at h0
  rw [Proc.stream_one] at h1
  simp only [Proc.stream_zero, Proc.stream_one]
  cases hbg : runBg line with
  | some c =>
    have hout : (process_command env p line false).outcome = Outcome.returned 0 := by
      unfold process_command; rw [hbg]
    have hproc : (process_command env p line false).proc.fdt = p.fdt := by
      unfold process_command; rw [hbg]; rfl
    rw [hout, hproc]
    exact ⟨by simp, fun _ => ⟨0, rfl⟩, fun _ _ => ⟨h0, h1⟩⟩
  | none =>
    obtain ⟨s, hs, -, -⟩ := setupPipe_text p line
    obtain ⟨hopen, hs0, hs1⟩ := setupPipe_table hs h0 h1
    rcases process_command_fg_run env false hbg hs with
      ⟨-, hproc, hout⟩ | ⟨-, d, r, -, hr, hfdt, hfds, -, hff, hcase⟩
    · rw [hout, hproc, finish_outcome]
      exact ⟨by simp, fun _ => ⟨0, rfl⟩, fun _ _ => finish_table 0 hs0 hs1⟩
    · obtain ⟨-, hr0, hr1⟩ := redirectIO_table hr hopen hs0 hs1
      rcases hcase with ⟨hnone, hout⟩ | ⟨rtn, p1, -, hp1, hproc, hout⟩
      · rw [hout]
        refine ⟨by simp, ?_, by simp⟩
        intro hnever
        obtain ⟨c, hc⟩ := hff hnone
        rw [hnever c] at hc
        exact Bool.noConfusion hc
      · rw [hout, hproc, finish_outcome]
        refine ⟨by simp, fun _ => ⟨rtn, rfl⟩, fun _ _ => ?_⟩
        apply finish_table rtn
        · rw [hfds]
          unfold SaveSound at hr0 ⊢
          rw [hp1, hfdt]; exact hr0
        · rw [hfds]
          unfold SaveSound at hr1 ⊢
          rw [hp1, hfdt]; exact hr1

/-- C5 (witness). A pipeline with an input and an output redirection and a bare
trailing `<`, run by the shell started from a terminal. -/
theorem streams_restored_witness :
    (Proc.shell.stream 0 = some (Stream.inherited 0) ∧
      Proc.shell.stream 1 = some (Stream.inherited 1)) ∧
    (process_command Env.plain Proc.shell "cat < a | wc > b <".toList false).outcome
        ≠ Outcome.hang ∧
    ((∀ c, Env.plain.ffStatFails c = false) →
      ∃ rtn, (process_command Env.plain Proc.shell "cat < a | wc > b <".toList false).outcome
        = Outcome.returned rtn) ∧
    (∀ rtn, (process_command Env.plain Proc.shell "cat < a | wc > b <".toList false).outcome
        = Outcome.returned rtn →
      (process_command Env.plain Proc.shell "cat < a | wc > b <".toList false).proc.stream 0
        = some (Stream.inherited 0) ∧
      (process_command Env.plain Proc.shell "cat < a | wc > b <".toList false).proc.stream 1
        = some (Stream.inherited 1)) :=
  ⟨⟨by decide, by decide⟩,
    streams_restored Env.plain Proc.shell "cat < a | wc > b <".toList
      (Stream.inherited 0) (Stream.inherited 1) (by decide) (by decide)⟩

theorem List.dropWhile_append_stop {p : Char → Bool} :
    ∀ (l r : List Char) (x : Char), (∀ y ∈ l, p y = true) → p x = false →
      (l ++ x :: r).dropWhile p = x :: r
  | [], r, x, _, hx => by simp [List.dropWhile, hx]
  | y :: l, r, x, hl, hx => by
    have hy : p y = true := hl y (by simp)
    simp only [List.cons_append, List.dropWhile_cons, hy, if_true]
    exact List.dropWhile_append_stop l r x (fun z hz => hl z (List.mem_cons_of_mem _ hz)) hx

theorem List.dropWhile_all {p : Char → Bool} :
    ∀ (l : List Char), (∀ y ∈ l, p y = true) → l.dropWhile p = []
  | [], _ => rfl
  | y :: l, hl => by
    have hy : p y = true := hl y (by simp)
    simp only [List.dropWhile_cons, hy, if_true]
    exact List.dropWhile_all l (fun z hz => hl z (List.mem_cons_of_mem _ hz))

/-- The text before and after the first operator, in list terms. -/
theorem split_at_operator {op : Char} {a b : List Char} (ha : op ∉ a) :
    (a ++ op :: b).takeWhile (fun x => x != op) = a ∧
    (a ++ op :: b).dropWhile (fun x => x != op) = op :: b := by
  have hl : ∀ y ∈ a, (fun x => x != op) y = true := by
    intro y hy
    have : y ≠ op := fun h => ha (h ▸ hy)
    simpa using this
  have hx : (fun x => x != op) op = false := by simp
  exact ⟨List.takeWhile_append_stop a b op hl hx, List.dropWhile_append_stop a b op hl hx⟩

theorem eraseOperator_of_not_mem {op : Char} (n : Nat) {text : List Char} (h : op ∉ text) :
    eraseOperator op n text = text := by
  cases n with
  | zero => rfl
  | succ n =>
    have hd : text.dropWhile (fun x => x != op) = [] :=
      List.dropWhile_all text (fun y hy => by
        have : y ≠ op := fun h' => h (h' ▸ hy)
        simpa using this)
    unfold eraseOperator
    simp only [hd]

theorem eraseOperator_bare {op : Char} (n : Nat) {a b : List Char} (ha : op ∉ a)
    (hb : ∀ y ∈ b, y = ' ') : eraseOperator op (n + 1) (a ++ op :: b) = a ++ b := by
  obtain ⟨h1, h2⟩ := split_at_operator (b := b) ha
  have hall : b.all (fun x => x == ' ') = true := by
    rw [List.all_eq_true]
    intro y hy
    simp [hb y hy]
  unfold eraseOperator
  simp only [h1, h2, hall, if_true]

theorem eraseOperator_file {op : Char} (n : Nat) {a b : List Char} (ha : op ∉ a)
    (hb : ¬ ∀ y ∈ b, y = ' ') :
    eraseOperator op (n + 1) (a ++ op :: b) = eraseOperator op n (a ++ afterOperand b) := by
  obtain ⟨h1, h2⟩ := split_at_operator (b := b) ha
  have hall : ¬ b.all (fun x => x == ' ') = true := by
    rw [List.all_eq_true]
    intro h
    exact hb (fun y hy => by simpa using h y hy)
  conv_lhs => unfold eraseOperator
  simp only [h1, h2, hall, if_false]
  rfl

/-- One turn of the loop of `redirectIO` on a filename, in list terms: the
characters from the operator to the end of the filename token go. -/
theorem erase_operand {text a b : List Char} {op : Char} {pos1 pos2 : Nat}
    (htext : text = a ++ op :: b) (ha : a.length = pos1)
    (h2 : Str.find_first_not_of text ' ' (pos1 + 1) = some pos2) :
    Str.erase text pos1 (nameEnd text pos2 - pos1) = a ++ afterOperand b := by
  subst htext
  have hdrop : List.drop (pos1 + 1) (a ++ op :: b) = b := by
    rw [← ha]; simp
  have htake : List.take pos1 (a ++ op :: b) = a := by
    rw [← ha]; simp
  unfold Str.find_first_not_of Str.findFrom at h2
  rw [hdrop] at h2
  simp only [Option.map_eq_some'] at h2
  obtain ⟨j, hj, rfl⟩ := h2
  obtain ⟨sp, x, c, rfl, hsp, hx, hall⟩ := Str.findIdx_eq_some hj
  have hx' : (fun y => y == ' ') x = false := by simpa using hx
  have hall' : ∀ y ∈ sp, (fun y => y == ' ') y = true := by
    intro y hy
    simpa using hall y hy
  have hdw : (sp ++ x :: c).dropWhile (fun y => y == ' ') = x :: c :=
    List.dropWhile_append_stop sp c x hall' hx'
  have hdrop2 : List.drop (j + (pos1 + 1)) (a ++ op :: (sp ++ x :: c)) = x :: c := by
    rw [Nat.add_comm, ← List.drop_drop, hdrop, ← hsp]
    simp
  have hlen : (a ++ op :: (sp ++ x :: c)).length = pos1 + 1 + j + (c.length + 1) := by
    simp [ha, hsp]; omega
  unfold afterOperand
  rw [hdw]
  unfold nameEnd Str.find_first_of Str.findFrom
  rw [hdrop2]
  have hends : ∀ y, [' ', '<', '>'].contains y = endsName y := by
    intro y
    simp only [endsName, List.contains, List.elem, Bool.or_false]
    cases y == ' ' <;> cases y == '<' <;> cases y == '>' <;> rfl
  have hfun : (fun y => [' ', '<', '>'].contains y) = endsName := funext hends
  rw [hfun]
  cases hk : Str.findIdx endsName (x :: c) with
  | none =>
    have hnone := Str.findIdx_eq_none.1 hk
    have : (x :: c).dropWhile (fun y => !endsName y) = [] :=
      List.dropWhile_all _ (fun y hy => by simp [hnone y hy])
    rw [this]
    simp only [Option.map_none', Option.getD_none]
    unfold Str.erase
    rw [htake, List.drop_eq_nil_of_le (by omega)]
  | some k =>
    obtain ⟨nm, y, rest, hsplit, hnm, hy, hbefore⟩ := Str.findIdx_eq_some hk
    have hdw2 : (x :: c).dropWhile (fun y => !endsName y) = y :: rest := by
      rw [hsplit]
      exact List.dropWhile_append_stop nm rest y (fun z hz => by simp [hbefore z hz])
        (by simp [hy])
    rw [hdw2]
    simp only [Option.map_some', Option.getD_some]
    unfold Str.erase
    rw [htake]
    congr 1
    have : pos1 + (k + (j + (pos1 + 1)) - pos1) = (j + (pos1 + 1)) + k := by omega
    rw [this, ← List.drop_drop, hdrop2, hsplit, ← hnm]
    simp

/-- The text a loop of `redirectIO` leaves is the specified erasure. -/
theorem redirectLoop_text (env : Env) (op : Char) (std : Nat) :
    ∀ (fuel : Nat) (p : Proc) (saved : Int) (command : List Char), command.length ≤ fuel →
      ∃ p1 s1, redirectLoop env op std fuel p saved command
        = some (p1, s1, eraseOperator op fuel command) := by
  intro fuel
  induction fuel with
  | zero =>
    intro p saved command hlen
    have hnil : command = [] := List.length_eq_zero.1 (Nat.le_zero.1 hlen)
    subst hnil
    exact ⟨p, saved, redirectLoop_done (Str.find_eq_none.2 (by simp))⟩
  | succ n ih =>
    intro p saved command hlen
    cases h1 : Str.find command op 0 with
    | none =>
      rw [eraseOperator_of_not_mem _ (Str.find_eq_none.1 h1)]
      exact ⟨p, saved, redirectLoop_done h1⟩
    | some pos1 =>
      obtain ⟨a, b, htext, ha, hnot⟩ := Str.find_eq_some h1
      have hdrop : List.drop (pos1 + 1) command = b := by
        rw [htext, ← ha]; simp
      cases h2 : Str.find_first_not_of command ' ' (pos1 + 1) with
      | none =>
        have hb : ∀ y ∈ b, y = ' ' := by
          rw [Str.find_first_not_of_eq_none, hdrop] at h2
          exact h2
        have he : Str.erase command pos1 1 = a ++ b := by
          unfold Str.erase
          rw [hdrop, htext, ← ha]
          simp
        have hspec : eraseOperator op (n + 1) command = a ++ b := by
          rw [htext]; exact eraseOperator_bare n hnot hb
        rw [redirectLoop_bare h1 h2, he, hspec]
        exact ⟨_, _, rfl⟩
      | some pos2 =>
        have hb : ¬ ∀ y ∈ b, y = ' ' := by
          intro hall
          have : Str.find_first_not_of command ' ' (pos1 + 1) = none := by
            rw [Str.find_first_not_of_eq_none, hdrop]; exact hall
          rw [this] at h2
          exact Option.noConfusion h2
        obtain ⟨hlt1, hlt3⟩ := nameEnd_gt h1 h2
        have hshort := Str.erase_length_lt command pos1 (nameEnd command pos2) hlt1 hlt3
        have hspec : eraseOperator op (n + 1) command
            = eraseOperator op n (a ++ afterOperand b) := by
          rw [htext]; exact eraseOperator_file n hnot hb
        rw [redirectLoop_file h1 h2, hspec, ← erase_operand htext ha h2]
        exact ih _ _ _ (by omega)

/-- The text `redirectIO` leaves is the specified residual text. -/
theorem redirectIO_text {env : Env} {p : Proc} {fds : Fds} {command : List Char}
    {r : Redirected} (hrun : redirectIO env p fds command = some r) :
    r.command = erasedText command := by
  obtain ⟨p1, s0, h1⟩ := redirectLoop_text env '<' 0 command.length p fds.fd0 command (le_refl _)
  obtain ⟨p2, s1, h2⟩ := redirectLoop_text env '>' 1
    (eraseOperator '<' command.length command).length p1 fds.fd1
    (eraseOperator '<' command.length command) (le_refl _)
  unfold redirectIO at hrun
  simp only [h1, h2, Option.some.injEq] at hrun
  rw [← hrun]
  rfl

/-- A text with one redirection: the operator, the spaces after it and the
filename token go, the rest stays. -/
theorem erasedText_single {op : Char} {a sp name rest : List Char} (hop : op = '<' ∨ op = '>')
    (ha1 : '<' ∉ a) (ha2 : '>' ∉ a) (hr1 : '<' ∉ rest) (hr2 : '>' ∉ rest)
    (hsp : ∀ y ∈ sp, y = ' ') (hne : name ≠ [])
    (hname : ∀ y ∈ name, y ≠ ' ' ∧ y ≠ '<' ∧ y ≠ '>')
    (hrest : rest = [] ∨ rest.head? = some ' ') :
    erasedText (a ++ op :: (sp ++ name ++ rest)) = a ++ rest := by
  obtain ⟨x, nm, rfl⟩ := List.exists_cons_of_ne_nil hne
  have hx := hname x (by simp)
  have hnotall : ¬ ∀ y ∈ sp ++ x :: nm ++ rest, y = ' ' := fun h => hx.1 (h x (by simp))
  have hafter : afterOperand (sp ++ x :: nm ++ rest) = rest := by
    unfold afterOperand
    have h1 : (sp ++ x :: nm ++ rest).dropWhile (fun y => y == ' ') = x :: (nm ++ rest) := by
      rw [List.append_assoc, List.cons_append]
      exact List.dropWhile_append_stop sp (nm ++ rest) x (fun y hy => by simp [hsp y hy])
        (by simpa using hx.1)
    rw [h1]
    have hnm : ∀ y ∈ x :: nm, (fun y => !endsName y) y = true := by
      intro y hy
      obtain ⟨g1, g2, g3⟩ := hname y hy
      simp [endsName, g1, g2, g3]
    rcases hrest with rfl | hhead
    · rw [List.append_nil]
      exact List.dropWhile_all _ hnm
    · obtain ⟨rest1, rfl⟩ : ∃ rest1, rest = ' ' :: rest1 := by
        cases rest with
        | nil => simp at hhead
        | cons z rest1 => simp at hhead; exact ⟨rest1, by rw [hhead]⟩
      rw [← List.cons_append]
      exact List.dropWhile_append_stop (x :: nm) rest1 ' ' hnm (by simp [endsName])
  have hlen : (a ++ op :: (sp ++ x :: nm ++ rest)).length
      = (a.length + (sp ++ x :: nm ++ rest).length) + 1 := by
    simp only [List.length_append, List.length_cons]
    omega
  have hnone1 : '<' ∉ a ++ rest := by
    rw [List.mem_append]; exact fun h => h.elim ha1 hr1
  have hnone2 : '>' ∉ a ++ rest := by
    rw [List.mem_append]; exact fun h => h.elim ha2 hr2
  unfold erasedText
  rcases hop with rfl | rfl
  · have hfirst : eraseOperator '<' (a ++ '<' :: (sp ++ x :: nm ++ rest)).length
        (a ++ '<' :: (sp ++ x :: nm ++ rest)) = a ++ rest := by
      rw [hlen, eraseOperator_file _ ha1 hnotall, hafter, eraseOperator_of_not_mem _ hnone1]
    simp only [hfirst]
    exact eraseOperator_of_not_mem _ hnone2
  · have hno : '<' ∉ a ++ '>' :: (sp ++ x :: nm ++ rest) := by
      simp only [List.mem_append, List.mem_cons, not_or]
      refine ⟨ha1, by decide, ⟨fun h => ?_, ?_⟩, hr1⟩
      · exact absurd (hsp _ h) (by decide)
      · exact ⟨fun h => hx.2.1 h.symm, fun h => (hname _ (List.mem_cons_of_mem _ h)).2.1 rfl⟩
    have hfirst : eraseOperator '<' (a ++ '>' :: (sp ++ x :: nm ++ rest)).length
        (a ++ '>' :: (sp ++ x :: nm ++ rest)) = a ++ '>' :: (sp ++ x :: nm ++ rest) :=
      eraseOperator_of_not_mem _ hno
    simp only [hfirst]
    rw [hlen, eraseOperator_file _ ha2 hnotall, hafter, eraseOperator_of_not_mem _ hnone2]

/-- C6. Redirection erasure: for every stage text (any process state, save set
and file system), `redirectIO` terminates; the text it leaves has no `<` and no
`>`, is a subsequence of the original text (deletions only), and is exactly the
specified residual text: every `<`, then every `>`, is erased together with the
spaces and the filename token that follow it (an operator that only spaces
follow is erased alone).  In particular a text without operators is left as it
is, and of a text with one redirection, `a op spaces name rest`, exactly
`a rest` remains. -/
theorem redirectIO_erases (env : Env) (p : Proc) (fds : Fds) (command : List Char) :
    ∃ r, redirectIO env p fds command = some r ∧
      '<' ∉ r.command ∧ '>' ∉ r.command ∧ r.command.Sublist command ∧
      r.command = erasedText command ∧
      ('<' ∉ command → '>' ∉ command → r.command = command) ∧
      (∀ (op : Char) (a sp name rest : List Char), (op = '<' ∨ op = '>') →
        command = a ++ op :: (sp ++ name ++ rest) →
        '<' ∉ a → '>' ∉ a → '<' ∉ rest → '>' ∉ rest →
        (∀ y ∈ sp, y = ' ') → name ≠ [] → (∀ y ∈ name, y ≠ ' ' ∧ y ≠ '<' ∧ y ≠ '>') →
        (rest = [] ∨ rest.head? = some ' ') → r.command = a ++ rest) := by
  obtain ⟨r, hr, h1, h2, h3⟩ := redirectIO_result env p fds command
  have htext := redirectIO_text hr
  refine ⟨r, hr, h1, h2, h3, htext, ?_, ?_⟩
  · intro hlt hgt
    rw [htext]
    unfold erasedText
    simp only [eraseOperator_of_not_mem _ hlt]
    exact eraseOperator_of_not_mem _ hgt
  · intro op a sp name rest hop hcmd ha1 ha2 hr1 hr2 hsp hne hname hrest
    rw [htext, hcmd]
    exact erasedText_single hop ha1 ha2 hr1 hr2 hsp hne hname hrest

/-- C6 (witness). Of `ls > out -l` the text `ls  -l` remains; of `cat <in >out`
the text `cat  ` remains, whether or not the files can be opened. -/
theorem redirectIO_erases_witness :
    (∃ r, redirectIO Env.plain Proc.shell ⟨-1, -1⟩ "ls > out -l".toList = some r ∧
      r.command = "ls  -l".toList) ∧
    (∃ r, redirectIO Env.bare Proc.shell ⟨-1, -1⟩ "cat <in >out".toList = some r ∧
      r.command = "cat  ".toList) := by
  constructor
  · obtain ⟨r, hr, -, -, -, -, -, h⟩ :=
      redirectIO_erases Env.plain Proc.shell ⟨-1, -1⟩ "ls > out -l".toList
    exact ⟨r, hr, h '>' "ls ".toList " ".toList "out".toList " -l".toList (Or.inr rfl) rfl
      (by decide) (by decide) (by decide) (by decide) (by decide) (by decide) (by decide)
      (Or.inr rfl)⟩
  · obtain ⟨r, hr, -, -, -, h, -⟩ :=
      redirectIO_erases Env.bare Proc.shell ⟨-1, -1⟩ "cat <in >out".toList
    exact ⟨r, hr, h.trans (by decide)⟩

/-- C7. History ring contents: in every state the loop reaches from its initial
state while it is still reading (or has stopped on end of input), so that none
of the N lines submitted so far has terminated the shell, the history is the
empty sentinel followed by the most recent min(N, 10) submitted lines, newest
first; below ten lines all of them are present, and the size never exceeds 11. -/
theorem history_ring (env : Env) (p : Proc) (bytes : List Char)
    (h : (run env (Editor.init p) bytes).status = Status.running ∨
      (run env (Editor.init p) bytes).status = Status.endOfInput) :
    (run env (Editor.init p) bytes).history
        = [] :: (run env (Editor.init p) bytes).submitted.reverse.take 10 ∧
    (run env (Editor.init p) bytes).history.length
        = min (run env (Editor.init p) bytes).submitted.length 10 + 1 ∧
    (run env (Editor.init p) bytes).history.length ≤ HISTORY_SIZE_MAX ∧
    ((run env (Editor.init p) bytes).submitted.length ≤ 10 →
      (run env (Editor.init p) bytes).history
        = [] :: (run env (Editor.init p) bytes).submitted.reverse) := by
  have hinv := run_history env bytes (Editor.init p) (fun _ => rfl) h
  have hlen : (run env (Editor.init p) bytes).history.length
      = min (run env (Editor.init p) bytes).submitted.length 10 + 1 := by
    rw [hinv]
    simp only [List.length_cons, List.length_take, List.length_reverse]
    omega
  refine ⟨hinv, hlen, ?_, ?_⟩
  · rw [hlen]; unfold HISTORY_SIZE_MAX; omega
  · intro hle
    rw [hinv, List.take_of_length_le (by simpa using hle)]

set_option maxRecDepth 1000000 in
/-- C7 (witness). Twelve one-letter lines: the two oldest are gone. -/
theorem history_ring_witness :
    ((run Env.bare (Editor.init Proc.shell) "a\nb\nc\nd\ne\nf\ng\nh\ni\nj\nk\nl\n".toList).status
        = Status.running ∨
      (run Env.bare (Editor.init Proc.shell) "a\nb\nc\nd\ne\nf\ng\nh\ni\nj\nk\nl\n".toList).status
        = Status.endOfInput) ∧
    (run Env.bare (Editor.init Proc.shell) "a\nb\nc\nd\ne\nf\ng\nh\ni\nj\nk\nl\n".toList).history
      = [[], ['l'], ['k'], ['j'], ['i'], ['h'], ['g'], ['f'], ['e'], ['d'], ['c']] :=
  ⟨by decide,
    (history_ring Env.bare Proc.shell "a\nb\nc\nd\ne\nf\ng\nh\ni\nj\nk\nl\n".toList
      (by decide)).1.trans (by decide)⟩

/-- C8 (as stated, refuted). With nothing in the history but the sentinel and
`a` typed in the buffer, the cursor is both on the oldest entry and on the
sentinel; an up byte, and likewise a down byte, empties the buffer instead of
leaving it unchanged. -/
theorem arrow_clamp_counterexample :
    Editor.typedA.status = Status.running ∧
    Editor.typedA.history_position + 1 = (Editor.typedA.history.length : Int) ∧
    Editor.typedA.history_position = 0 ∧
    (step Env.plain Editor.typedA UP).command
      ≠ Editor.typedA.command ∧
    (step Env.plain Editor.typedA DOWN).command
      ≠ Editor.typedA.command := by
  decide

/-- C8 (amended). History clamping: in every running editor state whose cursor
is on the oldest entry, an up byte rings the bell, leaves the cursor where it
is, and replaces the command buffer by the history entry under the cursor
(erasing the old text on screen and printing the entry), so the buffer is
unchanged exactly when it already equals that entry; in every running state
whose cursor is on the sentinel (index 0), a down byte does the same with the
entry at index 0. -/
theorem arrow_clamp_reloads (env : Env) (s : Editor) (hrun : s.status = Status.running) :
    (0 ≤ s.history_position → s.history_position + 1 = s.history.length →
      s.history.length < 2 ^ 31 →
      ∃ entry, historyAt s.history s.history_position = some entry ∧
        (step env s UP).history_position = s.history_position ∧
        (step env s UP).command = entry ∧
        (step env s UP).out = s.out ++ [Out.chars BELL]
          ++ List.replicate s.command.length (Out.chars ERASE) ++ [Out.chars entry] ∧
        ((step env s UP).command = s.command ↔ s.command = entry)) ∧
    (s.history_position = 0 → s.history ≠ [] →
      ∃ entry, historyAt s.history 0 = some entry ∧
        (step env s DOWN).history_position = s.history_position ∧
        (step env s DOWN).command = entry ∧
        (step env s DOWN).out = s.out ++ [Out.chars BELL]
          ++ List.replicate s.command.length (Out.chars ERASE) ++ [Out.chars entry] ∧
        ((step env s DOWN).command = s.command ↔ s.command = entry)) := by
  constructor
  · intro hnonneg hpos hlen
    have hm := moveCursor_up_clamped s hnonneg hpos hlen
    have hlt : s.history_position.toNat < s.history.length := by omega
    have hat : historyAt s.history s.history_position
        = some (s.history.get ⟨s.history_position.toNat, hlt⟩) := by
      unfold historyAt
      rw [if_neg (by omega)]
      exact List.get?_eq_get hlt
    refine ⟨_, hat, ?_⟩
    rw [step_up env s hrun, onArrow_of s UP _ _ _ hm hat]
    exact ⟨rfl, rfl, rfl, eq_comm⟩
  · intro hpos hne
    have hm := moveCursor_down_clamped s hpos
    have hlt : 0 < s.history.length := List.length_pos.2 hne
    have hat : historyAt s.history 0 = some (s.history.get ⟨0, hlt⟩) := by
      unfold historyAt
      rw [if_neg (by omega)]
      exact List.get?_eq_get hlt
    refine ⟨_, hat, ?_⟩
    rw [step_down env s hrun, onArrow_of s DOWN _ _ _ hm hat]
    exact ⟨hpos.symm, rfl, rfl, eq_comm⟩

/-- C8 (witness). The state of the counterexample: both arrows ring the bell,
keep the cursor at 0 and load the empty sentinel into the buffer. -/
theorem arrow_clamp_reloads_witness :
    (∃ entry, historyAt Editor.typedA.history
        Editor.typedA.history_position = some entry ∧
      (step Env.plain Editor.typedA UP).history_position
        = Editor.typedA.history_position ∧
      (step Env.plain Editor.typedA UP).command = entry ∧
      (step Env.plain Editor.typedA UP).out
        = Editor.typedA.out ++ [Out.chars BELL]
          ++ List.replicate Editor.typedA.command.length
            (Out.chars ERASE) ++ [Out.chars entry] ∧
      ((step Env.plain Editor.typedA UP).command
        = Editor.typedA.command ↔
          Editor.typedA.command = entry)) ∧
    (step Env.plain Editor.typedA DOWN).command = [] :=
  ⟨(arrow_clamp_reloads Env.plain Editor.typedA
      (by decide)).1 (by decide) (by decide) (by decide),
    by
      obtain ⟨entry, h1, -, h3, -⟩ :=
        (arrow_clamp_reloads Env.plain Editor.typedA
          (by decide)).2 (by decide) (by decide)
      rw [h3]
      exact Option.some.inj (h1.symm.trans (by decide))⟩

/-- C9 (code at the failing input). From any running state, whatever the
suppression counter (zero included), once the three bytes of an arrow-key sequence are consumed the
counter is 1, not 0: the escape byte sets it to 3 and takes one off, the `[`
takes one off, but the payload byte goes to the history branch, which does not
touch it.  The next ordinary byte is therefore swallowed: it is neither echoed
nor appended, and only then is the counter back at zero. -/
theorem arrow_sequence_leaves_counter (env : Env) (s : Editor) (b : Char)
    (hb : b = UP ∨ b = DOWN) (hrun : s.status = Status.running) :
    (run env s [ESC, '[', b]).escape_char_timer = 1 ∧
    ∀ x, ordinary x → (run env s [ESC, '[', b]).status = Status.running →
      (run env s [ESC, '[', b, x]).command = (run env s [ESC, '[', b]).command ∧
      (run env s [ESC, '[', b, x]).out = (run env s [ESC, '[', b]).out ∧
      (run env s [ESC, '[', b, x]).escape_char_timer = 0 := by
  have e1 : ESC ≠ CTRL_D := by decide
  have e2 : ESC ≠ ENTER := by decide
  have e3 : ¬ (ESC = BACKSPACE ∨ ESC = DELETE) := by decide
  have e4 : ¬ (ESC = UP ∨ ESC = DOWN) := by decide
  have b1 : '[' ≠ CTRL_D := by decide
  have b2 : '[' ≠ ENTER := by decide
  have b3 : ¬ ('[' = BACKSPACE ∨ '[' = DELETE) := by decide
  have b4 : ¬ ('[' = UP ∨ '[' = DOWN) := by decide
  have b5 : '[' ≠ ESC := by decide
  have hs1 : step env s ESC = { s with escape_char_timer := 2 } := by
    rw [step_running env s ESC hrun, if_neg e1, if_neg e2, if_neg e3, if_neg e4]
    unfold onOther
    simp
  have hs2 : step env { s with escape_char_timer := 2 } '[' = { s with escape_char_timer := 1 } := by
    rw [step_running env { s with escape_char_timer := 2 } '[' hrun, if_neg b1, if_neg b2, if_neg b3, if_neg b4]
    unfold onOther
    simp [b5]
  have c1 : b ≠ CTRL_D := by rcases hb with rfl | rfl <;> decide
  have c2 : b ≠ ENTER := by rcases hb with rfl | rfl <;> decide
  have c3 : ¬ (b = BACKSPACE ∨ b = DELETE) := by rcases hb with rfl | rfl <;> decide
  have hs3 : step env { s with escape_char_timer := 1 } b
      = onArrow { s with escape_char_timer := 1 } b := by
    rw [step_running env { s with escape_char_timer := 1 } b hrun, if_neg c1, if_neg c2, if_neg c3, if_pos hb]
  have hrun3 : run env s [ESC, '[', b] = onArrow { s with escape_char_timer := 1 } b := by
    rw [run_cons, hs1, run_cons, hs2, run_cons, hs3, run_nil]
  have htimer : (onArrow { s with escape_char_timer := 1 } b).escape_char_timer = 1 :=
    (onArrow_frame _ b).2.2.2
  refine ⟨by rw [hrun3, htimer], ?_⟩
  intro x hx hst
  have hrun4 : run env s [ESC, '[', b, x] = step env (run env s [ESC, '[', b]) x := by
    rw [show [ESC, '[', b, x] = [ESC, '[', b] ++ [x] from rfl, run_append, run_cons, run_nil]
  obtain ⟨x1, x2, x3, x4, x5, x6, x7⟩ := hx
  rw [hrun4, step_running env _ x hst, if_neg x1, if_neg x2,
    if_neg (by simp [x6, x7]), if_neg (by simp [x4, x5])]
  rw [hrun3] at hst ⊢
  unfold onOther
  simp [x3, htimer]

/-- C9 (witness). From the first prompt, after `ESC [ A` the counter is 1, and
the letter `x` typed next leaves the buffer empty. -/
theorem arrow_sequence_leaves_counter_witness :
    (UP = UP ∨ UP = DOWN) ∧ (Editor.init Proc.shell).status = Status.running ∧
    (Editor.init Proc.shell).escape_char_timer = 0 ∧
    (run Env.plain (Editor.init Proc.shell) [ESC, '[', UP]).escape_char_timer = 1 ∧
    (run Env.plain (Editor.init Proc.shell) [ESC, '[', UP, 'x']).command = [] ∧
    (run Env.plain (Editor.init Proc.shell) [ESC, '[', UP, 'x', 'y']).command = ['y'] :=
  ⟨by decide, by decide, by decide,
    (arrow_sequence_leaves_counter Env.plain (Editor.init Proc.shell) UP (by decide)
      (by decide)).1,
    ((arrow_sequence_leaves_counter Env.plain (Editor.init Proc.shell) UP (by decide)
      (by decide)).2 'x' (by decide) (by decide)).1.trans (by decide),
    by decide⟩

/-- C10. Typing and backspace: from an empty buffer with the suppression counter
at zero, for every input sequence of ordinary bytes and backspace bytes, the
buffer and the screen output follow the stack specification (an ordinary byte
is appended and echoed; a backspace removes the last character, or rings the
bell and changes nothing on an empty buffer), and the text handed to
`process_command` by a following newline is the resulting buffer. -/
theorem typing_and_backspace (env : Env) (s : Editor) (bytes : List Char)
    (hrun : s.status = Status.running) (hbuf : s.command = [])
    (ht : s.escape_char_timer = 0) (hall : ∀ b ∈ bytes, ordinary b ∨ b = BACKSPACE) :
    (run env s (bytes ++ [ENTER])).submitted
        = s.submitted ++ [(bytes.foldl typeByte ([], s.out)).1] ∧
    (run env s bytes).command = (bytes.foldl typeByte ([], s.out)).1 ∧
    (run env s bytes).out = (bytes.foldl typeByte ([], s.out)).2 := by
  obtain ⟨a1, -, a3, -, -, a6⟩ := run_typing env bytes s hrun ht hall
  rw [hbuf] at a6
  have hc := congrArg Prod.fst a6
  have ho := congrArg Prod.snd a6
  simp only at hc ho
  refine ⟨?_, hc, ho⟩
  rw [run_append, run_cons, run_nil, step_enter env _ a1, onEnter_submitted, a3, hc]

/-- C10 (witness). Typing `abc`, backspace twice, `de`, enter submits `ade`. -/
theorem typing_and_backspace_witness :
    (Editor.init Proc.shell).status = Status.running ∧
    (Editor.init Proc.shell).command = [] ∧
    (Editor.init Proc.shell).escape_char_timer = 0 ∧
    (∀ b ∈ ['a', 'b', 'c', BACKSPACE, BACKSPACE, 'd', 'e'], ordinary b ∨ b = BACKSPACE) ∧
    (run Env.plain (Editor.init Proc.shell)
      (['a', 'b', 'c', BACKSPACE, BACKSPACE, 'd', 'e'] ++ [ENTER])).submitted
        = [['a', 'd', 'e']] :=
  ⟨by decide, by decide, by decide, by decide,
    (typing_and_backspace Env.plain (Editor.init Proc.shell)
      ['a', 'b', 'c', BACKSPACE, BACKSPACE, 'd', 'e'] (by decide) (by decide) (by decide)
      (by decide)).1.trans (by decide)⟩

/-! ## Facts about `print_prompt` -/

/-- The longest suffix without `ch` is what follows the last `ch`. -/
theorem suffix_after_last (ch : Char) (a b : List Char) (hb : ch ∉ b) :
    ((a ++ ch :: b).reverse.takeWhile (fun x => x != ch)).reverse = b := by
  rw [List.reverse_append, List.reverse_cons, List.append_assoc, List.singleton_append,
    List.takeWhile_append_stop _ _ _ _ (by simp), List.reverse_reverse]
  intro y hy
  have : y ≠ ch := fun h => hb (h ▸ List.mem_reverse.1 hy)
  simpa using this

theorem print_prompt_short (d : List Char) (h : d.length ≤ 16) :
    print_prompt d = some (d ++ ['%', ' ']) := by
  unfold print_prompt
  rw [if_neg (by omega)]

theorem print_prompt_long (d : List Char) (h : 16 < d.length) (hs : '/' ∈ d) :
    print_prompt d = some (['/', '.', '.', '.'] ++ fromLastSlash d ++ ['%', ' ']) := by
  unfold print_prompt
  rw [if_pos h]
  cases hf : Str.find_last_of '/' d with
  | none => exact absurd hs (Str.find_last_of_eq_none.1 hf)
  | some cutoff =>
    obtain ⟨a, b, rfl, ha, hb⟩ := Str.find_last_of_eq_some hf
    have hsub : Str.substr (a ++ '/' :: b) cutoff ((a ++ '/' :: b).length - cutoff) = '/' :: b := by
      subst ha
      simp [Str.substr]
    have hspec : fromLastSlash (a ++ '/' :: b) = '/' :: b := by
      unfold fromLastSlash
      rw [suffix_after_last '/' a b hb]
    simp only [hsub, hspec, List.append_assoc]

/-! ## The invariant of the read loop -/

theorem EditorInv.init (p : Proc) : EditorInv (Editor.init p) := by
  unfold EditorInv Editor.init HISTORY_SIZE_MAX
  simp

/-- Under the invariant the cursor an arrow byte computes is in range. -/
theorem moveCursor_range (s : Editor) (b : Char) (h : EditorInv s) :
    0 ≤ (moveCursor s b).1 ∧ (moveCursor s b).1 < (s.history.length : Int) := by
  obtain ⟨-, hlen, h0, hlt, -⟩ := h
  unfold HISTORY_SIZE_MAX at hlen
  unfold moveCursor
  generalize s.history.length = n at hlen hlt
  by_cases hb : b = UP
  · rw [if_pos hb]
    simp only
    unfold toSizeT
    split
    · simp only; omega
    · rename_i hgt
      simp only
      omega
  · rw [if_neg hb]
    simp only
    split
    · simp only; omega
    · simp only; omega

theorem historyAt_isSome (history : List (List Char)) (i : Int) (h0 : 0 ≤ i)
    (hlt : i < (history.length : Int)) : ∃ entry, historyAt history i = some entry := by
  have hlt' : i.toNat < history.length := by omega
  refine ⟨history.get ⟨i.toNat, hlt'⟩, ?_⟩
  unfold historyAt
  rw [if_neg (by omega)]
  exact List.get?_eq_get hlt'

theorem onArrow_inv (s : Editor) (b : Char) (h : EditorInv s) : EditorInv (onArrow s b) := by
  obtain ⟨m0, m1⟩ := moveCursor_range s b h
  obtain ⟨entry, hat⟩ := historyAt_isSome s.history _ m0 m1
  obtain ⟨hhead, hlen, -, -, hst⟩ := h
  unfold onArrow
  simp only [hat]
  exact ⟨hhead, hlen, m0, m1, hst⟩

theorem onEnter_inv (env : Env) (s : Editor) (b : Char) (h : EditorInv s) :
    EditorInv (onEnter env s b) := by
  obtain ⟨hhead, hlen, h0, hlt, hst⟩ := h
  unfold HISTORY_SIZE_MAX at hlen
  unfold onEnter
  simp only
  cases hout : (process_command env s.proc s.command false).outcome with
  | hang => exact ⟨hhead, hlen, h0, hlt, by simp⟩
  | exited c => exact ⟨hhead, hlen, h0, hlt, by simp⟩
  | returned rtn =>
    simp only
    by_cases hr : rtn = -1
    · rw [if_pos hr]; exact ⟨hhead, hlen, h0, hlt, by simp⟩
    · rw [if_neg hr]
      cases hh : s.history with
      | nil => rw [hh] at hhead; simp at hhead
      | cons x tl =>
        rw [hh] at hhead hlen hlt
        simp only [List.head?_cons, Option.some.injEq] at hhead
        subst hhead
        simp only [historyInsert]
        unfold EditorInv HISTORY_SIZE_MAX
        simp only [List.length_cons] at hlen hlt ⊢
        by_cases hbig : tl.length + 1 + 1 > 11
        · rw [if_pos hbig]
          refine ⟨?_, ?_, h0, ?_, hst⟩
          · simp [List.dropLast]
          · simp only [List.length_dropLast, List.length_cons]; omega
          · simp only [List.length_dropLast, List.length_cons]; omega
        · rw [if_neg hbig]
          refine ⟨rfl, ?_, h0, ?_, hst⟩
          · simp only [List.length_cons]; omega
          · simp only [List.length_cons]; omega

theorem step_inv (env : Env) (s : Editor) (b : Char) (h : EditorInv s) :
    EditorInv (step env s b) := by
  by_cases hrun : s.status = Status.running
  · rw [step_running env s b hrun]
    by_cases h1 : b = CTRL_D
    · rw [if_pos h1]
      obtain ⟨a1, a2, a3, a4, -⟩ := h
      exact ⟨a1, a2, a3, a4, by simp⟩
    rw [if_neg h1]
    by_cases h2 : b = ENTER
    · rw [if_pos h2]; exact onEnter_inv env s b h
    rw [if_neg h2]
    by_cases h3 : b = BACKSPACE ∨ b = DELETE
    · rw [if_pos h3]
      obtain ⟨f1, -, f3, f4, -⟩ := onBackspace_frame s
      unfold EditorInv
      rw [f1, f3, f4]
      exact h
    rw [if_neg h3]
    by_cases h4 : b = UP ∨ b = DOWN
    · rw [if_pos h4]; exact onArrow_inv s b h
    rw [if_neg h4]
    obtain ⟨f1, -, f3, f4⟩ := onOther_frame s b
    unfold EditorInv
    rw [f1, f3, f4]
    exact h
  · rw [step_stopped env s b hrun]; exact h

theorem run_inv (env : Env) : ∀ (bytes : List Char) (s : Editor), EditorInv s →
    EditorInv (run env s bytes)
  | [], _, h => h
  | b :: bs, s, h => by
    rw [run_cons]
    exact run_inv env bs (step env s b) (step_inv env s b h)

/-! ## What a call writes to its trace -/

theorem sys_dup_trace (p : Proc) (fd : Int) : (sys_dup p fd).2.trace = p.trace := by
  unfold sys_dup; split <;> rfl

theorem sys_dup2_trace (p : Proc) (fd : Int) (std : Nat) : (sys_dup2 p fd std).trace = p.trace := by
  unfold sys_dup2; split
  · rfl
  · split <;> rfl

theorem sys_close_trace (p : Proc) (fd : Int) : (sys_close p fd).trace = p.trace := by
  unfold sys_close; split <;> rfl

theorem sys_open_trace (env : Env) (p : Proc) (path : List Char) :
    (sys_open env p path).2.trace = p.trace := by
  unfold sys_open; split <;> rfl

theorem saveStd_trace (p : Proc) (saved : Int) (std : Nat) :
    (saveStd p saved std).2.trace = p.trace := by
  unfold saveStd; split
  · exact sys_dup_trace p _
  · rfl

theorem redirectTo_trace (env : Env) (p : Proc) (fname : List Char) (std : Nat) :
    (redirectTo env p fname std).trace = p.trace := by
  unfold redirectTo
  simp only [sys_close_trace, sys_dup2_trace, sys_open_trace]

/-- A loop of `redirectIO` writes nothing to the trace, whatever `open` returns. -/
theorem redirectLoop_trace (env : Env) (op : Char) (std : Nat) :
    ∀ (fuel : Nat) (p : Proc) (saved : Int) (command : List Char) (q : Proc) (s1 : Int)
      (c1 : List Char), redirectLoop env op std fuel p saved command = some (q, s1, c1) →
      q.trace = p.trace := by
  intro fuel
  induction fuel with
  | zero =>
    intro p saved command q s1 c1 hrun
    cases h1 : Str.find command op 0 with
    | none =>
      rw [redirectLoop_done h1] at hrun
      simp only [Option.some.injEq, Prod.mk.injEq] at hrun
      rw [← hrun.1]
    | some pos1 =>
      unfold redirectLoop at hrun
      simp [h1] at hrun
  | succ n ih =>
    intro p saved command q s1 c1 hrun
    cases h1 : Str.find command op 0 with
    | none =>
      rw [redirectLoop_done h1] at hrun
      simp only [Option.some.injEq, Prod.mk.injEq] at hrun
      rw [← hrun.1]
    | some pos1 =>
      cases h2 : Str.find_first_not_of command ' ' (pos1 + 1) with
      | none =>
        rw [redirectLoop_bare h1 h2] at hrun
        simp only [Option.some.injEq, Prod.mk.injEq] at hrun
        rw [← hrun.1, sys_dup2_trace, saveStd_trace]
      | some pos2 =>
        rw [redirectLoop_file h1 h2] at hrun
        rw [ih _ _ _ _ _ _ hrun, redirectTo_trace, saveStd_trace]

/-- The function `redirectIO` writes nothing to the trace. -/
theorem redirectIO_trace {env : Env} {p : Proc} {fds : Fds} {command : List Char}
    {r : Redirected} (hrun : redirectIO env p fds command = some r) : r.proc.trace = p.trace := by
  unfold redirectIO at hrun
  cases hl : redirectLoop env '<' 0 command.length p fds.fd0 command with
  | none => rw [hl] at hrun; exact Option.noConfusion hrun
  | some x =>
    obtain ⟨p1, s0, c1⟩ := x
    rw [hl] at hrun
    simp only at hrun
    cases hg : redirectLoop env '>' 1 c1.length p1 fds.fd1 c1 with
    | none => rw [hg] at hrun; exact Option.noConfusion hrun
    | some y =>
      obtain ⟨p2, s1, c2⟩ := y
      rw [hg] at hrun
      simp only [Option.some.injEq] at hrun
      subst hrun
      simp only
      rw [redirectLoop_trace env '>' 1 _ _ _ _ _ _ _ hg,
        redirectLoop_trace env '<' 0 _ _ _ _ _ _ _ hl]

theorem finish_trace (p : Proc) (fds : Fds) (rtn : Int) (isChild : Bool) :
    (finish p fds rtn isChild).1.trace = p.trace := by
  unfold finish
  split
  · rfl
  · simp only
    split <;> split <;> simp only [sys_dup2_trace, sys_close_trace]

/-- The chain of `process_command`, branch by branch: the branch is chosen by
the prefix rule on the text as it is before `redirectIO` has run. -/
theorem dispatch_cases (env : Env) (p : Proc) (fds : Fds) (t : List Char) :
    ∃ d r, dispatch env p fds t = some d ∧ redirectIO env p fds t = some r ∧
      ((invokes PWD t ∧ d.rtn = some 1 ∧ d.proc = r.proc.log (Event.builtin PWD r.command)) ∨
       (invokes CD t ∧ d.rtn = some 1 ∧ d.proc = r.proc.log (Event.builtin CD r.command)) ∨
       (invokes LS t ∧ d.rtn = some 1 ∧ d.proc = r.proc.log (Event.builtin LS r.command)) ∨
       (invokes FF t ∧ d.rtn ≠ some 0 ∧ d.rtn ≠ some 2 ∧ d.proc = (ff env r.proc r.command).1) ∨
       (invokes EXIT t ∧ d.rtn = some (-1) ∧ d.proc = r.proc) ∨
       ((¬ invokes PWD t ∧ ¬ invokes CD t ∧ ¬ invokes LS t ∧ ¬ invokes FF t ∧
           ¬ invokes EXIT t) ∧ d.rtn = some 1 ∧
         d.proc = (if Str.find_first_not_of r.command ' ' 0 = none then r.proc
           else r.proc.log (Event.exec r.command (env.execFails r.command))))) := by
  unfold dispatch
  rcases preprocess_command_one env p fds t PWD with ⟨r0, h0, hr0, ht0⟩ | ⟨k0, r0, h0, hk0, ht0⟩
  · rw [h0]
    exact ⟨_, r0, rfl, hr0, Or.inl ⟨ht0, rfl, rfl⟩⟩
  rw [h0]
  split
  · rename_i heq; exact Option.noConfusion heq
  · rename_i r' heq
    simp only [Option.some.injEq, Prod.mk.injEq] at heq
    exact absurd heq.1 hk0
  rcases preprocess_command_one env p fds t CD with ⟨r1, h1, hr1, ht1⟩ | ⟨k1, r1, h1, hk1, ht1⟩
  · rw [h1]
    exact ⟨_, r1, rfl, hr1, Or.inr (Or.inl ⟨ht1, rfl, rfl⟩)⟩
  rw [h1]
  split
  · rename_i heq; exact Option.noConfusion heq
  · rename_i r' heq
    simp only [Option.some.injEq, Prod.mk.injEq] at heq
    exact absurd heq.1 hk1
  rcases preprocess_command_one env p fds t LS with ⟨r2, h2, hr2, ht2⟩ | ⟨k2, r2, h2, hk2, ht2⟩
  · rw [h2]
    exact ⟨_, r2, rfl, hr2, Or.inr (Or.inr (Or.inl ⟨ht2, rfl, rfl⟩))⟩
  rw [h2]
  split
  · rename_i heq; exact Option.noConfusion heq
  · rename_i r' heq
    simp only [Option.some.injEq, Prod.mk.injEq] at heq
    exact absurd heq.1 hk2
  rcases preprocess_command_one env p fds t FF with ⟨r3, h3, hr3, ht3⟩ | ⟨k3, r3, h3, hk3, ht3⟩
  · rw [h3]
    refine ⟨_, r3, rfl, hr3, Or.inr (Or.inr (Or.inr (Or.inl ⟨ht3, ?_, ?_, rfl⟩)))⟩
    · simp only; split <;> simp
    · simp only; split <;> simp
  rw [h3]
  split
  · rename_i heq; exact Option.noConfusion heq
  · rename_i r' heq
    simp only [Option.some.injEq, Prod.mk.injEq] at heq
    exact absurd heq.1 hk3
  rcases preprocess_command_one env p fds t EXIT with ⟨r4, h4, hr4, ht4⟩ | ⟨k4, r4, h4, hk4, ht4⟩
  · rw [h4]
    exact ⟨_, r4, rfl, hr4, Or.inr (Or.inr (Or.inr (Or.inr (Or.inl ⟨ht4, rfl, rfl⟩))))⟩
  rw [h4]
  split
  · rename_i heq; exact Option.noConfusion heq
  · rename_i r' heq
    simp only [Option.some.injEq, Prod.mk.injEq] at heq
    exact absurd heq.1 hk4
  obtain ⟨rio, hrio, -⟩ := redirectIO_result env p fds t
  rw [hrio]
  simp only
  cases hb : Str.find_first_not_of rio.command ' ' 0 with
  | none =>
    exact ⟨_, rio, rfl, rfl, Or.inr (Or.inr (Or.inr (Or.inr (Or.inr
      ⟨⟨ht0, ht1, ht2, ht3, ht4⟩, rfl, by rw [if_pos hb]⟩))))⟩
  | some q =>
    exact ⟨_, rio, rfl, rfl, Or.inr (Or.inr (Or.inr (Or.inr (Or.inr
      ⟨⟨ht0, ht1, ht2, ht3, ht4⟩, rfl, by rw [hb, if_neg (by simp)]⟩))))⟩

/-- The trace side of `setupPipe`: nothing is written without a `|`, else the
fork of the stage child is. -/
theorem setupPipe_trace {p : Proc} {command : List Char} {s : Piped}
    (hrun : setupPipe p command = some s) :
    s.proc.trace = p.trace ∨ ∃ sub, s.proc.trace = p.trace ++ [Event.pipeStage sub] := by
  unfold setupPipe at hrun
  cases hp : Str.find_last_of '|' command with
  | none =>
    rw [hp] at hrun
    simp only [Option.some.injEq] at hrun
    subst hrun
    exact Or.inl rfl
  | some pos =>
    rw [hp] at hrun
    simp only [sys_pipe, Option.some.injEq] at hrun
    subst hrun
    refine Or.inr ⟨if pos ≠ 0 then Str.substr command 0 pos else [], ?_⟩
    simp only [sys_close_trace, sys_dup2_trace, sys_dup_trace]
    rfl

/-- The trace of a call of `process_command` that is not backgrounded is the
trace `setupPipe` leaves followed by what the chosen branch writes: the
diagnostic of line 191 is never written. -/
theorem process_command_fg_trace (env : Env) {p : Proc} {line : List Char} (isChild : Bool)
    {s : Piped} (h : runBg line = none) (hs : setupPipe p line = some s) :
    (stripLeadingSpaces s.command = [] ∧
      (process_command env p line isChild).proc.trace = s.proc.trace) ∨
    (stripLeadingSpaces s.command ≠ [] ∧
      ∃ d, dispatch env s.proc ⟨s.saved, -1⟩ (stripLeadingSpaces s.command) = some d ∧
        (process_command env p line isChild).proc.trace = d.proc.trace ∧
        ((∃ rtn, d.rtn = some rtn ∧
            (process_command env p line isChild).outcome = (finish d.proc d.fds rtn isChild).2) ∨
          (d.rtn = none ∧ (process_command env p line isChild).outcome = Outcome.exited 1))) := by
  unfold process_command
  simp only [h, hs]
  cases hpos : Str.find_first_not_of s.command ' ' 0 with
  | none =>
    exact Or.inl ⟨stripLeadingSpaces_of_none hpos, finish_trace _ _ _ _⟩
  | some pos =>
    obtain ⟨hsub, hne⟩ := stripLeadingSpaces_of_some hpos
    obtain ⟨d, r, hd, -, hcases⟩ :=
      dispatch_cases env s.proc ⟨s.saved, -1⟩ (stripLeadingSpaces s.command)
    refine Or.inr ⟨hne, d, hd, ?_⟩
    simp only [hsub, hd]
    have hrtn : d.rtn ≠ some 0 ∧ d.rtn ≠ some 2 := by
      rcases hcases with ⟨-, h1, -⟩ | ⟨-, h1, -⟩ | ⟨-, h1, -⟩ | ⟨-, h1, h2, -⟩ | ⟨-, h1, -⟩ |
        ⟨-, h1, -⟩
      all_goals first | exact ⟨h1, h2⟩ | (rw [h1]; simp)
    cases hdr : d.rtn with
    | none => exact ⟨rfl, Or.inr ⟨rfl, rfl⟩⟩
    | some rtn =>
      rw [hdr] at hrtn
      have hnot : ¬ (rtn = 2 ∨ rtn = 0) := by
        rintro (h2 | h0)
        · exact hrtn.2 (by rw [h2])
        · exact hrtn.1 (by rw [h0])
      simp only [if_neg hnot]
      exact ⟨finish_trace _ _ _ _, Or.inl ⟨rtn, rfl, rfl⟩⟩

/-- Two built-in names called by the same text start with the same letter. -/
theorem invokes_excl {n1 n2 t : List Char} (h1 : n1 ≠ []) (h2 : n2 ≠ [])
    (i1 : invokes n1 t) (i2 : invokes n2 t) : n1.head? = n2.head? := by
  cases n1 with
  | nil => exact absurd rfl h1
  | cons x xs =>
    cases n2 with
    | nil => exact absurd rfl h2
    | cons y ys =>
      have a := builtin_head x xs rfl i1
      have b := builtin_head y ys rfl i2
      rw [a] at b
      simpa using b

/-- The chain of `process_command` as one implication per branch. -/
theorem dispatch_branch (env : Env) (p : Proc) (fds : Fds) (t : List Char) :
    ∃ d r, dispatch env p fds t = some d ∧ redirectIO env p fds t = some r ∧
      (invokes PWD t → d.rtn = some 1 ∧ d.proc = r.proc.log (Event.builtin PWD r.command)) ∧
      (invokes CD t → d.rtn = some 1 ∧ d.proc = r.proc.log (Event.builtin CD r.command)) ∧
      (invokes LS t → d.rtn = some 1 ∧ d.proc = r.proc.log (Event.builtin LS r.command)) ∧
      (invokes FF t → d.proc = (ff env r.proc r.command).1) ∧
      (invokes EXIT t → d.rtn = some (-1) ∧ d.proc = r.proc) ∧
      (¬ invokes PWD t ∧ ¬ invokes CD t ∧ ¬ invokes LS t ∧ ¬ invokes FF t ∧ ¬ invokes EXIT t →
        d.rtn = some 1 ∧
        d.proc = (if Str.find_first_not_of r.command ' ' 0 = none then r.proc
          else r.proc.log (Event.exec r.command (env.execFails r.command)))) := by
  obtain ⟨d, r, hd, hr, hcases⟩ := dispatch_cases env p fds t
  refine ⟨d, r, hd, hr, ?_⟩
  have n1 : PWD ≠ [] := by decide
  have n2 : CD ≠ [] := by decide
  have n3 : LS ≠ [] := by decide
  have n4 : FF ≠ [] := by decide
  have n5 : EXIT ≠ [] := by decide
  rcases hcases with ⟨hi, h1, h2⟩ | ⟨hi, h1, h2⟩ | ⟨hi, h1, h2⟩ | ⟨hi, -, -, h2⟩ | ⟨hi, h1, h2⟩ |
    ⟨hnone, h1, h2⟩
  · refine ⟨fun _ => ⟨h1, h2⟩, fun hx => ?_, fun hx => ?_, fun hx => ?_, fun hx => ?_,
      fun hx => absurd hi hx.1⟩
    · exact absurd (invokes_excl n1 n2 hi hx) (by decide)
    · exact absurd (invokes_excl n1 n3 hi hx) (by decide)
    · exact absurd (invokes_excl n1 n4 hi hx) (by decide)
    · exact absurd (invokes_excl n1 n5 hi hx) (by decide)
  · refine ⟨fun hx => ?_, fun _ => ⟨h1, h2⟩, fun hx => ?_, fun hx => ?_, fun hx => ?_,
      fun hx => absurd hi hx.2.1⟩
    · exact absurd (invokes_excl n2 n1 hi hx) (by decide)
    · exact absurd (invokes_excl n2 n3 hi hx) (by decide)
    · exact absurd (invokes_excl n2 n4 hi hx) (by decide)
    · exact absurd (invokes_excl n2 n5 hi hx) (by decide)
  · refine ⟨fun hx => ?_, fun hx => ?_, fun _ => ⟨h1, h2⟩, fun hx => ?_, fun hx => ?_,
      fun hx => absurd hi hx.2.2.1⟩
    · exact absurd (invokes_excl n3 n1 hi hx) (by decide)
    · exact absurd (invokes_excl n3 n2 hi hx) (by decide)
    · exact absurd (invokes_excl n3 n4 hi hx) (by decide)
    · exact absurd (invokes_excl n3 n5 hi hx) (by decide)
  · refine ⟨fun hx => ?_, fun hx => ?_, fun hx => ?_, fun _ => h2, fun hx => ?_,
      fun hx => absurd hi hx.2.2.2.1⟩
    · exact absurd (invokes_excl n4 n1 hi hx) (by decide)
    · exact absurd (invokes_excl n4 n2 hi hx) (by decide)
    · exact absurd (invokes_excl n4 n3 hi hx) (by decide)
    · exact absurd (invokes_excl n4 n5 hi hx) (by decide)
  · refine ⟨fun hx => ?_, fun hx => ?_, fun hx => ?_, fun hx => ?_, fun _ => ⟨h1, h2⟩,
      fun hx => absurd hi hx.2.2.2.2⟩
    · exact absurd (invokes_excl n5 n1 hi hx) (by decide)
    · exact absurd (invokes_excl n5 n2 hi hx) (by decide)
    · exact absurd (invokes_excl n5 n3 hi hx) (by decide)
    · exact absurd (invokes_excl n5 n4 hi hx) (by decide)
  · exact ⟨fun hx => absurd hx hnone.1, fun hx => absurd hx hnone.2.1,
      fun hx => absurd hx hnone.2.2.1, fun hx => absurd hx hnone.2.2.2.1,
      fun hx => absurd hx hnone.2.2.2.2, fun _ => ⟨h1, h2⟩⟩

/-- The single event `ff` writes. -/
theorem ff_trace (env : Env) (p : Proc) (command : List Char) :
    (ff env p command).1.trace = p.trace ++ [Event.builtin FF command] ∨
    (ff env p command).1.trace
      = p.trace ++ [Event.err "ff command requires a filename!\n".toList] := by
  unfold ff
  split
  · exact Or.inr rfl
  · exact Or.inl rfl

/-! ## The first character of the text survives `redirectIO` unless it is an operator -/

theorem Str.erase_head (s : List Char) (pos n : Nat) (hpos : 0 < pos) :
    (Str.erase s pos n).head? = s.head? := by
  unfold Str.erase
  cases s with
  | nil => simp
  | cons x rest =>
    cases pos with
    | zero => exact absurd hpos (Nat.lt_irrefl 0)
    | succ k => simp

theorem Str.find_pos_of_head {s : List Char} {op x : Char} {pos1 : Nat}
    (h1 : Str.find s op 0 = some pos1) (hx : s.head? = some x) (hne : x ≠ op) : 0 < pos1 := by
  obtain ⟨a, b, rfl, ha, -⟩ := Str.find_eq_some h1
  cases a with
  | nil =>
    simp only [List.nil_append, List.head?_cons, Option.some.injEq] at hx
    exact absurd hx.symm hne
  | cons y ys => rw [← ha]; simp

theorem redirectLoop_head (env : Env) (op : Char) (std : Nat) (x : Char) (hne : x ≠ op) :
    ∀ (fuel : Nat) (p : Proc) (saved : Int) (command : List Char) (q : Proc) (s1 : Int)
      (c1 : List Char), redirectLoop env op std fuel p saved command = some (q, s1, c1) →
      command.head? = some x → c1.head? = some x := by
  intro fuel
  induction fuel with
  | zero =>
    intro p saved command q s1 c1 hrun hx
    cases h1 : Str.find command op 0 with
    | none =>
      rw [redirectLoop_done h1] at hrun
      simp only [Option.some.injEq, Prod.mk.injEq] at hrun
      rw [← hrun.2.2]; exact hx
    | some pos1 =>
      unfold redirectLoop at hrun
      simp [h1] at hrun
  | succ n ih =>
    intro p saved command q s1 c1 hrun hx
    cases h1 : Str.find command op 0 with
    | none =>
      rw [redirectLoop_done h1] at hrun
      simp only [Option.some.injEq, Prod.mk.injEq] at hrun
      rw [← hrun.2.2]; exact hx
    | some pos1 =>
      have hpos := Str.find_pos_of_head h1 hx hne
      cases h2 : Str.find_first_not_of command ' ' (pos1 + 1) with
      | none =>
        rw [redirectLoop_bare h1 h2] at hrun
        simp only [Option.some.injEq, Prod.mk.injEq] at hrun
        rw [← hrun.2.2, Str.erase_head _ _ _ hpos]; exact hx
      | some pos2 =>
        rw [redirectLoop_file h1 h2] at hrun
        exact ih _ _ _ _ _ _ hrun (by rw [Str.erase_head _ _ _ hpos]; exact hx)

theorem redirectIO_head {env : Env} {p : Proc} {fds : Fds} {command : List Char}
    {r : Redirected} {x : Char} (hrun : redirectIO env p fds command = some r)
    (hx : command.head? = some x) (h1 : x ≠ '<') (h2 : x ≠ '>') : r.command.head? = some x := by
  unfold redirectIO at hrun
  cases hl : redirectLoop env '<' 0 command.length p fds.fd0 command with
  | none => rw [hl] at hrun; exact Option.noConfusion hrun
  | some y =>
    obtain ⟨p1, s0, c1⟩ := y
    rw [hl] at hrun
    simp only at hrun
    cases hg : redirectLoop env '>' 1 c1.length p1 fds.fd1 c1 with
    | none => rw [hg] at hrun; exact Option.noConfusion hrun
    | some z =>
      obtain ⟨p2, s1, c2⟩ := z
      rw [hg] at hrun
      simp only [Option.some.injEq] at hrun
      subst hrun
      exact redirectLoop_head env '>' 1 x h2 _ _ _ _ _ _ _ hg
        (redirectLoop_head env '<' 0 x h1 _ _ _ _ _ _ _ hl hx)

/-- A text whose first character is not a space is not blank. -/
theorem not_blank_of_head {s : List Char} {x : Char} (hx : s.head? = some x) (hne : x ≠ ' ') :
    Str.find_first_not_of s ' ' 0 ≠ none := by
  intro h
  rw [Str.find_first_not_of_eq_none] at h
  cases s with
  | nil => simp at hx
  | cons y ys =>
    simp only [List.head?_cons, Option.some.injEq] at hx
    subst hx
    exact hne (h y (by simp))

/-- Every event a call that is not backgrounded adds to the trace: the fork of
a stage child, a built-in, the validation message of `ff`, or a forked
program. -/
theorem process_command_fg_events (env : Env) {p : Proc} {line : List Char} (isChild : Bool)
    (h : runBg line = none) :
    ∀ e ∈ (process_command env p line isChild).proc.trace,
      e ∈ p.trace ∨ (∃ sub, e = Event.pipeStage sub) ∨ (∃ name cmd, e = Event.builtin name cmd) ∨
      (∃ cmd failed, e = Event.exec cmd failed) ∨
      e = Event.err "ff command requires a filename!\n".toList := by
  obtain ⟨s, hs, -, -⟩ := setupPipe_text p line
  have hpre : ∀ e ∈ s.proc.trace, e ∈ p.trace ∨ (∃ sub, e = Event.pipeStage sub) := by
    intro e he
    rcases setupPipe_trace hs with ht | ⟨sub, ht⟩
    · rw [ht] at he; exact Or.inl he
    · rw [ht] at he
      rcases List.mem_append.1 he with he | he
      · exact Or.inl he
      · exact Or.inr ⟨sub, by simpa using he⟩
  have lift : ∀ e ∈ s.proc.trace,
      e ∈ p.trace ∨ (∃ sub, e = Event.pipeStage sub) ∨ (∃ name cmd, e = Event.builtin name cmd) ∨
      (∃ cmd failed, e = Event.exec cmd failed) ∨
      e = Event.err "ff command requires a filename!\n".toList := by
    intro e he
    rcases hpre e he with h1 | h1
    · exact Or.inl h1
    · exact Or.inr (Or.inl h1)
  rcases process_command_fg_trace env isChild h hs with ⟨-, htrace⟩ | ⟨-, d, hd, htrace, -⟩
  · rw [htrace]; exact lift
  · rw [htrace]
    obtain ⟨d', r, hd', hr, hcases⟩ :=
      dispatch_cases env s.proc ⟨s.saved, -1⟩ (stripLeadingSpaces s.command)
    rw [hd] at hd'
    simp only [Option.some.injEq] at hd'
    subst hd'
    have hrt := redirectIO_trace hr
    intro e he
    rcases hcases with ⟨-, -, h2⟩ | ⟨-, -, h2⟩ | ⟨-, -, h2⟩ | ⟨-, -, -, h2⟩ | ⟨-, -, h2⟩ |
      ⟨-, -, h2⟩
    · rw [h2] at he
      simp only [Proc.log, hrt, List.mem_append, List.mem_singleton] at he
      rcases he with he | he
      · exact lift e he
      · exact Or.inr (Or.inr (Or.inl ⟨_, _, he⟩))
    · rw [h2] at he
      simp only [Proc.log, hrt, List.mem_append, List.mem_singleton] at he
      rcases he with he | he
      · exact lift e he
      · exact Or.inr (Or.inr (Or.inl ⟨_, _, he⟩))
    · rw [h2] at he
      simp only [Proc.log, hrt, List.mem_append, List.mem_singleton] at he
      rcases he with he | he
      · exact lift e he
      · exact Or.inr (Or.inr (Or.inl ⟨_, _, he⟩))
    · rw [h2] at he
      rcases ff_trace env r.proc r.command with hf | hf
      · rw [hf, hrt] at he
        simp only [List.mem_append, List.mem_singleton] at he
        rcases he with he | he
        · exact lift e he
        · exact Or.inr (Or.inr (Or.inl ⟨_, _, he⟩))
      · rw [hf, hrt] at he
        simp only [List.mem_append, List.mem_singleton] at he
        rcases he with he | he
        · exact lift e he
        · exact Or.inr (Or.inr (Or.inr (Or.inr he)))
    · rw [h2, hrt] at he
      exact lift e he
    · rw [h2] at he
      split at he
      · rw [hrt] at he; exact lift e he
      · simp only [Proc.log, hrt, List.mem_append, List.mem_singleton] at he
        rcases he with he | he
        · exact lift e he
        · exact Or.inr (Or.inr (Or.inr (Or.inl ⟨_, _, he⟩)))

/-- The token loop of `parse` ends: every further turn starts at a later index. -/
theorem parseTokens_result (command : List Char) :
    ∀ (fuel pos1 : Nat), command.length ≤ fuel + pos1 →
      ∃ tokens, parseTokens command fuel pos1 = some tokens ∧ tokens ≠ [] := by
  intro fuel
  induction fuel with
  | zero =>
    intro pos1 hlen
    cases h1 : Str.find_first_of command [' '] pos1 with
    | none =>
      unfold parseTokens
      simp only [h1]
      exact ⟨_, rfl, List.cons_ne_nil _ _⟩
    | some pos2 =>
      obtain ⟨hle, hlt, -, -⟩ := Str.findFrom_eq_some h1
      omega
  | succ n ih =>
    intro pos1 hlen
    cases h1 : Str.find_first_of command [' '] pos1 with
    | none =>
      unfold parseTokens
      simp only [h1]
      exact ⟨_, rfl, List.cons_ne_nil _ _⟩
    | some pos2 =>
      obtain ⟨hle, hlt, ⟨x, hx, hpx⟩, -⟩ := Str.findFrom_eq_some h1
      cases h2 : Str.find_first_not_of command ' ' pos2 with
      | none =>
        unfold parseTokens
        simp only [h1, h2]
        exact ⟨_, rfl, List.cons_ne_nil _ _⟩
      | some q =>
        obtain ⟨hle2, hlt2, ⟨y, hy, hpy⟩, -⟩ := Str.findFrom_eq_some h2
        have hne : q ≠ pos2 := by
          rintro rfl
          rw [hx] at hy
          simp only [Option.some.injEq] at hy
          subst hy
          simp at hpx hpy
          exact hpy hpx
        obtain ⟨rest, hrest, -⟩ := ih q (by omega)
        unfold parseTokens
        simp only [h1, h2, hrest, Option.map_some']
        exact ⟨_, rfl, List.cons_ne_nil _ _⟩

/-- The counting loop of `parse` ends. -/
theorem countSpaces_result (command : List Char) :
    ∀ (fuel pos1 i : Nat), command.length ≤ fuel + pos1 + 1 →
      ∃ n, countSpaces command fuel pos1 i = some n := by
  intro fuel
  induction fuel with
  | zero =>
    intro pos1 i hlen
    cases h1 : Str.find command ' ' (pos1 + 1) with
    | none =>
      unfold countSpaces
      simp only [h1]
      exact ⟨_, rfl⟩
    | some q =>
      obtain ⟨hle, hlt, -, -⟩ := Str.findFrom_eq_some h1
      omega
  | succ n ih =>
    intro pos1 i hlen
    cases h1 : Str.find command ' ' (pos1 + 1) with
    | none =>
      unfold countSpaces
      simp only [h1]
      exact ⟨_, rfl⟩
    | some q =>
      obtain ⟨hle, hlt, -, -⟩ := Str.findFrom_eq_some h1
      unfold countSpaces
      simp only [h1]
      exact ih q (i + 1) (by omega)

/-- The function `parse` returns on every text, with the fuel its model gives
the two loops. -/
theorem parse_result (command : List Char) :
    ∃ n tokens, countSpaces command command.length 0 0 = some n ∧
      parseTokens command command.length 0 = some tokens ∧
      parse command = some ⟨n + 2, tokens.map some ++ [none]⟩ := by
  obtain ⟨n, hn⟩ := countSpaces_result command command.length 0 0 (by omega)
  obtain ⟨tokens, ht, -⟩ := parseTokens_result command command.length 0 (by omega)
  refine ⟨n, tokens, hn, ht, ?_⟩
  unfold parse
  simp only [hn, ht]

/-- On a text that starts with a space the first token is empty. -/
theorem parseTokens_leading_space (t : List Char) :
    ∃ rest, parseTokens (' ' :: t) (' ' :: t).length 0 = some ([] :: rest) := by
  have h1 : Str.find_first_of (' ' :: t) [' '] 0 = some 0 := by
    simp [Str.find_first_of, Str.findFrom, Str.findIdx]
  have hlen : (' ' :: t).length = t.length + 1 := rfl
  rw [hlen]
  have hempty : cString (Str.substr (' ' :: t) 0 (0 - 0)) = [] := rfl
  cases h2 : Str.find_first_not_of (' ' :: t) ' ' 0 with
  | none =>
    unfold parseTokens
    simp only [h1, h2, hempty]
    exact ⟨[], rfl⟩
  | some q =>
    obtain ⟨-, hlt2, ⟨y, hy, hpy⟩, -⟩ := Str.findFrom_eq_some h2
    have hq : q ≠ 0 := by
      rintro rfl
      simp at hy
      subst hy
      simp at hpy
    obtain ⟨rest, hrest, -⟩ := parseTokens_result (' ' :: t) t.length q
      (by simp only [List.length_cons]; omega)
    unfold parseTokens
    simp only [h1, h2, hempty, hrest, Option.map_some']
    exact ⟨rest, rfl⟩

/-- A word after one leading space: no space is counted, two tokens are cut. -/
theorem parse_space_word (w : List Char) (hne : w ≠ []) (hsp : ' ' ∉ w) :
    parse (' ' :: w) = some ⟨2, [some [], some (cString w), none]⟩ := by
  obtain ⟨x, w1, rfl⟩ := List.exists_cons_of_ne_nil hne
  have hx : x ≠ ' ' := fun h => hsp (by simp [h])
  have hall : ∀ y ∈ x :: w1, y ≠ ' ' := fun y hy h => hsp (h ▸ hy)
  have hc : countSpaces (' ' :: x :: w1) (' ' :: x :: w1).length 0 0 = some 0 := by
    have : Str.find (' ' :: x :: w1) ' ' (0 + 1) = none := by
      unfold Str.find
      rw [Str.findFrom_eq_none]
      intro y hy
      have := hall y (by simpa using hy)
      simpa using this
    unfold countSpaces
    simp only [this]
  have h1 : Str.find_first_of (' ' :: x :: w1) [' '] 0 = some 0 := by
    simp [Str.find_first_of, Str.findFrom, Str.findIdx]
  have h2 : Str.find_first_not_of (' ' :: x :: w1) ' ' 0 = some 1 := by
    simp [Str.find_first_not_of, Str.findFrom, Str.findIdx, hx]
  have h3 : Str.find_first_of (' ' :: x :: w1) [' '] 1 = none := by
    unfold Str.find_first_of
    rw [Str.findFrom_eq_none]
    intro y hy
    have := hall y (by simpa using hy)
    simpa using this
  have ht : parseTokens (' ' :: x :: w1) (' ' :: x :: w1).length 0
      = some [[], cString (x :: w1)] := by
    have hlen : (' ' :: x :: w1).length = (w1.length + 1) + 1 := rfl
    rw [hlen]
    unfold parseTokens
    simp only [h1, h2]
    unfold parseTokens
    simp only [h3, Option.map_some']
    have e1 : cString (Str.substr (' ' :: x :: w1) 0 (0 - 0)) = [] := rfl
    have e2 : Str.substr (' ' :: x :: w1) 1 ((' ' :: x :: w1).length - 1) = x :: w1 := by
      simp [Str.substr]
    rw [e1, e2]
  unfold parse
  simp only [hc, ht]
  rfl

/-- C11 (as stated, refuted). The residual text of `ls>out` after `redirectIO`
is `ls`, and `ls` is dispatched to the `ls` built-in; yet `ls>out` itself is
dispatched to the external-program path. -/
theorem dispatch_residual_counterexample :
    (( redirectIO Env.plain Proc.shell ⟨-1, -1⟩ "ls>out".toList).map
      (fun r => stripLeadingSpaces r.command) = some LS) ∧
    (process_command Env.plain Proc.shell LS false).proc.trace = [Event.builtin LS LS] ∧
    (process_command Env.plain Proc.shell "ls>out".toList false).proc.trace
      = [Event.exec LS false] := by
  decide

/-- C11 (amended). For every single-stage text `s` (no `|`, no `&`) that is not
blank, the command `process_command` dispatches is the one the built-in prefix
rule selects on `s` with its leading spaces stripped, as it is BEFORE
`redirectIO` erases anything: a built-in when that text is the built-in name or
begins with the name and a space, else the external-program path.  The
redirection is applied after the selection, and the built-in or the forked
program is given the residual text `redirectIO` leaves. -/
theorem dispatch_before_redirection (env : Env) (p : Proc) (s : List Char)
    (hpipe : '|' ∉ s) (hamp : '&' ∉ s) (hne : stripLeadingSpaces s ≠ []) :
    ∃ r, redirectIO env p ⟨-1, -1⟩ (stripLeadingSpaces s) = some r ∧
      (invokes PWD (stripLeadingSpaces s) →
        (process_command env p s false).proc.trace
          = p.trace ++ [Event.builtin PWD r.command]) ∧
      (invokes CD (stripLeadingSpaces s) →
        (process_command env p s false).proc.trace
          = p.trace ++ [Event.builtin CD r.command]) ∧
      (invokes LS (stripLeadingSpaces s) →
        (process_command env p s false).proc.trace
          = p.trace ++ [Event.builtin LS r.command]) ∧
      (invokes FF (stripLeadingSpaces s) →
        (process_command env p s false).proc.trace
            = p.trace ++ [Event.builtin FF r.command] ∨
          (process_command env p s false).proc.trace
            = p.trace ++ [Event.err "ff command requires a filename!\n".toList]) ∧
      (invokes EXIT (stripLeadingSpaces s) →
        (process_command env p s false).proc.trace = p.trace ∧
        (process_command env p s false).outcome = Outcome.returned (-1)) ∧
      (¬ invokes PWD (stripLeadingSpaces s) ∧ ¬ invokes CD (stripLeadingSpaces s) ∧
          ¬ invokes LS (stripLeadingSpaces s) ∧ ¬ invokes FF (stripLeadingSpaces s) ∧
          ¬ invokes EXIT (stripLeadingSpaces s) →
        (process_command env p s false).proc.trace
          = p.trace ++ (if Str.find_first_not_of r.command ' ' 0 = none then []
              else [Event.exec r.command (env.execFails r.command)])) := by
  have hbg : runBg s = none := by
    unfold runBg; rw [Str.find_eq_none.2 hamp]
  obtain ⟨sp, hsp, -, hcase⟩ := setupPipe_text p s
  rcases hcase with ⟨-, -, hcmd, hproc, hsaved⟩ | ⟨a, b, cp, hs, -⟩
  swap
  · exact absurd (by rw [hs]; simp) hpipe
  rcases process_command_fg_trace env false hbg hsp with ⟨hblank, -⟩ | ⟨-, d, hd, htrace, hout⟩
  · rw [hcmd] at hblank; exact absurd hblank hne
  rw [hcmd, hproc, hsaved] at hd
  obtain ⟨d', r, hd', hr, b1, b2, b3, b4, b5, b6⟩ :=
    dispatch_branch env p ⟨-1, -1⟩ (stripLeadingSpaces s)
  rw [hd] at hd'
  simp only [Option.some.injEq] at hd'
  subst hd'
  have hrt := redirectIO_trace hr
  refine ⟨r, hr, ?_, ?_, ?_, ?_, ?_, ?_⟩
  · intro hx
    rw [htrace, (b1 hx).2]; simp only [Proc.log, hrt]
  · intro hx
    rw [htrace, (b2 hx).2]; simp only [Proc.log, hrt]
  · intro hx
    rw [htrace, (b3 hx).2]; simp only [Proc.log, hrt]
  · intro hx
    rw [htrace, b4 hx, ← hrt]
    exact ff_trace env r.proc r.command
  · intro hx
    refine ⟨by rw [htrace, (b5 hx).2, hrt], ?_⟩
    rcases hout with ⟨rtn, hrtn, hout⟩ | ⟨hnone, -⟩
    · rw [(b5 hx).1] at hrtn
      simp only [Option.some.injEq] at hrtn
      rw [hout, finish_outcome, hrtn]
    · rw [(b5 hx).1] at hnone
      exact Option.noConfusion hnone
  · intro hx
    rw [htrace, (b6 hx).2]
    split
    · simp [hrt]
    · simp only [Proc.log, hrt]

/-- C11 (witness). The text `ls >out` is dispatched to the `ls` built-in, the
text `ls>out` takes the external path; each is given the residual text. -/
theorem dispatch_before_redirection_witness :
    ('|' ∉ "ls >out".toList ∧ '&' ∉ "ls >out".toList ∧
      stripLeadingSpaces "ls >out".toList ≠ [] ∧
      invokes LS (stripLeadingSpaces "ls >out".toList) ∧
      ∃ r, redirectIO Env.plain Proc.shell ⟨-1, -1⟩ (stripLeadingSpaces "ls >out".toList)
          = some r ∧
        (process_command Env.plain Proc.shell "ls >out".toList false).proc.trace
          = Proc.shell.trace ++ [Event.builtin LS r.command]) ∧
    ('|' ∉ "ls>out".toList ∧ '&' ∉ "ls>out".toList ∧
      stripLeadingSpaces "ls>out".toList ≠ [] ∧
      ∃ r, redirectIO Env.plain Proc.shell ⟨-1, -1⟩ (stripLeadingSpaces "ls>out".toList)
          = some r ∧
        (process_command Env.plain Proc.shell "ls>out".toList false).proc.trace
          = Proc.shell.trace ++ (if Str.find_first_not_of r.command ' ' 0 = none then []
              else [Event.exec r.command (Env.plain.execFails r.command)])) := by
  refine ⟨⟨by decide, by decide, by decide, by decide, ?_⟩,
    by decide, by decide, by decide, ?_⟩
  · obtain ⟨r, hr, -, -, h, -⟩ :=
      dispatch_before_redirection Env.plain Proc.shell "ls >out".toList
        (by decide) (by decide) (by decide)
    exact ⟨r, hr, h (by decide)⟩
  · obtain ⟨r, hr, -, -, -, -, -, h⟩ :=
      dispatch_before_redirection Env.plain Proc.shell "ls>out".toList
        (by decide) (by decide) (by decide)
    exact ⟨r, hr, h (by decide)⟩

/-- A text on which the matcher of a built-in returns 0 calls none of the five
built-ins. -/
theorem zero_invokes_none {env : Env} {p : Proc} {fds : Fds} {t name : List Char}
    (hname : name ∈ [PWD, CD, LS, FF, EXIT])
    (hzero : ∃ r0, preprocess_command env p fds t name = some (0, r0)) :
    (¬ invokes PWD t ∧ ¬ invokes CD t ∧ ¬ invokes LS t ∧ ¬ invokes FF t ∧ ¬ invokes EXIT t) ∧
      ∃ x, t.head? = some x ∧ x ≠ ' ' ∧ x ≠ '<' ∧ x ≠ '>' := by
  obtain ⟨r0, h0⟩ := hzero
  obtain ⟨r, hr, h1, hz, -⟩ := preprocess_command_cases env p fds t name
  rw [h0] at hr
  simp only [Option.some.injEq] at hr
  subst hr
  have hself : ¬ invokes name t := fun hi => by
    have := h1.2 hi
    simp at this
  obtain ⟨⟨u, rfl⟩, -, -⟩ := hz.1 rfl
  have hhead : ∀ x rest, name = x :: rest → (name ++ u).head? = some x := by
    intro x rest hn; subst hn; rfl
  have hother : ∀ x rest y rest2 n2, name = x :: rest → n2 = y :: rest2 → x ≠ y →
      ¬ invokes n2 (name ++ u) := by
    intro x rest y rest2 n2 hn hn2 hxy hi
    have a := builtin_head y rest2 hn2 hi
    rw [hhead x rest hn] at a
    exact hxy (by simpa using a)
  simp only [List.mem_cons, List.mem_singleton, List.not_mem_nil, or_false] at hname
  rcases hname with rfl | rfl | rfl | rfl | rfl
  · exact ⟨⟨hself, hother 'p' _ 'c' _ CD rfl rfl (by decide),
      hother 'p' _ 'l' _ LS rfl rfl (by decide), hother 'p' _ 'f' _ FF rfl rfl (by decide),
      hother 'p' _ 'e' _ EXIT rfl rfl (by decide)⟩, 'p', rfl, by decide, by decide, by decide⟩
  · exact ⟨⟨hother 'c' _ 'p' _ PWD rfl rfl (by decide), hself,
      hother 'c' _ 'l' _ LS rfl rfl (by decide), hother 'c' _ 'f' _ FF rfl rfl (by decide),
      hother 'c' _ 'e' _ EXIT rfl rfl (by decide)⟩, 'c', rfl, by decide, by decide, by decide⟩
  · exact ⟨⟨hother 'l' _ 'p' _ PWD rfl rfl (by decide),
      hother 'l' _ 'c' _ CD rfl rfl (by decide), hself,
      hother 'l' _ 'f' _ FF rfl rfl (by decide),
      hother 'l' _ 'e' _ EXIT rfl rfl (by decide)⟩, 'l', rfl, by decide, by decide, by decide⟩
  · exact ⟨⟨hother 'f' _ 'p' _ PWD rfl rfl (by decide),
      hother 'f' _ 'c' _ CD rfl rfl (by decide), hother 'f' _ 'l' _ LS rfl rfl (by decide),
      hself, hother 'f' _ 'e' _ EXIT rfl rfl (by decide)⟩, 'f', rfl, by decide, by decide,
      by decide⟩
  · exact ⟨⟨hother 'e' _ 'p' _ PWD rfl rfl (by decide),
      hother 'e' _ 'c' _ CD rfl rfl (by decide), hother 'e' _ 'l' _ LS rfl rfl (by decide),
      hother 'e' _ 'f' _ FF rfl rfl (by decide), hself⟩, 'e', rfl, by decide, by decide,
      by decide⟩

/-- C12 (as stated, refuted). On the stage `lsof` the matcher of `ls` returns 0,
yet when the program exists nothing is written to standard error: the only
event is the fork of a child whose `execvp` succeeds. -/
theorem validation_failure_counterexample :
    (preprocess_command Env.plain Proc.shell ⟨-1, -1⟩ "lsof".toList LS).map Prod.fst = some 0 ∧
    (process_command Env.plain Proc.shell "lsof".toList false).proc.trace
      = [Event.exec "lsof".toList false] := by
  decide

/-- C12 (amended). For every stage on which the matcher of a built-in returns 0
(the stage begins with a built-in name immediately followed by a non-space
character), the chain of `process_command` takes the external-program path: it
leaves `rtn = 1` and forks one child that runs `execvp` on the residual text,
and `Failed to execute <residual text>` is written to standard error, by that
child, exactly when `execvp` fails.  No call of `process_command` ever writes
the `Failed to execute` diagnostic itself. -/
theorem validation_failure_runs_external (env : Env) :
    (∀ (p : Proc) (fds : Fds) (t name : List Char), name ∈ [PWD, CD, LS, FF, EXIT] →
      (∃ r0, preprocess_command env p fds t name = some (0, r0)) →
      ∃ d r, dispatch env p fds t = some d ∧ redirectIO env p fds t = some r ∧
        d.rtn = some 1 ∧
        d.proc.trace = p.trace ++ [Event.exec r.command (env.execFails r.command)]) ∧
    (∀ (p : Proc) (line : List Char) (isChild : Bool),
      ∀ e ∈ (process_command env p line isChild).proc.trace,
        e ∈ p.trace ∨ ∀ m, e ≠ Event.err (failedToExecute m)) := by
  constructor
  · intro p fds t name hname hzero
    obtain ⟨hnone, x, hx, hsp, hlt, hgt⟩ := zero_invokes_none hname hzero
    obtain ⟨d, r, hd, hr, -, -, -, -, -, b6⟩ := dispatch_branch env p fds t
    obtain ⟨hrtn, hproc⟩ := b6 hnone
    refine ⟨d, r, hd, hr, hrtn, ?_⟩
    have hblank := not_blank_of_head (redirectIO_head hr hx hlt hgt) hsp
    rw [hproc, if_neg hblank]
    simp only [Proc.log, redirectIO_trace hr]
  · intro p line isChild e he
    cases hbg : runBg line with
    | some c =>
      have htr : (process_command env p line isChild).proc.trace = p.trace ++ [Event.bg c] := by
        unfold process_command; rw [hbg]; rfl
      rw [htr] at he
      rcases List.mem_append.1 he with he | he
      · exact Or.inl he
      · refine Or.inr (fun m hm => ?_)
        rw [List.mem_singleton] at he
        rw [he] at hm
        exact Event.noConfusion hm
    | none =>
      rcases process_command_fg_events env isChild hbg e he with h1 | ⟨_, h1⟩ | ⟨_, _, h1⟩ |
        ⟨_, _, h1⟩ | h1
      · exact Or.inl h1
      · exact Or.inr (fun m hm => by rw [h1] at hm; exact Event.noConfusion hm)
      · exact Or.inr (fun m hm => by rw [h1] at hm; exact Event.noConfusion hm)
      · exact Or.inr (fun m hm => by rw [h1] at hm; exact Event.noConfusion hm)
      · refine Or.inr (fun m hm => ?_)
        rw [h1] at hm
        have := Event.err.inj hm
        unfold failedToExecute at this
        have hh := congrArg List.head? this
        simp at hh

/-- C12 (witness). The stage `pwdx` with no such program: the matcher of `pwd`
returns 0, the stage is run as a program, and the child reports the failure. -/
theorem validation_failure_runs_external_witness :
    PWD ∈ [PWD, CD, LS, FF, EXIT] ∧
    (∃ r0, preprocess_command Env.bare Proc.shell ⟨-1, -1⟩ "pwdx".toList PWD = some (0, r0)) ∧
    (∃ d r, dispatch Env.bare Proc.shell ⟨-1, -1⟩ "pwdx".toList = some d ∧
      redirectIO Env.bare Proc.shell ⟨-1, -1⟩ "pwdx".toList = some r ∧ d.rtn = some 1 ∧
      d.proc.trace = Proc.shell.trace ++ [Event.exec r.command (Env.bare.execFails r.command)]) ∧
    (process_command Env.bare Proc.shell "pwdx".toList false).proc.trace
      = [Event.exec "pwdx".toList true] :=
  ⟨by decide, ⟨⟨Proc.shell, ⟨-1, -1⟩, "pwdx".toList⟩, by decide⟩,
    (validation_failure_runs_external Env.bare).1 Proc.shell ⟨-1, -1⟩ "pwdx".toList PWD
      (by decide) ⟨⟨Proc.shell, ⟨-1, -1⟩, "pwdx".toList⟩, by decide⟩,
    by decide⟩

/-- C13 (code defect). The model of `redirectIO` writes nothing: on every
input it returns with the trace of events it was given, whatever `open`
answers.  On `cat < nofile` with a file system that refuses every path, the
descriptor returned by `open` is -1, `dup2(-1, 0)` leaves descriptor 0 on the
terminal, no diagnostic naming `nofile` appears, and `process_command` goes on
to fork `cat` as if the redirection had worked. -/
theorem redirectIO_open_failure_silent :
    (∀ (env : Env) (p : Proc) (fds : Fds) (command : List Char),
      (( redirectIO env p fds command).map (fun r => r.proc.trace)) = some p.trace) ∧
    (sys_open Env.bare Proc.shell "nofile".toList).1 = -1 ∧
    (( redirectIO Env.bare Proc.shell ⟨-1, -1⟩ "cat < nofile".toList).map
        (fun r => (r.command, r.proc.trace, r.proc.stream 0)))
      = some ("cat ".toList, [], some (Stream.inherited 0)) ∧
    (process_command { Env.bare with execFails := fun _ => false } Proc.shell
        "cat < nofile".toList false).proc.trace = [Event.exec "cat ".toList false] := by
  refine ⟨?_, by decide, by decide, by decide⟩
  intro env p fds command
  obtain ⟨r, hr, -⟩ := redirectIO_result env p fds command
  rw [hr, Option.map_some', redirectIO_trace hr]

/-- C14 (code defect). On every text that starts with a space `parse` returns a
vector whose argument 0 is the empty string.  Such a text reaches `parse`: for
the line `>out ls`, after `redirectIO` has erased the operator and the filename
the text handed to `parse` on the external-program path is ` ls`, whose leading
space is not stripped again; the vector built for it is the empty string, `ls`
and the null terminator, while the space-free runs of the text are `ls` alone. -/
theorem parse_empty_first_argument :
    (∀ t : List Char,
      (parse (' ' :: t)).map (fun a => a.written.head?) = some (some (some []))) ∧
    (( redirectIO Env.plain Proc.shell ⟨-1, -1⟩ (stripLeadingSpaces ">out ls".toList)).map
        (fun r => r.command)) = some " ls".toList ∧
    (process_command Env.plain Proc.shell ">out ls".toList false).proc.trace
      = [Event.exec " ls".toList false] ∧
    (parse " ls".toList).map (fun a => a.written) = some [some [], some "ls".toList, none] ∧
    (spaceFreeRuns " ls".toList).map some ++ [none] = [some "ls".toList, none] := by
  refine ⟨?_, by decide, by decide, by decide, by decide⟩
  intro t
  obtain ⟨n, tokens, -, ht, hp⟩ := parse_result (' ' :: t)
  obtain ⟨rest, hrest⟩ := parseTokens_leading_space t
  rw [ht] at hrest
  simp only [Option.some.injEq] at hrest
  subst hrest
  rw [hp]
  rfl

/-- C15 (code defect). The bytes 0x41 and 0x42 take the history branch in every
running state, whatever the suppression counter and the bytes before them: the
turn of the loop is the arrow turn (cursor moved, buffer replaced by the
history entry under the cursor), the byte is neither echoed nor appended, and
the counter is left as it was. -/
theorem payload_byte_always_moves_cursor (env : Env) (s : Editor) (b : Char)
    (hrun : s.status = Status.running) (hb : b = UP ∨ b = DOWN) :
    step env s b = onArrow s b ∧
    (step env s b).history_position = (moveCursor s b).1 ∧
    (step env s b).escape_char_timer = s.escape_char_timer ∧
    (∀ entry, historyAt s.history (moveCursor s b).1 = some entry →
      (step env s b).command = entry) := by
  have hstep : step env s b = onArrow s b := by
    rcases hb with rfl | rfl
    · exact step_up env s hrun
    · exact step_down env s hrun
  refine ⟨hstep, ?_, ?_, ?_⟩
  · rw [hstep]; unfold onArrow
    cases he : historyAt s.history (moveCursor s b).1 <;> simp only [he]
  · rw [hstep]; unfold onArrow
    cases he : historyAt s.history (moveCursor s b).1 <;> simp only [he]
  · intro entry he
    rw [hstep]; unfold onArrow
    simp only [he]

/-- C15 (failing input). With `a` typed at the first prompt, counter zero and no
escape byte read, the letter `A` empties the buffer and rings the bell, where
the turn for any other byte would have given the buffer `aA`; typing `ls A`
leaves an empty buffer. -/
theorem payload_byte_always_moves_cursor_witness :
    Editor.typedA.status = Status.running ∧ Editor.typedA.escape_char_timer = 0 ∧
    (Char.ofNat 0x41 = UP ∨ Char.ofNat 0x41 = DOWN) ∧
    step Env.plain Editor.typedA (Char.ofNat 0x41) = onArrow Editor.typedA (Char.ofNat 0x41) ∧
    (step Env.plain Editor.typedA (Char.ofNat 0x41)).command = [] ∧
    (onOther Editor.typedA (Char.ofNat 0x41)).command = ['a', 'A'] ∧
    (run Env.plain (Editor.init Proc.shell) "ls A".toList).command = [] :=
  ⟨rfl, rfl, by decide,
    (payload_byte_always_moves_cursor Env.plain Editor.typedA (Char.ofNat 0x41) rfl
      (by decide)).1,
    (payload_byte_always_moves_cursor Env.plain Editor.typedA (Char.ofNat 0x41) rfl
      (by decide)).2.2.2 [] (by decide),
    by decide, by decide⟩

/-- C16. Prompt format: as a function of the working directory string `d`,
`print_prompt` writes `d` followed by `% ` when `d` has at most 16 characters,
and otherwise (for a `d` that holds a `/`, as every path from `getcwd` does)
`/...` followed by the suffix of `d` that starts at its last `/`, followed by
`% `; in both cases this is the specified prompt text. -/
theorem prompt_format (d : List Char) :
    (d.length ≤ 16 → print_prompt d = some (d ++ ['%', ' '])) ∧
    (16 < d.length → '/' ∈ d →
      print_prompt d = some (['/', '.', '.', '.'] ++ fromLastSlash d ++ ['%', ' '])) ∧
    (d.length ≤ 16 ∨ '/' ∈ d → print_prompt d = some (promptSpec d)) := by
  refine ⟨print_prompt_short d, print_prompt_long d, ?_⟩
  intro h
  unfold promptSpec
  by_cases hlen : d.length ≤ 16
  · rw [if_pos hlen]; exact print_prompt_short d hlen
  · rw [if_neg hlen]
    rcases h with h | h
    · exact absurd h hlen
    · exact print_prompt_long d (by omega) h

/-- C16 (witness). A directory of 16 characters is shown whole, one of 25
characters is shortened to its last component. -/
theorem prompt_format_witness :
    ("/234567890123456".toList.length ≤ 16 ∧
      print_prompt "/234567890123456".toList = some "/234567890123456% ".toList) ∧
    (16 < "/home/user/projects/shell".toList.length ∧ '/' ∈ "/home/user/projects/shell".toList ∧
      print_prompt "/home/user/projects/shell".toList = some "/.../shell% ".toList) :=
  ⟨⟨by decide, ((prompt_format "/234567890123456".toList).1 (by decide)).trans (by decide)⟩,
    by decide, by decide,
    ((prompt_format "/home/user/projects/shell".toList).2.1 (by decide) (by decide)).trans
      (by decide)⟩

/-- C17. Editor state invariant: in every state the loop reaches from its
initial state, on any sequence of input bytes, the history is non-empty with
the empty string at index 0, its size is between 1 and 11, the cursor lies in
`[0, size - 1]`, no out-of-range access has happened, and the lookup
`history[history_position]` that an up or down byte would perform next is in
bounds. -/
theorem editor_invariant (env : Env) (p : Proc) (bytes : List Char) :
    (run env (Editor.init p) bytes).history.head? = some [] ∧
    1 ≤ (run env (Editor.init p) bytes).history.length ∧
    (run env (Editor.init p) bytes).history.length ≤ 11 ∧
    0 ≤ (run env (Editor.init p) bytes).history_position ∧
    (run env (Editor.init p) bytes).history_position
      ≤ ((run env (Editor.init p) bytes).history.length : Int) - 1 ∧
    (run env (Editor.init p) bytes).status ≠ Status.undefinedBehaviour ∧
    (∀ b, ∃ entry, historyAt (run env (Editor.init p) bytes).history
      (moveCursor (run env (Editor.init p) bytes) b).1 = some entry) := by
  have hinv := run_inv env bytes (Editor.init p) (EditorInv.init p)
  have hmove := fun b => moveCursor_range (run env (Editor.init p) bytes) b hinv
  obtain ⟨h1, h2, h3, h4, h5⟩ := hinv
  unfold HISTORY_SIZE_MAX at h2
  refine ⟨h1, by omega, h2, h3, by omega, h5, ?_⟩
  intro b
  exact historyAt_isSome _ _ (hmove b).1 (hmove b).2

/-- C18 (code defect). On a text made of one space and a word, the counting loop
of `parse` starts its search at index 1 and misses the leading space: two slots
are allocated, and the token loop writes three (the empty token, the word, the
null terminator). -/
theorem parse_writes_past_allocation (w : List Char) (hne : w ≠ []) (hsp : ' ' ∉ w) :
    ∃ a, parse (' ' :: w) = some a ∧ a.allocated = 2 ∧ a.written.length = 3 ∧
      a.allocated < a.written.length :=
  ⟨_, parse_space_word w hne hsp, rfl, rfl, Nat.lt_succ_self 2⟩

/-- C18 (failing input). The line `>out ls`: `process_command` hands the text
` ls` to `parse`, which allocates two slots and writes three. -/
theorem parse_writes_past_allocation_witness :
    "ls".toList ≠ [] ∧ ' ' ∉ "ls".toList ∧
    (∃ a, parse (' ' :: "ls".toList) = some a ∧ a.allocated = 2 ∧ a.written.length = 3 ∧
      a.allocated < a.written.length) ∧
    (process_command Env.plain Proc.shell ">out ls".toList false).proc.trace
      = [Event.exec (' ' :: "ls".toList) false] :=
  ⟨by decide, by decide, parse_writes_past_allocation "ls".toList (by decide) (by decide),
    by decide⟩

/-- C19 (code defect). The saved copies of standard input and output are never
closed.  After `ls > out` in the shell process descriptor 3, free on entry,
stays open on the stream of standard output; after `a | b` descriptor 4, free
on entry, stays open on the stream of standard input; each further such line
leaks one more. -/
theorem saved_descriptor_leak :
    Proc.shell.stream 3 = none ∧ Proc.shell.stream 4 = none ∧
    (process_command Env.plain Proc.shell "ls > out".toList false).outcome = Outcome.returned 1 ∧
    (process_command Env.plain Proc.shell "ls > out".toList false).proc.stream 3
      = some (Stream.inherited 1) ∧
    (process_command Env.plain Proc.shell "a | b".toList false).outcome = Outcome.returned 1 ∧
    (process_command Env.plain Proc.shell "a | b".toList false).proc.stream 4
      = some (Stream.inherited 0) ∧
    (process_command Env.plain
        (process_command Env.plain Proc.shell "ls > out".toList false).proc
        "ls > out".toList false).proc.fdt.take 5
      = [some (Stream.inherited 0), some (Stream.inherited 1), some (Stream.inherited 2),
         some (Stream.inherited 1), some (Stream.inherited 1)] := by
  decide

/-- The text `runBg` leaves when it returns true: the line without its first
`&`, which only spaces follow. -/
theorem runBg_eq_some {line c : List Char} (h : runBg line = some c) :
    ∃ a b, line = a ++ '&' :: b ∧ c = a ++ b ∧ '&' ∉ a ∧ ∀ y ∈ b, y = ' ' := by
  unfold runBg at h
  cases h1 : Str.find line '&' 0 with
  | none => rw [h1] at h; exact Option.noConfusion h
  | some pos1 =>
    obtain ⟨a, b, rfl, ha, hnot⟩ := Str.find_eq_some h1
    have hdrop : List.drop (pos1 + 1) (a ++ '&' :: b) = b := by
      rw [← ha]; simp
    cases h2 : Str.find_first_not_of (a ++ '&' :: b) ' ' (pos1 + 1) with
    | some pos2 => simp only [h1, h2] at h; exact Option.noConfusion h
    | none =>
      simp only [h1, h2, Option.some.injEq] at h
      rw [Str.find_first_not_of_eq_none, hdrop] at h2
      refine ⟨a, b, rfl, ?_, hnot, h2⟩
      rw [← h]
      unfold Str.erase
      rw [hdrop, ← ha]
      simp

theorem runBg_of_no_amp {t : List Char} (h : '&' ∉ t) : runBg t = none := by
  unfold runBg
  rw [Str.find_eq_none.2 h]

/-- C20. Background re-entry stops after one level: whenever `runBg` returns
true on a line, the text it leaves is the line with one character removed, the
first and only `&` of the line; the text contains no `&`; `process_command`
hands exactly this text to the forked child; `runBg` returns false on it and on
every text cut out of it (the stage texts of its pipeline, which the child's
own children re-enter with), and a call of `process_command` on any of these
texts adds no background fork to the events of its process. -/
theorem background_one_level (env : Env) (p : Proc) (line c : List Char) (isChild : Bool)
    (h : runBg line = some c) :
    (∃ a b, line = a ++ '&' :: b ∧ c = a ++ b ∧ '&' ∉ a ∧ '&' ∉ b) ∧
    c.length + 1 = line.length ∧ line.count '&' = 1 ∧ '&' ∉ c ∧
    ((process_command env p line isChild).child).map Prod.snd = some c ∧
    runBg c = none ∧
    (∀ (q : Proc) (t : List Char) (flag : Bool), t.Sublist c →
      runBg t = none ∧
      ∀ cmd, Event.bg cmd ∈ (process_command env q t flag).proc.trace → Event.bg cmd ∈ q.trace) := by
  obtain ⟨a, b, rfl, rfl, ha, hb⟩ := runBg_eq_some h
  have hb' : '&' ∉ b := fun hm => by
    have := hb _ hm
    exact absurd this (by decide)
  have hc : '&' ∉ a ++ b := by
    rw [List.mem_append]; exact fun hm => hm.elim ha hb'
  refine ⟨⟨a, b, rfl, rfl, ha, hb'⟩, ?_, ?_, hc, ?_, runBg_of_no_amp hc, ?_⟩
  · simp only [List.length_append, List.length_cons]; omega
  · rw [List.count_append, List.count_cons_self, List.count_eq_zero.2 ha,
      List.count_eq_zero.2 hb']
  · unfold process_command
    rw [h]
    rfl
  · intro q t flag hsub
    have ht : '&' ∉ t := fun hm => hc (hsub.subset hm)
    refine ⟨runBg_of_no_amp ht, ?_⟩
    intro cmd hmem
    rcases process_command_fg_events env flag (runBg_of_no_amp ht) _ hmem with h1 | ⟨_, h1⟩ |
      ⟨_, _, h1⟩ | ⟨_, _, h1⟩ | h1
    · exact h1
    · exact Event.noConfusion h1
    · exact Event.noConfusion h1
    · exact Event.noConfusion h1
    · exact Event.noConfusion h1

/-- C20 (witness). The line `a|ls & `: the child receives `a|ls  `, on which
`runBg` returns false, and its call adds the stage fork and the built-in only. -/
theorem background_one_level_witness :
    runBg "a|ls & ".toList = some "a|ls  ".toList ∧
    runBg "a|ls  ".toList = none ∧
    (∀ cmd, Event.bg cmd ∈ (process_command Env.plain Proc.shell "a|ls  ".toList true).proc.trace →
      Event.bg cmd ∈ Proc.shell.trace) ∧
    (process_command Env.plain Proc.shell "a|ls  ".toList true).proc.trace
      = [Event.pipeStage "a".toList, Event.builtin LS "ls  ".toList] :=
  ⟨by decide,
    (background_one_level Env.plain Proc.shell "a|ls & ".toList "a|ls  ".toList false
      (by decide)).2.2.2.2.2.1,
    ((background_one_level Env.plain Proc.shell "a|ls & ".toList "a|ls  ".toList false
      (by decide)).2.2.2.2.2.2 Proc.shell "a|ls  ".toList true (List.Sublist.refl _)).2,
    by decide⟩

end Ashell
